import Mathlib

/- Verification of the core data structures of the jai-inspired-features
repository: the allocation registry, the DFS/BFS object-graph traverser and
the union-find forest from src/feature1_memory/tracker.py, and the call-graph
builder (Kahn topological sort, Tarjan strongly-connected components) from
src/feature3_callgraph/builder.py.  Python dicts are embedded as association
lists (first binding wins, writes replace the first binding or append), object
identities as natural numbers, and unbounded recursion as fuel-indexed
recursion with fuel chosen large enough that exhaustion is unreachable. -/

/-- Read the value bound to key `k` in an association list; the first binding
wins, mirroring a Python dict read (`m[k]`, `None` when the key is absent). -/
def lookupAL {α β : Type} [DecidableEq α] (m : List (α × β)) (k : α) : Option β :=
  match m with
  | [] => none
  | (a, b) :: rest => if a = k then some b else lookupAL rest k

/-- Write `v` at key `k`: replace the first binding of `k`, or append a fresh
binding, mirroring a Python dict write (`m[k] = v`). -/
def setAL {α β : Type} [DecidableEq α] (m : List (α × β)) (k : α) (v : β) : List (α × β) :=
  match m with
  | [] => [(k, v)]
  | (a, b) :: rest => if a = k then (a, v) :: rest else (a, b) :: setAL rest k v

/-- One allocation record of `HashTableAllocator.track`: the size estimate
(`sys.getsizeof`), the call-stack snippet and the `time.time()` timestamp are
values supplied by the runtime environment, so they are parameters here.  The
`object` field of the Python record is the tracked object itself and carries no
information beyond its identity (the key), so it is not repeated here. -/
structure AllocRecord where
  size : Nat
  call_stack : List String
  timestamp : Nat
deriving DecidableEq

/-- State of `HashTableAllocator`: the `allocations` dict keyed by object
identity and the monotone `total_allocated` counter. -/
structure HashTableAllocator where
  allocations : List (Nat × AllocRecord)
  total_allocated : Nat
deriving DecidableEq

/-- `HashTableAllocator.track`: store (or overwrite) the record for `obj_id`
and increment `total_allocated`.  `obj_id`, `size` and `timestamp` stand for
`id(obj)`, `sys.getsizeof(obj)` and `time.time()` computed by the source. -/
def HashTableAllocator.track (st : HashTableAllocator) (obj_id : Nat) (size : Nat)
    (call_stack : List String) (timestamp : Nat) : HashTableAllocator :=
  { allocations := setAL st.allocations obj_id ⟨size, call_stack, timestamp⟩
    total_allocated := st.total_allocated + 1 }

/-- Result of `HashTableAllocator.get_stats`. -/
structure Stats where
  count : Nat
  total_bytes : Nat
  total_allocated : Nat
deriving DecidableEq

/-- `HashTableAllocator.get_stats`: number of live records, sum of their
sizes, and the historical counter. -/
def HashTableAllocator.get_stats (st : HashTableAllocator) : Stats :=
  { count := st.allocations.length
    total_bytes := (st.allocations.map (fun p => p.2.size)).sum
    total_allocated := st.total_allocated }

/- The object graphs walked by `GraphTraverser` are Python objects linked by
attribute, sequence or mapping references; deduplication is by `id`.  An object
graph is embedded as a map from identity to the (ordered) identities of the
children that the reflective enumeration of the source yields; identities
absent from the map are leaves. -/

/-- An object graph: each node identity is mapped to its ordered child list. -/
def ObjGraph : Type := List (Nat × List Nat)

/-- Children of node `n`: the adjacency entry, or no children for a leaf. -/
def childrenOf (g : ObjGraph) (n : Nat) : List Nat :=
  (lookupAL g n).getD []

/-- Body of `GraphTraverser.dfs`, the inner `_dfs_helper(current, depth)`:
return unchanged if `depth > max_depth` or `current` is visited, else mark
`current` visited and recurse into its children in order at `depth + 1`.  The
fuel argument only bounds nesting; `dfs` passes fuel that exceeds every depth
the guard admits, so the fuel-exhaustion branch is unreachable and returns the
same value the guard would. -/
def dfsGo (g : ObjGraph) (maxDepth : Int) : Nat → Nat → Nat → List Nat → List Nat
  | 0, _, _, visited => visited
  | fuel2 + 1, current, depth, visited =>
    if maxDepth < (depth : Int) ∨ current ∈ visited then visited
    else (childrenOf g current).foldl (fun vis c => dfsGo g maxDepth fuel2 c (depth + 1) vis)
      (visited ++ [current])

/-- The child loop of `_dfs_helper` made explicit: recurse into each child in
order, threading the visited set (definitionally the fold in `dfsGo`). -/
def dfsChildren (g : ObjGraph) (maxDepth : Int) (fuel : Nat) (cs : List Nat) (depth : Nat)
    (visited : List Nat) : List Nat :=
  cs.foldl (fun vis c => dfsGo g maxDepth fuel c depth vis) visited

/-- `GraphTraverser.dfs(obj, max_depth)`: run the helper from the root at
depth 0 with an empty visited set.  The visited set is kept as a list in
insertion order; membership is what the claims consume. -/
def dfs (g : ObjGraph) (root : Nat) (maxDepth : Int) : List Nat :=
  dfsGo g maxDepth ((maxDepth + 1).toNat + 1) root 0 []

/-- The inner reference loop of `GraphTraverser.bfs`: for each child not yet
visited, mark it visited and enqueue it at depth `d`.  The visited set is
instrumented to remember, for each identity, the depth it was discovered at
(the depth stored in the queue entry); the set the source keeps is the list of
first components. -/
def discover (children : List Nat) (d : Nat) (visited : List (Nat × Nat))
    (queue : List (Nat × Nat)) : List (Nat × Nat) × List (Nat × Nat) :=
  match children with
  | [] => (visited, queue)
  | c :: rest =>
    if c ∈ visited.map Prod.fst then discover rest d visited queue
    else discover rest d (visited ++ [(c, d)]) (queue ++ [(c, d)])

/-- The `while queue` loop of `GraphTraverser.bfs`: pop the front entry; if its
depth has reached `max_depth`, do not expand it, else discover its children at
depth + 1.  Fuel bounds the number of iterations; `bfs` passes fuel exceeding
the number of entries that can ever be enqueued, so exhaustion is unreachable. -/
def bfsGo (g : ObjGraph) (maxDepth : Int) (fuel : Nat) (queue : List (Nat × Nat))
    (visited : List (Nat × Nat)) : List (Nat × Nat) :=
  match fuel with
  | 0 => visited
  | fuel2 + 1 =>
    match queue with
    | [] => visited
    | (current, depth) :: rest =>
      if maxDepth ≤ (depth : Int) then bfsGo g maxDepth fuel2 rest visited
      else
        let s := discover (childrenOf g current) (depth + 1) visited rest
        bfsGo g maxDepth fuel2 s.2 s.1

/-- Fuel for `bfsGo`: every dequeued entry was enqueued, the root is enqueued
once and every other enqueued identity is a distinct child occurring in the
graph, so the loop runs at most `1 + total number of child slots` times. -/
def bfsFuel (g : ObjGraph) : Nat :=
  (g.map (fun p => p.2.length)).sum + 2

/-- `GraphTraverser.bfs(obj, max_depth)` instrumented with discovery depths:
the root is visited at depth 0 before the loop, exactly as in the source. -/
def bfsT (g : ObjGraph) (root : Nat) (maxDepth : Int) : List (Nat × Nat) :=
  bfsGo g maxDepth (bfsFuel g) [(root, 0)] [(root, 0)]

/-- `GraphTraverser.bfs(obj, max_depth)`: the visited-identity set (as the
insertion-ordered list of identities). -/
def bfs (g : ObjGraph) (root : Nat) (maxDepth : Int) : List Nat :=
  (bfsT g root maxDepth).map Prod.fst

/-- Paths in an adjacency structure: `PathN adj x y n` holds when there is a
walk of exactly `n` edges from `x` to `y`, each step going to a listed child. -/
inductive PathN {α : Type} (adj : α → List α) : α → α → Nat → Prop
  | refl (x : α) : PathN adj x x 0
  | step {x c y : α} {n : Nat} : c ∈ adj x → PathN adj c y n → PathN adj x y (n + 1)

/-- State of `UnionFind`: the `parent` and `rank` dicts. -/
structure UnionFind where
  parent : List (Nat × Nat)
  rank : List (Nat × Nat)
deriving DecidableEq

/-- The empty `UnionFind()`. -/
def emptyUF : UnionFind := ⟨[], []⟩

/-- `UnionFind.make_set(x)`: register `x` as its own parent with rank 0 when
it is not yet registered; otherwise do nothing. -/
def UnionFind.make_set (uf : UnionFind) (x : Nat) : UnionFind :=
  match lookupAL uf.parent x with
  | some _ => uf
  | none => ⟨uf.parent ++ [(x, x)], uf.rank ++ [(x, 0)]⟩

/-- Body of `UnionFind.find(x)` with path compression: read `parent[x]`
(`none` models the `KeyError` on an unregistered element); if `x` is not its
own parent, recursively find the root of its parent, then point `x` directly
at that root and return it.  The recursion consumes one unit of fuel per hop;
`UnionFind.find` passes fuel exceeding the length of any parent chain of a
well-formed forest, so exhaustion is unreachable there. -/
def findGo (fuel : Nat) (uf : UnionFind) (x : Nat) : Option (Nat × UnionFind) :=
  match fuel with
  | 0 => none
  | fuel2 + 1 =>
    match lookupAL uf.parent x with
    | none => none
    | some p =>
      if p = x then some (x, uf)
      else
        match findGo fuel2 uf p with
        | none => none
        | some (r, uf2) => some (r, ⟨setAL uf2.parent x r, uf2.rank⟩)

/-- `UnionFind.find(x)`: `none` models the `KeyError` raised on an element
never registered with `make_set`; on success it returns the root together with
the path-compressed state. -/
def UnionFind.find (uf : UnionFind) (x : Nat) : Option (Nat × UnionFind) :=
  findGo (uf.parent.length + 1) uf x

/-- `UnionFind.union(x, y)`: find both roots (propagating the `KeyError` of
`find` or of the `rank` reads as `none`); if the roots coincide, return; else
attach the lower-rank root under the higher-rank one, and on a tie attach
`y`'s root under `x`'s root and increment the rank of `x`'s root. -/
def UnionFind.union (uf : UnionFind) (x y : Nat) : Option UnionFind :=
  match uf.find x with
  | none => none
  | some (root_x, uf1) =>
    match uf1.find y with
    | none => none
    | some (root_y, uf2) =>
      if root_x = root_y then some uf2
      else
        match lookupAL uf2.rank root_x, lookupAL uf2.rank root_y with
        | some rkx, some rky =>
          if rkx < rky then some ⟨setAL uf2.parent root_x root_y, uf2.rank⟩
          else if rky < rkx then some ⟨setAL uf2.parent root_y root_x, uf2.rank⟩
          else some ⟨setAL uf2.parent root_y root_x, setAL uf2.rank root_x (rkx + 1)⟩
        | _, _ => none

/-- Rank of `x` (0 when absent; the absent default is never consulted on
well-formed states, whose rank keys coincide with the parent keys). -/
def rankOf (uf : UnionFind) (x : Nat) : Nat :=
  (lookupAL uf.rank x).getD 0

/-- Pure root lookup (specification companion of `find`, without path
compression): follow parent links to the self-parented root. -/
def rootGo : Nat → UnionFind → Nat → Option Nat
  | 0, _, _ => none
  | fuel + 1, uf, x =>
    match lookupAL uf.parent x with
    | none => none
    | some p => if p = x then some x else rootGo fuel uf p

/-- The root of `x`'s set (`none` when `x` is unregistered). -/
def rootOf (uf : UnionFind) (x : Nat) : Option Nat :=
  rootGo (uf.parent.length + 1) uf x

/-- The nodes visited on the parent chain from `x` to its root, root included
(the nodes `find` touches and re-points). -/
def pathGo : Nat → UnionFind → Nat → List Nat
  | 0, _, _ => []
  | fuel + 1, uf, x =>
    match lookupAL uf.parent x with
    | none => []
    | some p => if p = x then [x] else x :: pathGo fuel uf p

/-- The parent chain of `x` up to and including its root. -/
def pathOf (uf : UnionFind) (x : Nat) : List Nat :=
  pathGo (uf.parent.length + 1) uf x

/-- Number of registered keys of rank at least the rank of `x`: the parent
chain climbs this measure down, bounding its length. -/
def above (uf : UnionFind) (x : Nat) : Nat :=
  ((uf.parent.map Prod.fst).filter (fun k => rankOf uf x ≤ rankOf uf k)).length

/-- Well-formedness of a `UnionFind` state, the invariant of claim C9: the
parent and rank dicts share their key set, parents are registered, and ranks
strictly increase from child to parent so that every parent chain reaches a
self-parented root. -/
structure WF (uf : UnionFind) : Prop where
  keys : ∀ x, (lookupAL uf.parent x).isSome ↔ (lookupAL uf.rank x).isSome
  preg : ∀ x p, lookupAL uf.parent x = some p → (lookupAL uf.parent p).isSome
  rup : ∀ x p, lookupAL uf.parent x = some p → p ≠ x → rankOf uf x < rankOf uf p

/-- One operation of a `UnionFind` usage history. -/
inductive UFOp where
  | mkset : Nat → UFOp
  | unite : Nat → Nat → UFOp

/-- Run a history of operations, propagating the `KeyError` of `union` on
unregistered elements as `none`. -/
def runOps : List UFOp → UnionFind → Option UnionFind
  | [], uf => some uf
  | (UFOp.mkset x) :: rest, uf => runOps rest (uf.make_set x)
  | (UFOp.unite x y) :: rest, uf =>
    match uf.union x y with
    | none => none
    | some uf2 => runOps rest uf2

/-- The pairs united by a history, in order. -/
def opPairs : List UFOp → List (Nat × Nat)
  | [] => []
  | (UFOp.mkset _) :: rest => opPairs rest
  | (UFOp.unite x y) :: rest => (x, y) :: opPairs rest

/-- Connectivity by the union history: the equivalence closure (reflexive,
symmetric, transitive) of the united pairs. -/
def histConn (ops : List UFOp) (a b : Nat) : Prop :=
  Relation.EqvGen (fun u v => (u, v) ∈ opPairs ops) a b

/-- The operation history of the concrete scenario of claim C3:
`makeSet(0..4)`, `union(0,1)`, `union(2,3)`. -/
def opsC3 : List UFOp :=
  [UFOp.mkset 0, UFOp.mkset 1, UFOp.mkset 2, UFOp.mkset 3, UFOp.mkset 4,
   UFOp.unite 0 1, UFOp.unite 2 3]

/-- The root a `find(x)` call reports (`none` on the `KeyError`). -/
def findRoot (uf : UnionFind) (x : Nat) : Option Nat :=
  (uf.find x).map Prod.fst

/-- The state a `find(x)` call leaves behind (unchanged on failure), for
spelling out sequences of mutating `find` calls. -/
def findState (uf : UnionFind) (x : Nat) : UnionFind :=
  ((uf.find x).map Prod.snd).getD uf

/-- State of `CallGraphBuilder`: the adjacency dict (callee lists in insertion
order, duplicates preserved) and the set of known functions.  The Python `set`
is embedded as a duplicate-free list in first-seen order, the deterministic
iteration order the spec prescribes for it. -/
structure CallGraphBuilder where
  graph : List (String × List String)
  functions : List String
deriving DecidableEq

/-- `CallGraphBuilder()`. -/
def emptyBuilder : CallGraphBuilder := ⟨[], []⟩

/-- Append `callee` to `graph[caller]`, creating the entry the way the
`defaultdict(list)` of the source does on first touch. -/
def appendEdge (g : List (String × List String)) (caller callee : String) :
    List (String × List String) :=
  match lookupAL g caller with
  | some l => setAL g caller (l ++ [callee])
  | none => g ++ [(caller, [callee])]

/-- Add a function to the known set (no effect when already known). -/
def addFn (fs : List String) (f : String) : List String :=
  if f ∈ fs then fs else fs ++ [f]

/-- `CallGraphBuilder.add_call(caller, callee)`. -/
def CallGraphBuilder.add_call (b : CallGraphBuilder) (caller callee : String) :
    CallGraphBuilder :=
  ⟨appendEdge b.graph caller callee, addFn (addFn b.functions caller) callee⟩

/-- Builder states reachable by a sequence of `add_call` operations from a
fresh `CallGraphBuilder()` — the states the claims quantify over. -/
inductive Built : CallGraphBuilder → Prop
  | empty : Built emptyBuilder
  | step {b : CallGraphBuilder} (caller callee : String) :
      Built b → Built (b.add_call caller callee)

/-- Adjacency of the call graph: `graph[node]`, with the `defaultdict` default
of an empty list for unknown keys. -/
def adjOf (g : List (String × List String)) (n : String) : List String :=
  (lookupAL g n).getD []

/-- The in-degree dict of `topological_sort` after its two initialization
loops: every function starts at 0 and each occurrence of `n` in an adjacency
list contributes one, so the entry of `n` is the number of edges into `n`.
Kept as `Int` because the loop below decrements entries. -/
def inDegree (g : List (String × List String)) (n : String) : Int :=
  ((g.map (fun p => p.2.count n)).sum : Nat)

/-- The neighbor loop of `topological_sort`: decrement the in-degree of each
successor of the dequeued node in order, enqueueing a successor at the moment
its in-degree reaches zero. -/
def processNeighbors (adjList : List String) (indeg : String → Int) (queue : List String) :
    (String → Int) × List String :=
  match adjList with
  | [] => (indeg, queue)
  | n :: rest =>
    let d := indeg n - 1
    processNeighbors rest (fun x => if x = n then d else indeg x)
      (if d = 0 then queue ++ [n] else queue)

/-- The `while queue` loop of `topological_sort`: pop the front node, append
it to the result, and process its neighbors.  Fuel bounds iterations; the
wrapper passes fuel exceeding the number of nodes that can ever be enqueued,
so exhaustion is unreachable. -/
def kahnLoop (g : List (String × List String)) (fuel : Nat) (queue : List String)
    (indeg : String → Int) (result : List String) : List String :=
  match fuel with
  | 0 => result
  | fuel2 + 1 =>
    match queue with
    | [] => result
    | node :: rest =>
      let s := processNeighbors (adjOf g node) indeg rest
      kahnLoop g fuel2 s.2 s.1 (result ++ [node])

/-- `CallGraphBuilder.topological_sort()`: Kahn's algorithm, seeded with the
zero-in-degree functions in function order. -/
def CallGraphBuilder.topological_sort (b : CallGraphBuilder) : List String :=
  kahnLoop b.graph (b.functions.length + 1)
    (b.functions.filter (fun n => inDegree b.graph n = 0)) (inDegree b.graph) []

/-- State of the Tarjan walk in `detect_cycles`: the index counter, the node
stack (top at the head), the `index` and `lowlinks` dicts, the set of nodes
whose `on_stack` flag is true, and the accumulated components.  The `popped`
field is instrumentation only: it records, in pop order, every node removed
from the stack; nothing in the algorithm reads it. -/
structure TarjanState where
  counter : Nat
  stack : List String
  indexM : List (String × Nat)
  lowlinkM : List (String × Nat)
  onStack : List String
  sccs : List (List String)
  popped : List String
deriving DecidableEq

/-- Read `index[n]`. -/
def idxOf (st : TarjanState) (n : String) : Option Nat := lookupAL st.indexM n

/-- Read `lowlinks[n]` (always written before read in the source; the default
is never consulted on the executions the claims are about). -/
def lowOf (st : TarjanState) (n : String) : Nat := (lookupAL st.lowlinkM n).getD 0

/-- The component pop of `strongconnect`: pop stack entries until `node`
inclusive, returning the component in pop order and the remaining stack. -/
def popUntil (stack : List String) (node : String) : List String × List String :=
  match stack with
  | [] => ([], [])
  | s :: rest =>
    if s = node then ([s], rest)
    else
      let p := popUntil rest node
      (s :: p.1, p.2)

/-- The starting state of `detect_cycles`. -/
def initTarjan : TarjanState := ⟨0, [], [], [], [], [], []⟩

/-- `strongconnect(node)` of `detect_cycles`: assign index and lowlink, push
`node`, walk its successors in order (recursing into unindexed ones and
folding lowlinks or on-stack indices in), and if `node` closes its own
component, pop the component and keep it only when it has more than one
member.  Fuel bounds the recursion nesting; `detect_cycles` passes fuel
exceeding the number of nodes that can ever be newly indexed, so exhaustion is
unreachable there. -/
def strongconnect (g : List (String × List String)) : Nat → TarjanState → String → TarjanState
  | 0, st, _ => st
  | fuel2 + 1, st, node =>
    let st1 : TarjanState :=
      { counter := st.counter + 1
        stack := node :: st.stack
        indexM := setAL st.indexM node st.counter
        lowlinkM := setAL st.lowlinkM node st.counter
        onStack := node :: st.onStack
        sccs := st.sccs
        popped := st.popped }
    let st2 := (adjOf g node).foldl
      (fun st3 s =>
        match idxOf st3 s with
        | none =>
          let st4 := strongconnect g fuel2 st3 s
          { st4 with
            lowlinkM := setAL st4.lowlinkM node (min (lowOf st4 node) (lowOf st4 s)) }
        | some i =>
          if s ∈ st3.onStack then
            { st3 with lowlinkM := setAL st3.lowlinkM node (min (lowOf st3 node) i) }
          else st3)
      st1
    if lowOf st2 node = (idxOf st2 node).getD 0 then
      let p := popUntil st2.stack node
      { st2 with
        stack := p.2
        onStack := st2.onStack.filter (fun x => ¬ x ∈ p.1)
        sccs := if 1 < p.1.length then st2.sccs ++ [p.1] else st2.sccs
        popped := st2.popped ++ p.1 }
    else st2

/-- The successor loop of `strongconnect` made explicit (definitionally the
fold in `strongconnect`): recurse into unindexed successors and fold their
lowlinks in; for indexed successors still on the stack, fold their index in. -/
def visitSuccs (g : List (String × List String)) (fuel : Nat) (st : TarjanState)
    (node : String) (succs : List String) : TarjanState :=
  succs.foldl
    (fun st3 s =>
      match idxOf st3 s with
      | none =>
        let st4 := strongconnect g fuel st3 s
        { st4 with
          lowlinkM := setAL st4.lowlinkM node (min (lowOf st4 node) (lowOf st4 s)) }
      | some i =>
        if s ∈ st3.onStack then
          { st3 with lowlinkM := setAL st3.lowlinkM node (min (lowOf st3 node) i) }
        else st3)
    st

/-- The outer loop of `detect_cycles`: visit every known function not yet
indexed. -/
def detectLoop (g : List (String × List String)) (fuel : Nat) (nodes : List String)
    (st : TarjanState) : TarjanState :=
  match nodes with
  | [] => st
  | n :: rest =>
    detectLoop g fuel rest (if (idxOf st n).isSome then st else strongconnect g fuel st n)

/-- `CallGraphBuilder.detect_cycles()`: Tarjan's algorithm over the known
functions, returning the strongly connected components of more than one
member. -/
def CallGraphBuilder.detect_cycles (b : CallGraphBuilder) : List (List String) :=
  (detectLoop b.graph (b.functions.length + 1) b.functions initTarjan).sccs

/-- The concrete call graph of claim C4: edges A→B, B→C, C→A, D→A. -/
def builderC4 : CallGraphBuilder :=
  (((emptyBuilder.add_call "A" "B").add_call "B" "C").add_call "C" "A").add_call "D" "A"

/-- Provenance of BFS records relative to a record list `records`: each record
is the root at depth 0, or was discovered from some recorded node at that
node's depth plus one, with the discoverer strictly below the depth bound. -/
def Provenance (g : ObjGraph) (maxDepth : Int) (root : Nat) (records : List (Nat × Nat)) : Prop :=
  ∀ p ∈ records, p = (root, 0) ∨
    ∃ q ∈ records, p.1 ∈ childrenOf g q.1 ∧ p.2 = q.2 + 1 ∧ (q.2 : Int) < maxDepth

/-- All identities occurring in some child slot of the graph. -/
def UGraph (g : ObjGraph) : List Nat := (g.map Prod.snd).flatten

/-- Reachability in the call graph: a walk of any length. -/
def Reach (g : List (String × List String)) (a b : String) : Prop :=
  ∃ n, PathN (adjOf g) a b n

/-- Total in-degree contribution of the processed nodes `R`: the number of
edges into `m` whose source has already been dequeued by Kahn's loop. -/
def decr (g : List (String × List String)) (R : List String) (m : String) : Int :=
  (R.map (fun u => ((adjOf g u).count m : Int))).sum

/-- Invariant of Kahn's `while queue` loop in `topological_sort`, tying the
mutable in-degree dict to the processed prefix `result`: the in-degree of a
node is its static in-degree minus the edges from processed nodes; processed
and queued nodes are distinct functions; queued nodes are exactly the
unprocessed ones whose in-degree has reached zero; and every edge into a
processed node comes from a node processed strictly earlier. -/
structure KInv (g : List (String × List String)) (fs queue : List String)
    (indeg : String → Int) (result : List String) : Prop where
  ideg : ∀ n, indeg n = inDegree g n - decr g result n
  rnodup : result.Nodup
  qnodup : queue.Nodup
  disj : ∀ n, n ∈ result → n ∈ queue → False
  rsub : ∀ n ∈ result, n ∈ fs
  qsub : ∀ n ∈ queue, n ∈ fs
  qiff : ∀ n ∈ fs, (n ∈ queue ↔ (n ∉ result ∧ indeg n = 0))
  rneg : ∀ n ∈ result, indeg n ≤ 0
  rord : ∀ (k : Nat) (hk : k < result.length) (u : String),
    result.get ⟨k, hk⟩ ∈ adjOf g u → u ∈ result.take k

/-- Invariant of the Tarjan state between `strongconnect` calls: the stack is
duplicate-free, mirrored by `on_stack`, indexed, ordered by strictly
decreasing index from the top; indexed nodes are exactly the stacked and the
popped ones; every stacked node has an on-stack lowlink witness it reaches;
every recorded component holds two distinct mutually reachable members; and
while no component has been recorded, every non-self successor of a popped
node was popped strictly earlier. -/
structure TInv (g : List (String × List String)) (st : TarjanState) : Prop where
  snodup : st.stack.Nodup
  ones : ∀ w, w ∈ st.onStack ↔ w ∈ st.stack
  sidx : ∀ w ∈ st.stack, (idxOf st w).isSome
  pidx : ∀ w ∈ st.popped, (idxOf st w).isSome
  ibound : ∀ w i, idxOf st w = some i → i < st.counter
  ipart : ∀ w, (idxOf st w).isSome → w ∈ st.stack ∨ w ∈ st.popped
  sdisj : ∀ w, w ∈ st.stack → w ∈ st.popped → False
  pnodup : st.popped.Nodup
  sorted : st.stack.Pairwise (fun a c => (idxOf st c).getD 0 < (idxOf st a).getD 0)
  lowle : ∀ w ∈ st.stack, lowOf st w ≤ (idxOf st w).getD 0
  lw : ∀ w ∈ st.stack, ∃ z ∈ st.stack, (idxOf st z).getD 0 = lowOf st w ∧ Reach g w z
  good : ∀ c ∈ st.sccs, ∃ x y, x ∈ c ∧ y ∈ c ∧ x ≠ y ∧ Reach g x y ∧ Reach g y x
  ep : ∀ (k : Nat) (hk : k < st.popped.length) (b : String),
    b ∈ adjOf g (st.popped.get ⟨k, hk⟩) → b ≠ st.popped.get ⟨k, hk⟩ →
    st.sccs ≠ [] ∨ b ∈ st.popped.take k

/-- Postcondition of one `strongconnect(n)` call from state `st`: the
invariant persists; `n` is indexed at the entry counter; previously assigned
indices and lowlinks are untouched; newly indexed nodes are reachable from
`n` with fresh indices; components and popped records only grow; and the
stack either returns to its entry value (the call closed and popped `n`'s
component, leaving `n`'s lowlink at its index) or gains `n` plus a block of
finished nodes above it whose lowlinks sit strictly below their indices and
at or above `n`'s final lowlink, which then reaches below `n`'s index. -/
structure SCPost (g : List (String × List String)) (st : TarjanState) (n : String)
    (st' : TarjanState) : Prop where
  tinv : TInv g st'
  idxn : idxOf st' n = some st.counter
  cmon : st.counter < st'.counter
  ifr : ∀ w, (idxOf st w).isSome → idxOf st' w = idxOf st w
  lfr : ∀ w, (idxOf st w).isSome → lowOf st' w = lowOf st w
  inew : ∀ w, (idxOf st' w).isSome → (idxOf st w).isSome ∨ w = n ∨
    (Reach g n w ∧ st.counter < (idxOf st' w).getD 0)
  pops : ∃ P, st'.popped = st.popped ++ P
  sccse : ∃ S, st'.sccs = st.sccs ++ S
  stck : st'.stack = st.stack ∨
    (∃ X, st'.stack = X ++ n :: st.stack ∧
      (∀ w ∈ X, lowOf st' w < (idxOf st' w).getD 0) ∧
      (∀ w ∈ X, lowOf st' n ≤ lowOf st' w) ∧
      lowOf st' n < st.counter)
  ncase : st'.stack = st.stack → n ∈ st'.popped ∧ lowOf st' n = st.counter

/-- Invariant of the successor fold inside `strongconnect(n)` relative to the
entry state `st0` (before `n` was pushed): the global invariant holds, `n` is
indexed at the entry counter and pushed right above the entry stack under a
block of finished nodes, old indices and lowlinks are untouched, new nodes
are reachable from `n`, and components and popped records only grow. -/
structure FoldInv (g : List (String × List String)) (st0 : TarjanState) (n : String)
    (st3 : TarjanState) : Prop where
  tinv : TInv g st3
  idxn : idxOf st3 n = some st0.counter
  cmon : st0.counter < st3.counter
  ifr : ∀ w, (idxOf st0 w).isSome → idxOf st3 w = idxOf st0 w
  lfr : ∀ w, (idxOf st0 w).isSome → lowOf st3 w = lowOf st0 w
  inew : ∀ w, (idxOf st3 w).isSome → (idxOf st0 w).isSome ∨ w = n ∨
    (Reach g n w ∧ st0.counter < (idxOf st3 w).getD 0)
  pops : ∃ P, st3.popped = st0.popped ++ P
  sccse : ∃ S, st3.sccs = st0.sccs ++ S
  stck : ∃ X, st3.stack = X ++ n :: st0.stack ∧
    (∀ w ∈ X, lowOf st3 w < (idxOf st3 w).getD 0) ∧
    (∀ w ∈ X, lowOf st3 n ≤ lowOf st3 w)

/-- Reading the key just written yields the written value. -/
theorem lookupAL_setAL_self {α β : Type} [DecidableEq α] (m : List (α × β)) (k : α) (v : β) :
    lookupAL (setAL m k v) k = some v := by
  induction m with
  | nil => simp [setAL, lookupAL]
  | cons p rest ih =>
    by_cases h : p.1 = k
    · simp [setAL, lookupAL, h]
    · simp [setAL, lookupAL, h, ih]

/-- Reading another key is unaffected by a write. -/
theorem lookupAL_setAL_ne {α β : Type} [DecidableEq α] (m : List (α × β)) (k k2 : α) (v : β)
    (h : k ≠ k2) : lookupAL (setAL m k v) k2 = lookupAL m k2 := by
  induction m with
  | nil => simp [setAL, lookupAL, h]
  | cons p rest ih =>
    by_cases h2 : p.1 = k
    · subst h2; simp [setAL, lookupAL, h]
    · simp [setAL, lookupAL, h2, ih]

/-- Writing a key that is present keeps the number of bindings. -/
theorem length_setAL_isSome {α β : Type} [DecidableEq α] (m : List (α × β)) (k : α) (v : β)
    (h : (lookupAL m k).isSome) : (setAL m k v).length = m.length := by
  induction m with
  | nil => simp [lookupAL] at h
  | cons p rest ih =>
    by_cases h2 : p.1 = k
    · simp [setAL, h2]
    · simp [lookupAL, h2] at h
      simp [setAL, h2, ih h]

/-- Writing never removes a binding. -/
theorem length_setAL_ge {α β : Type} [DecidableEq α] (m : List (α × β)) (k : α) (v : β) :
    m.length ≤ (setAL m k v).length := by
  induction m with
  | nil => simp [setAL]
  | cons p rest ih =>
    by_cases h2 : p.1 = k
    · simp [setAL, h2]
    · simpa [setAL, h2] using ih

/-- The keys of an association list are unchanged by a write to a present key. -/
theorem map_fst_setAL {α β : Type} [DecidableEq α] (m : List (α × β)) (k : α) (v : β)
    (h : (lookupAL m k).isSome) : (setAL m k v).map Prod.fst = m.map Prod.fst := by
  induction m with
  | nil => simp [lookupAL] at h
  | cons p rest ih =>
    by_cases h2 : p.1 = k
    · simp [setAL, h2]
    · simp [lookupAL, h2] at h
      simp [setAL, h2, ih h]

/-- A key is present exactly when it occurs among the keys. -/
theorem lookupAL_isSome_iff {α β : Type} [DecidableEq α] (m : List (α × β)) (k : α) :
    (lookupAL m k).isSome ↔ k ∈ m.map Prod.fst := by
  induction m with
  | nil => simp [lookupAL]
  | cons p rest ih =>
    by_cases h2 : p.1 = k
    · simp [lookupAL, h2]
    · simp [lookupAL, h2, ih, Ne.symm h2]

/-- Claim C7: tracking the same identity twice leaves `stats().count` where the
first call put it, increments `stats().total_allocated` by exactly one per
call, and the stored record after the second call is the second record (the
old one is no longer returned for that identity). -/
theorem claim_C7 (st : HashTableAllocator) (i s1 s2 t1 t2 : Nat) (c1 c2 : List String) :
    (((st.track i s1 c1 t1).track i s2 c2 t2).get_stats).count
        = ((st.track i s1 c1 t1).get_stats).count ∧
    ((st.track i s1 c1 t1).get_stats).total_allocated = (st.get_stats).total_allocated + 1 ∧
    (((st.track i s1 c1 t1).track i s2 c2 t2).get_stats).total_allocated
        = ((st.track i s1 c1 t1).get_stats).total_allocated + 1 ∧
    lookupAL ((st.track i s1 c1 t1).track i s2 c2 t2).allocations i
        = some ⟨s2, c2, t2⟩ := by
  refine ⟨?_, rfl, rfl, lookupAL_setAL_self _ _ _⟩
  have h1 : (lookupAL (st.track i s1 c1 t1).allocations i).isSome := by
    simp [HashTableAllocator.track, lookupAL_setAL_self]
  simp [HashTableAllocator.get_stats, HashTableAllocator.track] at h1 ⊢
  exact length_setAL_isSome _ _ _ h1

/-- Discovery only extends the visited list. -/
theorem discover_visited_sub {p : Nat × Nat} (children : List Nat) (d : Nat)
    (visited : List (Nat × Nat)) (queue : List (Nat × Nat)) (h : p ∈ visited) :
    p ∈ (discover children d visited queue).1 := by
  induction children generalizing visited queue with
  | nil => simpa [discover] using h
  | cons c rest ih =>
    by_cases hc : c ∈ visited.map Prod.fst
    · simp only [discover, hc, if_pos]
      exact ih _ _ h
    · simp only [discover, hc, if_neg, not_false_iff]
      exact ih _ _ (by simp [h])

/-- The BFS loop only extends the visited list. -/
theorem bfsGo_visited_sub {p : Nat × Nat} (g : ObjGraph) (maxDepth : Int) (fuel : Nat)
    (queue : List (Nat × Nat)) (visited : List (Nat × Nat)) (h : p ∈ visited) :
    p ∈ bfsGo g maxDepth fuel queue visited := by
  induction fuel generalizing queue visited with
  | zero => simpa [bfsGo] using h
  | succ fuel2 ih =>
    match queue with
    | [] => simpa [bfsGo] using h
    | (current, depth) :: rest =>
      by_cases hd : maxDepth ≤ (depth : Int)
      · simp only [bfsGo, hd, if_pos]
        exact ih _ _ h
      · simp only [bfsGo, hd, if_neg, not_false_iff]
        exact ih _ _ (discover_visited_sub _ _ _ _ h)

/-- Claim C10: `bfs` always reports the root (it is marked visited before the
depth guard can act, for every `maxDepth` including negative ones), while
`dfs` returns the empty set whenever `maxDepth` is negative, so the two
traversals disagree on the root for negative depth bounds. -/
theorem claim_C10 (g : ObjGraph) (root : Nat) (maxDepth : Int) :
    root ∈ bfs g root maxDepth ∧ (maxDepth < 0 → dfs g root maxDepth = []) := by
  constructor
  · have h : (root, 0) ∈ bfsT g root maxDepth :=
      bfsGo_visited_sub g maxDepth _ _ _ (by simp)
    exact List.mem_map_of_mem Prod.fst h
  · intro hneg
    have h0 : maxDepth < ((0 : Nat) : Int) ∨ root ∈ ([] : List Nat) :=
      Or.inl (by exact_mod_cast hneg)
    rw [dfs, dfsGo, if_pos h0]

/-- Claim C10, witnessed at a concrete graph and a negative depth bound: the
root is in the `bfs` set and `dfs` returns nothing. -/
theorem claim_C10_witness :
    0 ∈ bfs [(0, [1, 2]), (1, [2]), (2, [3])] 0 (-1) ∧
    ((-1 : Int) < 0 → dfs [(0, [1, 2]), (1, [2]), (2, [3])] 0 (-1) = []) :=
  claim_C10 [(0, [1, 2]), (1, [2]), (2, [3])] 0 (-1)

/-- Counterexample to claim C2 as stated: on the object graph with children
0 ↦ [1, 2], 1 ↦ [2], 2 ↦ [3] and `maxDepth = 2`, the identity 3 is reached by
`bfs` but not by `dfs` (dfs reaches 2 first through the longer path 0,1,2 and
the visited check then prevents the shorter path from expanding 2), so the two
visited sets differ. -/
theorem claim_C2_cex :
    3 ∈ bfs [(0, [1, 2]), (1, [2]), (2, [3])] 0 2 ∧
    3 ∉ dfs [(0, [1, 2]), (1, [2]), (2, [3])] 0 2 := by decide

/-- One `_dfs_helper` call, written with the explicit child loop. -/
theorem dfsGo_succ (g : ObjGraph) (maxDepth : Int) (fuel : Nat) (current depth : Nat)
    (visited : List Nat) :
    dfsGo g maxDepth (fuel + 1) current depth visited =
      if maxDepth < (depth : Int) ∨ current ∈ visited then visited
      else dfsChildren g maxDepth fuel (childrenOf g current) (depth + 1)
        (visited ++ [current]) := rfl

/-- The child loop on an empty child list. -/
theorem dfsChildren_nil (g : ObjGraph) (maxDepth : Int) (fuel depth : Nat)
    (visited : List Nat) : dfsChildren g maxDepth fuel [] depth visited = visited := rfl

/-- The child loop steps through the first child. -/
theorem dfsChildren_cons (g : ObjGraph) (maxDepth : Int) (fuel : Nat) (c : Nat) (cs : List Nat)
    (depth : Nat) (visited : List Nat) :
    dfsChildren g maxDepth fuel (c :: cs) depth visited =
      dfsChildren g maxDepth fuel cs depth (dfsGo g maxDepth fuel c depth visited) := rfl

/-- One `strongconnect` call, written with the explicit successor loop. -/
theorem strongconnect_succ (g : List (String × List String)) (fuel : Nat) (st : TarjanState)
    (node : String) :
    strongconnect g (fuel + 1) st node =
      (let st2 := visitSuccs g fuel
        { counter := st.counter + 1
          stack := node :: st.stack
          indexM := setAL st.indexM node st.counter
          lowlinkM := setAL st.lowlinkM node st.counter
          onStack := node :: st.onStack
          sccs := st.sccs
          popped := st.popped } node (adjOf g node)
      if lowOf st2 node = (idxOf st2 node).getD 0 then
        let p := popUntil st2.stack node
        { st2 with
          stack := p.2
          onStack := st2.onStack.filter (fun x => ¬ x ∈ p.1)
          sccs := if 1 < p.1.length then st2.sccs ++ [p.1] else st2.sccs
          popped := st2.popped ++ p.1 }
      else st2) := rfl

/-- The successor loop on an empty successor list. -/
theorem visitSuccs_nil (g : List (String × List String)) (fuel : Nat) (st : TarjanState)
    (node : String) : visitSuccs g fuel st node [] = st := rfl

/-- The successor loop on an unindexed successor: recurse, then fold that
successor's lowlink into the node's. -/
theorem visitSuccs_cons_none (g : List (String × List String)) (fuel : Nat) (st : TarjanState)
    (node s : String) (rest : List String) (h : idxOf st s = none) :
    visitSuccs g fuel st node (s :: rest) =
      visitSuccs g fuel
        { strongconnect g fuel st s with
          lowlinkM := setAL (strongconnect g fuel st s).lowlinkM node
            (min (lowOf (strongconnect g fuel st s) node)
              (lowOf (strongconnect g fuel st s) s)) } node rest := by
  simp only [visitSuccs, List.foldl_cons, h]

/-- The successor loop on an indexed successor still on the stack: fold its
index into the node's lowlink. -/
theorem visitSuccs_cons_on (g : List (String × List String)) (fuel : Nat) (st : TarjanState)
    (node s : String) (rest : List String) (i : Nat) (h : idxOf st s = some i)
    (hs : s ∈ st.onStack) :
    visitSuccs g fuel st node (s :: rest) =
      visitSuccs g fuel
        { st with lowlinkM := setAL st.lowlinkM node (min (lowOf st node) i) } node rest := by
  simp only [visitSuccs, List.foldl_cons, h, hs, if_pos]

/-- The successor loop on an indexed successor no longer on the stack: no
effect. -/
theorem visitSuccs_cons_off (g : List (String × List String)) (fuel : Nat) (st : TarjanState)
    (node s : String) (rest : List String) (i : Nat) (h : idxOf st s = some i)
    (hs : s ∉ st.onStack) :
    visitSuccs g fuel st node (s :: rest) = visitSuccs g fuel st node rest := by
  simp only [visitSuccs, List.foldl_cons, h, hs, if_neg, not_false_iff]

/-- The components accumulated by `strongconnect` only grow, and every newly
appended component has more than one member. -/
theorem strongconnect_sccs_grow (g : List (String × List String)) (fuel : Nat) :
    ∀ st node, ∃ new, (strongconnect g fuel st node).sccs = st.sccs ++ new ∧
      ∀ c ∈ new, 2 ≤ c.length := by
  induction fuel with
  | zero => exact fun st node => ⟨[], by simp [strongconnect], by simp⟩
  | succ fuel2 ih =>
    have hv : ∀ succs node st, ∃ new, (visitSuccs g fuel2 st node succs).sccs = st.sccs ++ new ∧
        ∀ c ∈ new, 2 ≤ c.length := by
      intro succs
      induction succs with
      | nil => exact fun node st => ⟨[], by simp [visitSuccs], by simp⟩
      | cons s rest ihs =>
        intro node st
        cases hidx : idxOf st s with
        | none =>
          rw [visitSuccs_cons_none g fuel2 st node s rest hidx]
          obtain ⟨n1, e1, b1⟩ := ih st s
          obtain ⟨n2, e2, b2⟩ := ihs node
            { strongconnect g fuel2 st s with
              lowlinkM := setAL (strongconnect g fuel2 st s).lowlinkM node
                (min (lowOf (strongconnect g fuel2 st s) node)
                  (lowOf (strongconnect g fuel2 st s) s)) }
          refine ⟨n1 ++ n2, ?_, ?_⟩
          · rw [e2]; simp only [e1, List.append_assoc]
          · intro c hc
            rcases List.mem_append.mp hc with h1 | h2
            · exact b1 c h1
            · exact b2 c h2
        | some i =>
          by_cases hs : s ∈ st.onStack
          · rw [visitSuccs_cons_on g fuel2 st node s rest i hidx hs]
            obtain ⟨n2, e2, b2⟩ := ihs node _
            exact ⟨n2, by simpa using e2, b2⟩
          · rw [visitSuccs_cons_off g fuel2 st node s rest i hidx hs]
            exact ihs node st
    intro st node
    simp only [strongconnect_succ]
    set st2 := visitSuccs g fuel2
      { counter := st.counter + 1
        stack := node :: st.stack
        indexM := setAL st.indexM node st.counter
        lowlinkM := setAL st.lowlinkM node st.counter
        onStack := node :: st.onStack
        sccs := st.sccs
        popped := st.popped } node (adjOf g node) with hst2
    obtain ⟨n2, e2, b2⟩ := hv (adjOf g node) node
      { counter := st.counter + 1
        stack := node :: st.stack
        indexM := setAL st.indexM node st.counter
        lowlinkM := setAL st.lowlinkM node st.counter
        onStack := node :: st.onStack
        sccs := st.sccs
        popped := st.popped }
    rw [← hst2] at e2
    have e3 : st2.sccs = st.sccs ++ n2 := e2
    by_cases hpop : lowOf st2 node = (idxOf st2 node).getD 0
    · rw [if_pos hpop]
      by_cases hlen : 1 < (popUntil st2.stack node).1.length
      · refine ⟨n2 ++ [(popUntil st2.stack node).1], ?_, ?_⟩
        · show (if 1 < (popUntil st2.stack node).1.length then
              st2.sccs ++ [(popUntil st2.stack node).1] else st2.sccs) =
            st.sccs ++ (n2 ++ [(popUntil st2.stack node).1])
          rw [if_pos hlen, e3, List.append_assoc]
        · intro c hc
          rcases List.mem_append.mp hc with h1 | h2
          · exact b2 c h1
          · rw [List.mem_singleton.mp h2]; omega
      · refine ⟨n2, ?_, b2⟩
        show (if 1 < (popUntil st2.stack node).1.length then
            st2.sccs ++ [(popUntil st2.stack node).1] else st2.sccs) = st.sccs ++ n2
        rw [if_neg hlen, e3]
    · rw [if_neg hpop]
      exact ⟨n2, e3, b2⟩

/-- The outer loop of `detect_cycles` preserves component growth and the
size bound on new components. -/
theorem detectLoop_sccs_grow (g : List (String × List String)) (fuel : Nat)
    (nodes : List String) : ∀ st, ∃ new, (detectLoop g fuel nodes st).sccs = st.sccs ++ new ∧
      ∀ c ∈ new, 2 ≤ c.length := by
  induction nodes with
  | nil => exact fun st => ⟨[], by simp [detectLoop], by simp⟩
  | cons n rest ih =>
    intro st
    by_cases hidx : (idxOf st n).isSome
    · obtain ⟨n2, e2, b2⟩ := ih st
      exact ⟨n2, by simp [detectLoop, hidx, e2], b2⟩
    · obtain ⟨n1, e1, b1⟩ := strongconnect_sccs_grow g fuel st n
      obtain ⟨n2, e2, b2⟩ := ih (strongconnect g fuel st n)
      refine ⟨n1 ++ n2, ?_, ?_⟩
      · simp [detectLoop, hidx, e2, e1]
      · intro c hc
        rcases List.mem_append.mp hc with h1 | h2
        · exact b1 c h1
        · exact b2 c h2

/-- Claim C4: `detect_cycles` only ever returns components with at least two
members, and on the graph with edges A→B, B→C, C→A, D→A it returns exactly one
component, whose member set is {A, B, C}; D appears in no returned component. -/
theorem claim_C4 :
    (∀ (b : CallGraphBuilder), ∀ c ∈ b.detect_cycles, 2 ≤ c.length) ∧
    builderC4.detect_cycles.length = 1 ∧
    (∀ c ∈ builderC4.detect_cycles,
      (∀ x, x ∈ c ↔ x ∈ (["A", "B", "C"] : List String)) ∧ "D" ∉ c) := by
  refine ⟨?_, by decide, ?_⟩
  · intro b c hc
    obtain ⟨new, e, bnd⟩ :=
      detectLoop_sccs_grow b.graph (b.functions.length + 1) b.functions initTarjan
    rw [CallGraphBuilder.detect_cycles, e] at hc
    simp only [initTarjan, List.nil_append] at hc
    exact bnd c hc
  · have hd : builderC4.detect_cycles = [["C", "B", "A"]] := by decide
    rw [hd]
    intro c hc
    rw [List.mem_singleton.mp hc]
    constructor
    · intro x
      simp only [List.mem_cons, List.not_mem_nil, or_false]
      tauto
    · decide

/-- Claim C4, witnessed: the single component returned on the concrete graph
indeed has at least two members. -/
theorem claim_C4_witness :
    (["C", "B", "A"] ∈ builderC4.detect_cycles) ∧ 2 ≤ (["C", "B", "A"] : List String).length :=
  ⟨by decide, claim_C4.1 builderC4 ["C", "B", "A"] (by decide)⟩

/-- Counterexample to claim C1 as stated: after the single call
`add_call("A", "A")` the graph has a self-loop, so `topological_sort` returns
the empty list (length 0, not the function count 1) while `detect_cycles`
returns the empty list as well (the self-loop forms a singleton component,
which the size filter drops), refuting the claimed equivalence. -/
theorem claim_C1_cex :
    ¬(((emptyBuilder.add_call "A" "A").topological_sort.length =
        (emptyBuilder.add_call "A" "A").functions.length) ↔
      (emptyBuilder.add_call "A" "A").detect_cycles = []) := by decide

/-- A successful lookup comes from a binding of the list. -/
theorem lookupAL_mem {α β : Type} [DecidableEq α] {m : List (α × β)} {k : α} {v : β}
    (h : lookupAL m k = some v) : (k, v) ∈ m := by
  induction m with
  | nil => simp [lookupAL] at h
  | cons p rest ih =>
    by_cases h2 : p.1 = k
    · simp only [lookupAL, h2, if_pos] at h
      obtain ⟨a, b⟩ := p
      simp only at h2 h
      subst h2
      rw [Option.some.injEq] at h
      subst h
      exact List.mem_cons_self _ _
    · simp only [lookupAL, h2, if_neg, not_false_iff] at h
      exact List.mem_cons_of_mem p (ih h)

/-- Full characterization of the discovery loop: it appends the same fresh
block to both the visited list and the queue; the fresh entries are unvisited
children discovered at depth `d`; afterwards every child is visited; and
distinctness of visited identities is preserved. -/
theorem discover_spec (children : List Nat) (d : Nat) (visited queue : List (Nat × Nat)) :
    ∃ new, discover children d visited queue = (visited ++ new, queue ++ new) ∧
      (∀ p ∈ new, p.1 ∈ children ∧ p.2 = d ∧ p.1 ∉ visited.map Prod.fst) ∧
      (∀ c ∈ children, c ∈ (visited ++ new).map Prod.fst) ∧
      ((visited.map Prod.fst).Nodup → ((visited ++ new).map Prod.fst).Nodup) := by
  induction children generalizing visited queue with
  | nil => exact ⟨[], by simp [discover], by simp, by simp, by simp⟩
  | cons c rest ih =>
    by_cases hmem : c ∈ visited.map Prod.fst
    · obtain ⟨new, e, h1, h2, h3⟩ := ih visited queue
      refine ⟨new, by simpa [discover, hmem] using e, ?_, ?_, h3⟩
      · intro p hp
        obtain ⟨m1, m2, m3⟩ := h1 p hp
        exact ⟨List.mem_cons_of_mem c m1, m2, m3⟩
      · intro x hx
        rcases List.mem_cons.mp hx with h | h
        · subst h
          simp only [List.map_append, List.mem_append]
          exact Or.inl hmem
        · exact h2 x h
    · obtain ⟨new2, e, h1, h2, h3⟩ := ih (visited ++ [(c, d)]) (queue ++ [(c, d)])
      refine ⟨(c, d) :: new2, ?_, ?_, ?_, ?_⟩
      · simpa [discover, hmem, List.append_assoc] using e
      · intro p hp
        rcases List.mem_cons.mp hp with h | h
        · subst h
          exact ⟨List.mem_cons_self c rest, rfl, hmem⟩
        · obtain ⟨m1, m2, m3⟩ := h1 p h
          refine ⟨List.mem_cons_of_mem c m1, m2, fun hbad => m3 ?_⟩
          simp only [List.map_append, List.mem_append]
          exact Or.inl hbad
      · intro x hx
        rcases List.mem_cons.mp hx with h | h
        · subst h
          simp
        · have := h2 x h
          simpa [List.append_assoc] using this
      · intro hnd
        have hnd2 : ((visited ++ [(c, d)]).map Prod.fst).Nodup := by
          simp only [List.map_append, List.map_cons, List.map_nil]
          refine List.nodup_append.mpr ⟨hnd, List.nodup_singleton c, ?_⟩
          intro a ha hac
          rw [List.mem_singleton] at hac
          subst hac
          exact hmem ha
        have := h3 hnd2
        simpa [List.append_assoc] using this

/-- Each visited identity of the BFS loop keeps a single record: the depth
attached to a node is the one fixed when it was first discovered. -/
theorem bfsGo_nodup (g : ObjGraph) (maxDepth : Int) :
    ∀ fuel (queue visited : List (Nat × Nat)), (visited.map Prod.fst).Nodup →
      ((bfsGo g maxDepth fuel queue visited).map Prod.fst).Nodup := by
  intro fuel
  induction fuel with
  | zero => intro queue visited h; simpa [bfsGo] using h
  | succ fuel2 ih =>
    intro queue visited h
    match queue with
    | [] => simpa [bfsGo] using h
    | (current, depth) :: rest =>
      by_cases hd : maxDepth ≤ (depth : Int)
      · simp only [bfsGo, hd, if_pos]
        exact ih rest visited h
      · simp only [bfsGo, hd, if_neg, not_false_iff]
        obtain ⟨new, e, h1, h2, h3⟩ := discover_spec (childrenOf g current) (depth + 1) visited rest
        rw [e]
        exact ih (rest ++ new) (visited ++ new) (h3 h)

/-- Provenance is stable under extending the record list. -/
theorem Provenance.mono {g : ObjGraph} {maxDepth : Int} {root : Nat}
    {records more : List (Nat × Nat)} (h : Provenance g maxDepth root records) :
    ∀ p ∈ records, p = (root, 0) ∨
      ∃ q ∈ records ++ more, p.1 ∈ childrenOf g q.1 ∧ p.2 = q.2 + 1 ∧ (q.2 : Int) < maxDepth := by
  intro p hp
  rcases h p hp with h0 | ⟨q, hq, hrest⟩
  · exact Or.inl h0
  · exact Or.inr ⟨q, List.mem_append.mpr (Or.inl hq), hrest⟩

/-- The BFS loop preserves provenance of its records. -/
theorem bfsGo_provenance (g : ObjGraph) (maxDepth : Int) (root : Nat) :
    ∀ fuel (queue visited : List (Nat × Nat)), (∀ p ∈ queue, p ∈ visited) →
      Provenance g maxDepth root visited →
      Provenance g maxDepth root (bfsGo g maxDepth fuel queue visited) := by
  intro fuel
  induction fuel with
  | zero => intro queue visited _ h; simpa [bfsGo] using h
  | succ fuel2 ih =>
    intro queue visited hq h
    match queue with
    | [] => simpa [bfsGo] using h
    | (current, depth) :: rest =>
      by_cases hd : maxDepth ≤ (depth : Int)
      · simp only [bfsGo, hd, if_pos]
        exact ih rest visited (fun p hp => hq p (List.mem_cons_of_mem _ hp)) h
      · simp only [bfsGo, hd, if_neg, not_false_iff]
        obtain ⟨new, e, h1, h2, h3⟩ := discover_spec (childrenOf g current) (depth + 1) visited rest
        rw [e]
        refine ih (rest ++ new) (visited ++ new) ?_ ?_
        · intro p hp
          rcases List.mem_append.mp hp with hp | hp
          · exact List.mem_append.mpr (Or.inl (hq p (List.mem_cons_of_mem _ hp)))
          · exact List.mem_append.mpr (Or.inr hp)
        · intro p hp
          rcases List.mem_append.mp hp with hp | hp
          · exact Provenance.mono h p hp
          · obtain ⟨m1, m2, _⟩ := h1 p hp
            refine Or.inr ⟨(current, depth), ?_, m1, m2, by exact_mod_cast lt_of_not_le hd⟩
            exact List.mem_append.mpr
              (Or.inl (hq (current, depth) (List.mem_cons_self _ _)))

/-- Claim C8: in `bfs`, each visited node has exactly one recorded depth — the
one fixed when it was first discovered (enqueued); the root carries depth 0;
and every other record was discovered from a recorded node at exactly that
node's depth plus one (so a record's depth never exceeds its discoverer's
depth by more than one), with the discovering node's depth strictly below
`maxDepth` — hence a node whose recorded depth is exactly `maxDepth` is in the
visited set but never acts as a discoverer, i.e. its children are not expanded
from it. -/
theorem claim_C8 (g : ObjGraph) (root : Nat) (maxDepth : Int) :
    ((bfsT g root maxDepth).map Prod.fst).Nodup ∧
    (root, 0) ∈ bfsT g root maxDepth ∧
    (∀ p ∈ bfsT g root maxDepth, p = (root, 0) ∨
      ∃ q ∈ bfsT g root maxDepth, p.1 ∈ childrenOf g q.1 ∧ p.2 = q.2 + 1 ∧
        (q.2 : Int) < maxDepth) := by
  refine ⟨bfsGo_nodup g maxDepth _ _ _ (by simp), ?_, ?_⟩
  · exact bfsGo_visited_sub g maxDepth _ _ _ (by simp)
  · exact bfsGo_provenance g maxDepth root _ _ _ (by simp)
      (by intro p hp; simp only [List.mem_singleton] at hp; exact Or.inl hp)

/-- Claim C8, witnessed on the concrete graph 0 ↦ [1, 2], 1 ↦ [2], 2 ↦ [3]
with depth bound 2: the record list has distinct identities, holds the root at
depth 0, and the record (3, 2) has a recorded discoverer one level up below
the bound. -/
theorem claim_C8_witness :
    ((bfsT [(0, [1, 2]), (1, [2]), (2, [3])] 0 2).map Prod.fst).Nodup ∧
    (0, 0) ∈ bfsT [(0, [1, 2]), (1, [2]), (2, [3])] 0 2 ∧
    ((3, 2) ∈ bfsT [(0, [1, 2]), (1, [2]), (2, [3])] 0 2 ∧
      ((3, 2) = ((0 : Nat), (0 : Nat)) ∨
        ∃ q ∈ bfsT [(0, [1, 2]), (1, [2]), (2, [3])] 0 2,
          (3 : Nat) ∈ childrenOf [(0, [1, 2]), (1, [2]), (2, [3])] q.1 ∧ (2 : Nat) = q.2 + 1 ∧
            (q.2 : Int) < 2)) := by
  obtain ⟨h1, h2, h3⟩ := claim_C8 [(0, [1, 2]), (1, [2]), (2, [3])] 0 2
  exact ⟨h1, h2, by decide, h3 (3, 2) (by decide)⟩

/-- A child of any node occurs among the child slots of the graph. -/
theorem childrenOf_subset_U {g : ObjGraph} {n c : Nat} (h : c ∈ childrenOf g n) :
    c ∈ UGraph g := by
  unfold childrenOf at h
  cases hl : lookupAL g n with
  | none => rw [hl] at h; simp at h
  | some l =>
    rw [hl] at h
    exact List.mem_flatten.mpr ⟨l, List.mem_map_of_mem Prod.snd (lookupAL_mem hl), h⟩

/-- A list of pairs with constant second components is depth-nondecreasing. -/
theorem pairwise_snd_of_const {l : List (Nat × Nat)} {d : Nat} (h : ∀ p ∈ l, p.2 = d) :
    l.Pairwise (fun p q : Nat × Nat => p.2 ≤ q.2) := by
  induction l with
  | nil => exact List.Pairwise.nil
  | cons x rest ih =>
    refine List.Pairwise.cons ?_ (ih fun y hy => h y (List.mem_cons_of_mem x hy))
    intro y hy
    rw [h x (List.mem_cons_self x rest), h y (List.mem_cons_of_mem x hy)]

/-- Core completeness invariant of the BFS loop.  Hypotheses: visited
identities are distinct; queued entries are visited; no visited depth exceeds
any queued depth plus one; queued depths are nondecreasing; queued depths
spread by at most one; every visited record below the depth bound is either
already fully expanded or still queued; and the fuel dominates the queue
length plus the number of never-visited child identities.  Conclusion: in the
final record list, every record strictly below the depth bound has each of its
children recorded at most one level deeper. -/
theorem bfsGo_settled (g : ObjGraph) (maxDepth : Int) :
    ∀ fuel (queue visited : List (Nat × Nat)),
      (visited.map Prod.fst).Nodup →
      (∀ p ∈ queue, p ∈ visited) →
      (∀ p ∈ visited, ∀ q ∈ queue, p.2 ≤ q.2 + 1) →
      queue.Pairwise (fun p q : Nat × Nat => p.2 ≤ q.2) →
      (∀ p ∈ queue, ∀ q ∈ queue, p.2 ≤ q.2 + 1) →
      (∀ p ∈ visited, (p.2 : Int) < maxDepth →
        (∀ c ∈ childrenOf g p.1, ∃ dc, dc ≤ p.2 + 1 ∧ (c, dc) ∈ visited) ∨ p ∈ queue) →
      queue.length + ((UGraph g).toFinset \ (visited.map Prod.fst).toFinset).card ≤ fuel →
      ∀ p ∈ bfsGo g maxDepth fuel queue visited, (p.2 : Int) < maxDepth →
        ∀ c ∈ childrenOf g p.1, ∃ dc, dc ≤ p.2 + 1 ∧
          (c, dc) ∈ bfsGo g maxDepth fuel queue visited := by
  intro fuel
  induction fuel with
  | zero =>
    intro queue visited hnd h1 h2 h3 h4 h5 hfuel p hp hlt c hc
    have hq : queue = [] := by
      have := Nat.le_zero.mp (le_trans (Nat.le_add_right _ _) hfuel)
      exact List.eq_nil_of_length_eq_zero this
    subst hq
    simp only [bfsGo] at hp ⊢
    rcases h5 p hp hlt with hset | hpend
    · exact hset c hc
    · simp at hpend
  | succ fuel2 ih =>
    intro queue visited hnd h1 h2 h3 h4 h5 hfuel p hp hlt c hc
    match queue, hfuel, h1, h2, h3, h4, h5 with
    | [], hfuel, h1, h2, h3, h4, h5 =>
      simp only [bfsGo] at hp ⊢
      rcases h5 p hp hlt with hset | hpend
      · exact hset c hc
      · simp at hpend
    | (current, depth) :: rest, hfuel, h1, h2, h3, h4, h5 =>
      by_cases hd : maxDepth ≤ (depth : Int)
      · simp only [bfsGo, hd, if_pos] at hp ⊢
        refine ih rest visited hnd
          (fun q hq2 => h1 q (List.mem_cons_of_mem _ hq2))
          (fun r hr q hq2 => h2 r hr q (List.mem_cons_of_mem _ hq2))
          (List.pairwise_cons.mp h3).2
          (fun r hr q hq2 => h4 r (List.mem_cons_of_mem _ hr) q (List.mem_cons_of_mem _ hq2))
          ?_ ?_ p hp hlt c hc
        · intro r hr hrlt
          rcases h5 r hr hrlt with hset | hpend
          · exact Or.inl hset
          · rcases List.mem_cons.mp hpend with he | he
            · exfalso
              rw [he] at hrlt
              simp only at hrlt
              exact absurd hrlt (not_lt.mpr hd)
            · exact Or.inr he
        · simp only [List.length_cons] at hfuel
          omega
      · simp only [bfsGo, hd, if_neg, not_false_iff] at hp ⊢
        obtain ⟨new, e, hn1, hn2, hn3⟩ :=
          discover_spec (childrenOf g current) (depth + 1) visited rest
        have e1 : (discover (childrenOf g current) (depth + 1) visited rest).1 =
            visited ++ new := by rw [e]
        have e2 : (discover (childrenOf g current) (depth + 1) visited rest).2 =
            rest ++ new := by rw [e]
        rw [e1, e2] at hp ⊢
        have hheadv : (current, depth) ∈ visited := h1 _ (List.mem_cons_self _ _)
        have hrestle : ∀ q ∈ rest, depth ≤ q.2 := by
          intro q hq2
          exact (List.pairwise_cons.mp h3).1 q hq2
        have hrestub : ∀ q ∈ rest, q.2 ≤ depth + 1 := by
          intro q hq2
          exact h4 q (List.mem_cons_of_mem _ hq2) (current, depth) (List.mem_cons_self _ _)
        refine ih (rest ++ new) (visited ++ new) (hn3 hnd) ?_ ?_ ?_ ?_ ?_ ?_ p hp hlt c hc
        · intro q hq2
          rcases List.mem_append.mp hq2 with hq2 | hq2
          · exact List.mem_append.mpr (Or.inl (h1 q (List.mem_cons_of_mem _ hq2)))
          · exact List.mem_append.mpr (Or.inr hq2)
        · intro r hr q hq2
          rcases List.mem_append.mp hr with hr | hr
          · rcases List.mem_append.mp hq2 with hq2 | hq2
            · exact h2 r hr q (List.mem_cons_of_mem _ hq2)
            · have hb := h2 r hr (current, depth) (List.mem_cons_self _ _)
              have := (hn1 q hq2).2.1
              omega
          · rcases List.mem_append.mp hq2 with hq2 | hq2
            · have := (hn1 r hr).2.1
              have := hrestle q hq2
              omega
            · have := (hn1 r hr).2.1
              have := (hn1 q hq2).2.1
              omega
        · refine List.pairwise_append.mpr ⟨(List.pairwise_cons.mp h3).2, ?_, ?_⟩
          · exact pairwise_snd_of_const (fun q hq2 => (hn1 q hq2).2.1)
          · intro q1 hq1 q2 hq2
            have := hrestub q1 hq1
            have := (hn1 q2 hq2).2.1
            omega
        · intro r hr q hq2
          rcases List.mem_append.mp hr with hr | hr
          · rcases List.mem_append.mp hq2 with hq2 | hq2
            · exact h4 r (List.mem_cons_of_mem _ hr) q (List.mem_cons_of_mem _ hq2)
            · have := hrestub r hr
              have := (hn1 q hq2).2.1
              omega
          · rcases List.mem_append.mp hq2 with hq2 | hq2
            · have := (hn1 r hr).2.1
              have := hrestle q hq2
              omega
            · have := (hn1 r hr).2.1
              have := (hn1 q hq2).2.1
              omega
        · intro r hr hrlt
          rcases List.mem_append.mp hr with hr | hr
          · rcases h5 r hr hrlt with hset | hpend
            · refine Or.inl ?_
              intro c2 hc2
              obtain ⟨dc, hdc, hmem⟩ := hset c2 hc2
              exact ⟨dc, hdc, List.mem_append.mpr (Or.inl hmem)⟩
            · rcases List.mem_cons.mp hpend with he | he
              · refine Or.inl ?_
                intro c2 hc2
                rw [he] at hc2 ⊢
                simp only at hc2 ⊢
                have hcov := hn2 c2 hc2
                obtain ⟨q0, hq0, hfst⟩ := List.mem_map.mp hcov
                refine ⟨q0.2, ?_, ?_⟩
                · rcases List.mem_append.mp hq0 with hq0 | hq0
                  · exact h2 q0 hq0 (current, depth) (List.mem_cons_self _ _)
                  · rw [(hn1 q0 hq0).2.1]
                · have : (c2, q0.2) = q0 := by
                    obtain ⟨a, b⟩ := q0
                    simp only at hfst
                    rw [hfst]
                  rw [this]
                  exact hq0
              · exact Or.inr (List.mem_append.mpr (Or.inl he))
          · exact Or.inr (List.mem_append.mpr (Or.inr hr))
        · have hnodapp := hn3 hnd
          rw [List.map_append] at hnodapp
          have hdisj : List.Disjoint (visited.map Prod.fst) (new.map Prod.fst) :=
            (List.nodup_append.mp hnodapp).2.2
          have hndnew : (new.map Prod.fst).Nodup := (List.nodup_append.mp hnodapp).2.1
          have hsubAV : (new.map Prod.fst).toFinset ⊆
              (UGraph g).toFinset \ (visited.map Prod.fst).toFinset := by
            intro x hx
            rw [List.mem_toFinset] at hx
            obtain ⟨q0, hq0, hfst⟩ := List.mem_map.mp hx
            rw [Finset.mem_sdiff, List.mem_toFinset, List.mem_toFinset]
            constructor
            · exact childrenOf_subset_U (hfst ▸ (hn1 q0 hq0).1)
            · intro hbad
              exact hdisj hbad hx
          have hcardN : (new.map Prod.fst).toFinset.card = new.length := by
            rw [List.toFinset_card_of_nodup hndnew, List.length_map]
          have hsd : (UGraph g).toFinset \ ((visited ++ new).map Prod.fst).toFinset =
              ((UGraph g).toFinset \ (visited.map Prod.fst).toFinset) \
                (new.map Prod.fst).toFinset := by
            rw [List.map_append, List.toFinset_append]
            ext x
            simp [and_assoc]
          rw [hsd, Finset.card_sdiff hsubAV, hcardN]
          have hle := Finset.card_le_card hsubAV
          rw [hcardN] at hle
          simp only [List.length_append, List.length_cons] at hfuel ⊢
          omega

/-- Full expansion property of `bfs`: every recorded node strictly below the
depth bound has each of its children recorded at most one level deeper. -/
theorem bfsT_expand (g : ObjGraph) (root : Nat) (maxDepth : Int) :
    ∀ p ∈ bfsT g root maxDepth, (p.2 : Int) < maxDepth →
      ∀ c ∈ childrenOf g p.1, ∃ dc, dc ≤ p.2 + 1 ∧ (c, dc) ∈ bfsT g root maxDepth := by
  have hcard : ((UGraph g).toFinset \
      (([((root : Nat), (0 : Nat))]).map Prod.fst).toFinset).card ≤
      (g.map (fun p => p.2.length)).sum := by
    calc ((UGraph g).toFinset \ (([((root : Nat), (0 : Nat))]).map Prod.fst).toFinset).card
        ≤ (UGraph g).toFinset.card := Finset.card_le_card Finset.sdiff_subset
      _ ≤ (UGraph g).length := List.toFinset_card_le _
      _ = ((g.map Prod.snd).map List.length).sum := List.length_flatten _
      _ = (g.map (fun p => p.2.length)).sum := by rw [List.map_map]; rfl
  refine bfsGo_settled g maxDepth (bfsFuel g) [(root, 0)] [(root, 0)] (by simp) (by simp)
    ?_ (List.pairwise_singleton _ _) ?_ ?_ ?_
  · intro p hp q hq
    rw [List.mem_singleton] at hp
    rw [hp]
    exact Nat.zero_le _
  · intro p hp q hq
    rw [List.mem_singleton] at hp
    rw [hp]
    exact Nat.zero_le _
  · intro p hp _
    exact Or.inr hp
  · rw [bfsFuel, List.length_singleton]
    omega

/-- A zero-length path connects a node to itself. -/
theorem PathN.eq_of_zero {α : Type} {adj : α → List α} {x y : α} (h : PathN adj x y 0) :
    x = y := by
  cases h
  rfl

/-- A path extends along one more edge at its end. -/
theorem PathN.snoc {α : Type} {adj : α → List α} {x u c : α} {n : Nat}
    (h : PathN adj x u n) (hc : c ∈ adj u) : PathN adj x c (n + 1) := by
  induction h with
  | refl z => exact PathN.step hc (PathN.refl c)
  | step hstep _ ih => exact PathN.step hstep (ih hc)

/-- A nonempty path decomposes at its last edge. -/
theorem PathN.back {α : Type} {adj : α → List α} {x y : α} {n : Nat}
    (h : PathN adj x y (n + 1)) : ∃ u, PathN adj x u n ∧ y ∈ adj u := by
  induction n generalizing x with
  | zero =>
    cases h with
    | step hc h2 => exact ⟨x, PathN.refl x, (PathN.eq_of_zero h2) ▸ hc⟩
  | succ m ih =>
    cases h with
    | step hc h2 =>
      obtain ⟨u, hu, hy⟩ := ih h2
      exact ⟨u, PathN.step hc hu, hy⟩

/-- Completeness of `bfs`: each node with a root path of length within the
depth bound is recorded, at a depth not exceeding that length. -/
theorem bfs_complete (g : ObjGraph) (root : Nat) (maxDepth : Int) :
    ∀ n z, PathN (childrenOf g) root z n → (n : Int) ≤ maxDepth →
      ∃ dz, dz ≤ n ∧ (z, dz) ∈ bfsT g root maxDepth := by
  intro n
  induction n with
  | zero =>
    intro z h _
    rw [← PathN.eq_of_zero h]
    exact ⟨0, le_refl 0, bfsGo_visited_sub g maxDepth _ _ _ (by simp)⟩
  | succ m ih =>
    intro z h hle
    obtain ⟨u, hu, hz⟩ := PathN.back h
    obtain ⟨du, hdu, hmem⟩ := ih u hu (by push_cast at hle ⊢; omega)
    have hdult : (du : Int) < maxDepth := by
      have hdu2 : (du : Int) ≤ (m : Int) := by exact_mod_cast hdu
      push_cast at hle
      omega
    obtain ⟨dz, hdz, hzmem⟩ := bfsT_expand g root maxDepth (u, du) hmem hdult z hz
    exact ⟨dz, by omega, hzmem⟩

/-- Soundness of the DFS helper: under the invariants that the current node
has a root path of length equal to the current depth and every visited
identity has a root path within the depth bound, every identity in the result
has a root path within the depth bound. -/
theorem dfsGo_sound (g : ObjGraph) (maxDepth : Int) (root : Nat) :
    ∀ fuel current depth visited,
      PathN (childrenOf g) root current depth →
      (∀ z ∈ visited, ∃ n, PathN (childrenOf g) root z n ∧ (n : Int) ≤ maxDepth) →
      ∀ z ∈ dfsGo g maxDepth fuel current depth visited,
        ∃ n, PathN (childrenOf g) root z n ∧ (n : Int) ≤ maxDepth := by
  intro fuel
  induction fuel with
  | zero =>
    intro current depth visited _ hv z hz
    exact hv z (by simpa [dfsGo] using hz)
  | succ fuel2 ih =>
    intro current depth visited hcur hv z hz
    by_cases hguard : maxDepth < (depth : Int) ∨ current ∈ visited
    · rw [dfsGo_succ, if_pos hguard] at hz
      exact hv z hz
    · rw [dfsGo_succ, if_neg hguard] at hz
      have hdep : (depth : Int) ≤ maxDepth := le_of_not_lt fun hbad => hguard (Or.inl hbad)
      have hv2 : ∀ z2 ∈ visited ++ [current],
          ∃ n, PathN (childrenOf g) root z2 n ∧ (n : Int) ≤ maxDepth := by
        intro z2 hz2
        rcases List.mem_append.mp hz2 with h | h
        · exact hv z2 h
        · rw [List.mem_singleton.mp h]
          exact ⟨depth, hcur, hdep⟩
      have hloop : ∀ cs visited2,
          (∀ c ∈ cs, PathN (childrenOf g) root c (depth + 1)) →
          (∀ z2 ∈ visited2, ∃ n, PathN (childrenOf g) root z2 n ∧ (n : Int) ≤ maxDepth) →
          ∀ z2 ∈ dfsChildren g maxDepth fuel2 cs (depth + 1) visited2,
            ∃ n, PathN (childrenOf g) root z2 n ∧ (n : Int) ≤ maxDepth := by
        intro cs
        induction cs with
        | nil =>
          intro visited2 _ hv3 z2 hz2
          exact hv3 z2 (by simpa [dfsChildren] using hz2)
        | cons c cs2 ihc =>
          intro visited2 hcs hv3 z2 hz2
          rw [dfsChildren_cons] at hz2
          exact ihc _ (fun c2 hc2 => hcs c2 (List.mem_cons_of_mem _ hc2))
            (ih c (depth + 1) visited2 (hcs c (List.mem_cons_self _ _)) hv3) z2 hz2
      exact hloop (childrenOf g current) (visited ++ [current])
        (fun c hc => PathN.snoc hcur hc) hv2 z hz

/-- Soundness of `dfs`: every visited identity has a root path whose length is
within the depth bound. -/
theorem dfs_sound (g : ObjGraph) (root : Nat) (maxDepth : Int) :
    ∀ z ∈ dfs g root maxDepth,
      ∃ n, PathN (childrenOf g) root z n ∧ (n : Int) ≤ maxDepth := by
  intro z hz
  exact dfsGo_sound g maxDepth root _ root 0 [] (PathN.refl root) (by simp) z hz

/-- Claim C2, amended: over the same graph and `maxDepth` the two traversals
need not return identical visited-identity sets — `bfs` can strictly exceed
`dfs` when the depth bound cuts a longer dfs path to a node that also has a
short path (see the counterexample) — but the inclusion always holds: every
identity visited by `dfs` is also visited by `bfs`. -/
theorem claim_C2 (g : ObjGraph) (root : Nat) (maxDepth : Int) :
    ∀ z ∈ dfs g root maxDepth, z ∈ bfs g root maxDepth := by
  intro z hz
  obtain ⟨n, hpath, hle⟩ := dfs_sound g root maxDepth z hz
  obtain ⟨dz, _, hmem⟩ := bfs_complete g root maxDepth n z hpath hle
  exact List.mem_map_of_mem Prod.fst hmem

/-- Claim C2's amended inclusion, witnessed on the counterexample graph: the
identity 2 visited by `dfs` is also visited by `bfs`. -/
theorem claim_C2_witness :
    2 ∈ dfs [(0, [1, 2]), (1, [2]), (2, [3])] 0 2 ∧
    2 ∈ bfs [(0, [1, 2]), (1, [2]), (2, [3])] 0 2 :=
  ⟨by decide, claim_C2 [(0, [1, 2]), (1, [2]), (2, [3])] 0 2 2 (by decide)⟩

/-- Filter length is monotone in the predicate. -/
theorem length_filter_mono {α : Type} (l : List α) (q r : α → Bool)
    (h : ∀ a, q a = true → r a = true) : (l.filter q).length ≤ (l.filter r).length := by
  induction l with
  | nil => simp
  | cons a rest ih =>
    by_cases hq : q a = true
    · rw [List.filter_cons_of_pos hq, List.filter_cons_of_pos (h a hq)]
      simpa using ih
    · rw [List.filter_cons_of_neg (by simpa using hq)]
      by_cases hr : r a = true
      · rw [List.filter_cons_of_pos hr]
        exact le_trans ih (Nat.le_succ _)
      · rw [List.filter_cons_of_neg (by simpa using hr)]
        exact ih

/-- Filter length grows strictly when the larger predicate holds on a listed
witness that the smaller one misses. -/
theorem length_filter_lt {α : Type} (l : List α) (q r : α → Bool) (w : α)
    (h : ∀ a, q a = true → r a = true) (hw : w ∈ l) (hrw : r w = true)
    (hqw : ¬ q w = true) : (l.filter q).length < (l.filter r).length := by
  induction l with
  | nil => simp at hw
  | cons a rest ih =>
    rcases List.mem_cons.mp hw with he | hm
    · subst he
      rw [List.filter_cons_of_neg (by simpa using hqw), List.filter_cons_of_pos hrw]
      exact Nat.lt_succ_of_le (length_filter_mono rest q r h)
    · by_cases hq : q a = true
      · rw [List.filter_cons_of_pos hq, List.filter_cons_of_pos (h a hq)]
        simpa using ih hm
      · rw [List.filter_cons_of_neg (by simpa using hq)]
        by_cases hr : r a = true
        · rw [List.filter_cons_of_pos hr]
          exact Nat.lt_succ_of_le (le_of_lt (ih hm))
        · rw [List.filter_cons_of_neg (by simpa using hr)]
          exact ih hm

/-- A registered element is counted by its own chain measure. -/
theorem above_pos {uf : UnionFind} {x : Nat} (hx : (lookupAL uf.parent x).isSome) :
    1 ≤ above uf x := by
  have hxk : x ∈ uf.parent.map Prod.fst := (lookupAL_isSome_iff _ _).mp hx
  have hmem : x ∈ (uf.parent.map Prod.fst).filter (fun k => rankOf uf x ≤ rankOf uf k) := by
    rw [List.mem_filter]
    exact ⟨hxk, by simp⟩
  exact List.length_pos_of_mem hmem

/-- The chain measure is bounded by the number of parent bindings. -/
theorem above_le (uf : UnionFind) (x : Nat) : above uf x ≤ uf.parent.length := by
  calc above uf x ≤ (uf.parent.map Prod.fst).length := List.length_filter_le _ _
    _ = uf.parent.length := List.length_map _ _

/-- Climbing to a proper parent strictly decreases the chain measure. -/
theorem above_parent_lt {uf : UnionFind} {x p : Nat} (hwf : WF uf)
    (hp : lookupAL uf.parent x = some p) (hne : p ≠ x) : above uf p < above uf x := by
  have hrk := hwf.rup x p hp hne
  refine length_filter_lt _ _ _ x ?_ ?_ ?_ ?_
  · intro a ha
    simp only [decide_eq_true_eq] at ha ⊢
    omega
  · exact (lookupAL_isSome_iff _ _).mp (by rw [hp]; rfl)
  · simp
  · simp only [decide_eq_true_eq]
    omega

/-- Core specification of the pure root lookup on a well-formed state: on a
registered element it stabilizes (for every fuel at least the chain measure)
on a self-parented root whose rank dominates the element's. -/
theorem rootGo_spec {uf : UnionFind} (hwf : WF uf) :
    ∀ k x, (lookupAL uf.parent x).isSome → above uf x ≤ k →
      ∃ r, (∀ fuel, k ≤ fuel → rootGo fuel uf x = some r) ∧
        lookupAL uf.parent r = some r ∧ rankOf uf x ≤ rankOf uf r ∧
        (x ≠ r → rankOf uf x < rankOf uf r) := by
  intro k
  induction k with
  | zero =>
    intro x hx habove
    exact absurd (above_pos hx) (by omega)
  | succ k2 ih =>
    intro x hx habove
    obtain ⟨p, hp⟩ := Option.isSome_iff_exists.mp hx
    by_cases hpx : p = x
    · rw [hpx] at hp
      refine ⟨x, ?_, hp, le_refl _, fun h => absurd rfl h⟩
      intro fuel hfuel
      match fuel, hfuel with
      | f + 1, _ => simp [rootGo, hp]
    · have hlt := above_parent_lt hwf hp hpx
      have hpreg := hwf.preg x p hp
      obtain ⟨r, hstab, hroot, hle2, hlt2⟩ := ih p hpreg (by omega)
      have hxr := hwf.rup x p hp hpx
      refine ⟨r, ?_, hroot, by omega, fun _ => by omega⟩
      intro fuel hfuel
      match fuel, hfuel with
      | f + 1, hf =>
        simp only [rootGo, hp]
        rw [if_neg hpx]
        exact hstab f (by omega)

/-- The root of a registered element: existence, self-parenting, rank
domination, and stability of the underlying fuel recursion. -/
theorem rootOf_spec {uf : UnionFind} (hwf : WF uf) {x : Nat}
    (hx : (lookupAL uf.parent x).isSome) :
    ∃ r, rootOf uf x = some r ∧ lookupAL uf.parent r = some r ∧
      rankOf uf x ≤ rankOf uf r ∧ (x ≠ r → rankOf uf x < rankOf uf r) ∧
      (∀ fuel, above uf x ≤ fuel → rootGo fuel uf x = some r) := by
  obtain ⟨r, hstab, hroot, hle2, hlt2⟩ := rootGo_spec hwf (above uf x) x hx (le_refl _)
  refine ⟨r, ?_, hroot, hle2, hlt2, hstab⟩
  exact hstab (uf.parent.length + 1) (le_trans (above_le uf x) (Nat.le_succ _))

/-- A root lookup only succeeds on registered elements. -/
theorem rootOf_isSome_reg {uf : UnionFind} {x r : Nat} (h : rootOf uf x = some r) :
    (lookupAL uf.parent x).isSome := by
  rw [rootOf] at h
  cases hl : lookupAL uf.parent x with
  | none => rw [rootGo, hl] at h; exact absurd h (by simp)
  | some p => rfl

/-- `rootOf` fails exactly on unregistered elements. -/
theorem rootOf_none {uf : UnionFind} {x : Nat} (h : lookupAL uf.parent x = none) :
    rootOf uf x = none := by
  rw [rootOf, rootGo, h]

/-- An element that is its own root is self-parented. -/
theorem isRoot_of_rootOf_self {uf : UnionFind} (hwf : WF uf) {x : Nat}
    (h : rootOf uf x = some x) : lookupAL uf.parent x = some x := by
  obtain ⟨r, hr, hroot, _, hlt, _⟩ := rootOf_spec hwf (rootOf_isSome_reg h)
  rw [h] at hr
  cases hr
  exact hroot

/-- The root of a non-root element is the root of its parent. -/
theorem rootOf_parent {uf : UnionFind} (hwf : WF uf) {x p : Nat}
    (hp : lookupAL uf.parent x = some p) (hne : p ≠ x) :
    rootOf uf x = rootOf uf p := by
  have hpreg := hwf.preg x p hp
  obtain ⟨r, hr, _, _, _, hstab⟩ := rootOf_spec hwf hpreg
  have h1 : rootOf uf x = some r := by
    rw [rootOf]
    simp only [rootGo, hp]
    rw [if_neg hne]
    exact hstab uf.parent.length (above_le uf p)
  rw [h1, hr]

/-- A present key keeps its binding under appending. -/
theorem lookupAL_append_left {α β : Type} [DecidableEq α] {m : List (α × β)}
    (l : List (α × β)) {y : α} (h : (lookupAL m y).isSome) :
    lookupAL (m ++ l) y = lookupAL m y := by
  induction m with
  | nil => simp [lookupAL] at h
  | cons p rest ih =>
    by_cases h2 : p.1 = y
    · simp [lookupAL, h2]
    · simp only [lookupAL, h2, if_neg, not_false_iff] at h ⊢
      exact ih h

/-- Lookup of an absent key continues in the appended part. -/
theorem lookupAL_append_right {α β : Type} [DecidableEq α] {m : List (α × β)}
    (l : List (α × β)) {y : α} (h : lookupAL m y = none) :
    lookupAL (m ++ l) y = lookupAL l y := by
  induction m with
  | nil => simp
  | cons p rest ih =>
    by_cases h2 : p.1 = y
    · simp [lookupAL, h2] at h
    · simp only [lookupAL, h2, if_neg, not_false_iff] at h ⊢
      exact ih h

/-- Writing to a present key preserves which keys are present. -/
theorem lookupAL_setAL_isSome {α β : Type} [DecidableEq α] (m : List (α × β)) (k : α) (v : β)
    (hk : (lookupAL m k).isSome) (y : α) :
    (lookupAL (setAL m k v) y).isSome ↔ (lookupAL m y).isSome := by
  by_cases hy : k = y
  · subst hy
    rw [lookupAL_setAL_self]
    simp [hk]
  · rw [lookupAL_setAL_ne m k y v hy]

/-- Specification of the parent chain of a registered element: it stabilizes
over sufficient fuel, consists of registered nodes of dominating rank,
contains the element and its root. -/
theorem pathGo_spec {uf : UnionFind} (hwf : WF uf) :
    ∀ k x, (lookupAL uf.parent x).isSome → above uf x ≤ k →
      ∃ pl, (∀ fuel, k ≤ fuel → pathGo fuel uf x = pl) ∧
        (∀ z ∈ pl, (lookupAL uf.parent z).isSome ∧ rankOf uf x ≤ rankOf uf z) ∧
        (∀ r, rootOf uf x = some r → r ∈ pl) ∧ x ∈ pl := by
  intro k
  induction k with
  | zero =>
    intro x hx habove
    exact absurd (above_pos hx) (by omega)
  | succ k2 ih =>
    intro x hx habove
    obtain ⟨p, hp⟩ := Option.isSome_iff_exists.mp hx
    by_cases hpx : p = x
    · rw [hpx] at hp
      refine ⟨[x], ?_, ?_, ?_, List.mem_singleton_self x⟩
      · intro fuel hfuel
        match fuel, hfuel with
        | f + 1, _ => simp [pathGo, hp]
      · intro z hz
        rw [List.mem_singleton.mp hz]
        exact ⟨hx, le_refl _⟩
      · intro r hr
        have hroot : rootOf uf x = some x := by
          rw [rootOf]
          simp [rootGo, hp]
        rw [hroot] at hr
        cases hr
        exact List.mem_singleton_self x
    · have hlt := above_parent_lt hwf hp hpx
      have hpreg := hwf.preg x p hp
      obtain ⟨pl2, hstab, hfacts, hrootm, hpm⟩ := ih p hpreg (by omega)
      have hxr := hwf.rup x p hp hpx
      refine ⟨x :: pl2, ?_, ?_, ?_, List.mem_cons_self x pl2⟩
      · intro fuel hfuel
        match fuel, hfuel with
        | f + 1, hf =>
          simp only [pathGo, hp]
          rw [if_neg hpx, hstab f (by omega)]
      · intro z hz
        rcases List.mem_cons.mp hz with he | hm
        · rw [he]
          exact ⟨hx, le_refl _⟩
        · obtain ⟨hr1, hr2⟩ := hfacts z hm
          exact ⟨hr1, by omega⟩
      · intro r hr
        rw [rootOf_parent hwf hp hpx] at hr
        exact List.mem_cons_of_mem x (hrootm r hr)

/-- Wrapper of `pathGo_spec` at the standard fuel of `pathOf`. -/
theorem pathOf_spec {uf : UnionFind} (hwf : WF uf) {x : Nat}
    (hx : (lookupAL uf.parent x).isSome) :
    (∀ z ∈ pathOf uf x, (lookupAL uf.parent z).isSome ∧ rankOf uf x ≤ rankOf uf z) ∧
    (∀ r, rootOf uf x = some r → r ∈ pathOf uf x) ∧ x ∈ pathOf uf x ∧
    (∀ fuel, above uf x ≤ fuel → pathGo fuel uf x = pathOf uf x) := by
  obtain ⟨pl, hstab, hfacts, hrootm, hxm⟩ := pathGo_spec hwf (above uf x) x hx (le_refl _)
  have he : pathOf uf x = pl :=
    hstab (uf.parent.length + 1) (le_trans (above_le uf x) (Nat.le_succ _))
  rw [he]
  exact ⟨hfacts, hrootm, hxm, fun fuel hf => hstab fuel hf⟩

/-- The parent chain of a non-root element steps through its parent. -/
theorem pathOf_cons {uf : UnionFind} (hwf : WF uf) {x p : Nat}
    (hp : lookupAL uf.parent x = some p) (hne : p ≠ x) :
    pathOf uf x = x :: pathOf uf p := by
  have hpreg := hwf.preg x p hp
  obtain ⟨_, _, _, hstab⟩ := pathOf_spec hwf hpreg
  rw [pathOf]
  simp only [pathGo, hp]
  rw [if_neg hne, hstab uf.parent.length (above_le uf p)]

/-- A non-root element does not lie on its parent's chain. -/
theorem not_mem_path_parent {uf : UnionFind} (hwf : WF uf) {x p : Nat}
    (hp : lookupAL uf.parent x = some p) (hne : p ≠ x) : x ∉ pathOf uf p := by
  intro hbad
  have hpreg := hwf.preg x p hp
  obtain ⟨hfacts, _, _, _⟩ := pathOf_spec hwf hpreg
  have := (hfacts x hbad).2
  have := hwf.rup x p hp hne
  omega

/-- Re-pointing `a` to a root `b` rewires roots: afterwards, elements rooted
where `a` was rooted are rooted at `b`, everything else keeps its root.  The
rank component of the new state is arbitrary — the root walk never reads it. -/
theorem rootGo_setParent {uf : UnionFind} (hwf : WF uf) {a b : Nat}
    (rank2 : List (Nat × Nat)) (ha : (lookupAL uf.parent a).isSome)
    (hb : lookupAL uf.parent b = some b) (hne : b ≠ a)
    (hcompat : rootOf uf a = some b ∨ rootOf uf a = some a) :
    ∀ k y, (lookupAL uf.parent y).isSome → above uf y ≤ k →
      ∀ fuel, k + 1 ≤ fuel →
        rootGo fuel ⟨setAL uf.parent a b, rank2⟩ y =
          (if rootOf uf y = rootOf uf a then some b else rootOf uf y) := by
  intro k
  induction k with
  | zero =>
    intro y hy habove
    exact absurd (above_pos hy) (by omega)
  | succ k2 ih =>
    intro y hy habove fuel hfuel
    match fuel, hfuel with
    | f + 1, hf =>
      by_cases hya : y = a
      · subst hya
        have hl2 : lookupAL (setAL uf.parent y b) y = some b := lookupAL_setAL_self _ _ _
        have hl2b : lookupAL (setAL uf.parent y b) b = some b := by
          rw [lookupAL_setAL_ne uf.parent y b b (fun he => hne he.symm), hb]
        have hbval : rootGo (f + 1) ⟨setAL uf.parent y b, rank2⟩ y = some b := by
          simp only [rootGo, hl2]
          rw [if_neg hne]
          match f, hf with
          | f2 + 1, _ => simp [rootGo, hl2b]
        rw [hbval, if_pos rfl]
      · obtain ⟨p, hp⟩ := Option.isSome_iff_exists.mp hy
        have hl2 : lookupAL (setAL uf.parent a b) y = some p := by
          rw [lookupAL_setAL_ne uf.parent a y b (fun he => hya he.symm), hp]
        by_cases hpy : p = y
        · rw [hpy] at hp
          simp only [rootGo, hl2, hpy, if_pos]
          have hry : rootOf uf y = some y := by
            rw [rootOf]
            simp [rootGo, hp]
          rw [hry]
          by_cases hcase : (some y : Option Nat) = rootOf uf a
          · rw [if_pos hcase]
            rcases hcompat with hc | hc
            · rw [hc] at hcase
              cases Option.some.inj hcase
              rfl
            · rw [hc] at hcase
              exact absurd (Option.some.inj hcase) hya
          · rw [if_neg hcase]
        · simp only [rootGo, hl2]
          rw [if_neg hpy]
          have hpreg := hwf.preg y p hp
          have hlt := above_parent_lt hwf hp hpy
          rw [ih p hpreg (by omega) f (by omega)]
          rw [rootOf_parent hwf hp hpy]

/-- Wrapper of `rootGo_setParent` at the standard fuel: the full root map of
the re-pointed state. -/
theorem rootOf_setParent {uf : UnionFind} (hwf : WF uf) {a b : Nat}
    (rank2 : List (Nat × Nat)) (ha : (lookupAL uf.parent a).isSome)
    (hb : lookupAL uf.parent b = some b) (hne : b ≠ a)
    (hcompat : rootOf uf a = some b ∨ rootOf uf a = some a) :
    ∀ y, rootOf ⟨setAL uf.parent a b, rank2⟩ y =
      (if rootOf uf y = rootOf uf a then some b else rootOf uf y) := by
  intro y
  have hlen : (setAL uf.parent a b).length = uf.parent.length := length_setAL_isSome _ _ _ ha
  by_cases hy : (lookupAL uf.parent y).isSome
  · have := rootGo_setParent hwf rank2 ha hb hne hcompat (above uf y) y hy (le_refl _)
      ((setAL uf.parent a b).length + 1) (by rw [hlen]; have := above_le uf y; omega)
    rw [rootOf]
    exact this
  · have hyn : lookupAL uf.parent y = none := by
      cases hl : lookupAL uf.parent y with
      | none => rfl
      | some v => rw [hl] at hy; simp at hy
    have hya : y ≠ a := by
      intro he
      rw [he] at hy
      exact hy ha
    have hl2 : lookupAL (setAL uf.parent a b) y = none := by
      rw [lookupAL_setAL_ne uf.parent a y b (fun he => hya he.symm), hyn]
    have hroota : ∃ ra, rootOf uf a = some ra := by
      rcases hcompat with hc | hc
      · exact ⟨b, hc⟩
      · exact ⟨a, hc⟩
    obtain ⟨ra, hra⟩ := hroota
    rw [rootOf_none hl2, rootOf_none hyn, hra]
    rw [if_neg (by simp)]

/-- Re-pointing an element below a root of strictly larger rank preserves
well-formedness (covers both path compression and union-by-rank attachment). -/
theorem WF_setParent_root {uf : UnionFind} (hwf : WF uf) {a b : Nat}
    (ha : (lookupAL uf.parent a).isSome) (hb : lookupAL uf.parent b = some b)
    (hrk : rankOf uf a < rankOf uf b) :
    WF ⟨setAL uf.parent a b, uf.rank⟩ := by
  have hiff := lookupAL_setAL_isSome uf.parent a b ha
  refine ⟨?_, ?_, ?_⟩
  · intro y
    rw [hiff y]
    exact hwf.keys y
  · intro y p hyp
    by_cases hya : y = a
    · subst hya
      rw [lookupAL_setAL_self] at hyp
      cases Option.some.inj hyp
      rw [hiff]
      rw [hb]
      rfl
    · rw [lookupAL_setAL_ne uf.parent a y b (fun he => hya he.symm)] at hyp
      rw [hiff]
      exact hwf.preg y p hyp
  · intro y p hyp hpy
    show rankOf uf y < rankOf uf p
    by_cases hya : y = a
    · subst hya
      rw [lookupAL_setAL_self] at hyp
      cases Option.some.inj hyp
      exact hrk
    · rw [lookupAL_setAL_ne uf.parent a y b (fun he => hya he.symm)] at hyp
      exact hwf.rup y p hyp hpy

/-- Rank map of a state whose rank dict was written at one key. -/
theorem rankOf_setRank (parent2 : List (Nat × Nat)) (uf : UnionFind) (k v z : Nat) :
    rankOf ⟨parent2, setAL uf.rank k v⟩ z = (if z = k then v else rankOf uf z) := by
  by_cases hz : z = k
  · subst hz
    rw [if_pos rfl]
    show (lookupAL (setAL uf.rank z v) z).getD 0 = v
    rw [lookupAL_setAL_self]
    rfl
  · rw [if_neg hz]
    show (lookupAL (setAL uf.rank k v) z).getD 0 = rankOf uf z
    rw [lookupAL_setAL_ne uf.rank k z v (fun he => hz he.symm)]
    rfl

/-- The rank-tie attachment of `union`: attaching `y`'s root under `x`'s root
and bumping the latter's rank preserves well-formedness. -/
theorem WF_attach_tie {uf : UnionFind} (hwf : WF uf) {rx ry kx : Nat}
    (hrx : lookupAL uf.parent rx = some rx) (hry : lookupAL uf.parent ry = some ry)
    (hne : rx ≠ ry) (hkx : lookupAL uf.rank rx = some kx)
    (heq : rankOf uf rx = rankOf uf ry) :
    WF ⟨setAL uf.parent ry rx, setAL uf.rank rx (kx + 1)⟩ := by
  have hrya : (lookupAL uf.parent ry).isSome := by rw [hry]; rfl
  have hiff := lookupAL_setAL_isSome uf.parent ry rx hrya
  have hkxs : (lookupAL uf.rank rx).isSome := by rw [hkx]; rfl
  have hiffr := lookupAL_setAL_isSome uf.rank rx (kx + 1) hkxs
  have hkxval : rankOf uf rx = kx := by rw [rankOf, hkx]; rfl
  refine ⟨?_, ?_, ?_⟩
  · intro y
    rw [hiff y, hiffr y]
    exact hwf.keys y
  · intro y p hyp
    by_cases hya : y = ry
    · subst hya
      rw [lookupAL_setAL_self] at hyp
      cases Option.some.inj hyp
      rw [hiff, hrx]
      rfl
    · rw [lookupAL_setAL_ne uf.parent ry y rx (fun he => hya he.symm)] at hyp
      rw [hiff]
      exact hwf.preg y p hyp
  · intro y2 p2 hyp hpy
    rw [rankOf_setRank, rankOf_setRank]
    by_cases hya : y2 = ry
    · rw [hya, lookupAL_setAL_self] at hyp
      have hp2 : p2 = rx := (Option.some.inj hyp).symm
      rw [hya, hp2, if_neg (Ne.symm hne), if_pos rfl]
      omega
    · rw [lookupAL_setAL_ne uf.parent ry y2 rx (fun he => hya he.symm)] at hyp
      have hold := hwf.rup y2 p2 hyp hpy
      have hyrx : y2 ≠ rx := by
        intro he
        rw [he, hrx] at hyp
        exact hpy ((Option.some.inj hyp).symm.trans he.symm)
      rw [if_neg hyrx]
      by_cases hprx : p2 = rx
      · rw [if_pos hprx]
        rw [hprx] at hold
        omega
      · rw [if_neg hprx]
        exact hold

/-- Appending fresh bindings to the parent dict leaves the roots of already
registered elements unchanged (their chains never reach the new part). -/
theorem rootGo_append {uf : UnionFind} (hwf : WF uf) (ext rank2 : List (Nat × Nat)) :
    ∀ k y, (lookupAL uf.parent y).isSome → above uf y ≤ k →
      ∀ fuel, k ≤ fuel → rootGo fuel ⟨uf.parent ++ ext, rank2⟩ y = rootOf uf y := by
  intro k
  induction k with
  | zero =>
    intro y hy habove
    exact absurd (above_pos hy) (by omega)
  | succ k2 ih =>
    intro y hy habove fuel hfuel
    obtain ⟨p, hp⟩ := Option.isSome_iff_exists.mp hy
    have hl2 : lookupAL (uf.parent ++ ext) y = some p := by
      rw [lookupAL_append_left ext hy, hp]
    match fuel, hfuel with
    | f + 1, hf =>
      by_cases hpy : p = y
      · rw [hpy] at hp hl2
        simp only [rootGo, hl2, if_pos]
        rw [rootOf]
        simp [rootGo, hp]
      · simp only [rootGo, hl2]
        rw [if_neg hpy]
        have hpreg := hwf.preg y p hp
        have hlt := above_parent_lt hwf hp hpy
        rw [ih p hpreg (by omega) f (by omega)]
        rw [rootOf_parent hwf hp hpy]

/-- `make_set` on an already registered element changes nothing. -/
theorem make_set_reg {uf : UnionFind} {x : Nat} (h : (lookupAL uf.parent x).isSome) :
    uf.make_set x = uf := by
  obtain ⟨p, hp⟩ := Option.isSome_iff_exists.mp h
  simp [UnionFind.make_set, hp]

/-- `make_set` on a fresh element: the new element becomes a rank-0 root; the
registration set gains exactly it; all ranks and all previous roots are
unchanged. -/
theorem make_set_fresh_spec {uf : UnionFind} (hwf : WF uf) {x : Nat}
    (hx : lookupAL uf.parent x = none) :
    WF (uf.make_set x) ∧
    lookupAL (uf.make_set x).parent x = some x ∧
    (∀ y, (lookupAL (uf.make_set x).parent y).isSome ↔
      ((lookupAL uf.parent y).isSome ∨ y = x)) ∧
    rootOf (uf.make_set x) x = some x ∧
    (∀ y, (lookupAL uf.parent y).isSome → rootOf (uf.make_set x) y = rootOf uf y) ∧
    (∀ z, rankOf (uf.make_set x) z = rankOf uf z) := by
  have hxr : lookupAL uf.rank x = none := by
    cases hl : lookupAL uf.rank x with
    | none => rfl
    | some v =>
      have h2 := (hwf.keys x).mpr (by rw [hl]; rfl)
      rw [hx] at h2
      simp at h2
  have hms : uf.make_set x = ⟨uf.parent ++ [(x, x)], uf.rank ++ [(x, 0)]⟩ := by
    simp [UnionFind.make_set, hx]
  rw [hms]
  have hlookx : lookupAL (uf.parent ++ [(x, x)]) x = some x := by
    rw [lookupAL_append_right _ hx]
    simp [lookupAL]
  have hiff : ∀ y, (lookupAL (uf.parent ++ [(x, x)]) y).isSome ↔
      ((lookupAL uf.parent y).isSome ∨ y = x) := by
    intro y
    by_cases hy : (lookupAL uf.parent y).isSome
    · rw [lookupAL_append_left _ hy]
      simp [hy]
    · have hyn : lookupAL uf.parent y = none := by
        cases hl : lookupAL uf.parent y with
        | none => rfl
        | some v => rw [hl] at hy; simp at hy
      rw [lookupAL_append_right _ hyn]
      by_cases hyx : x = y
      · subst hyx
        simp [lookupAL]
      · simp only [lookupAL, hyx, if_neg, not_false_iff]
        simp [hy, Ne.symm hyx]
  have hiffr : ∀ y, (lookupAL (uf.rank ++ [(x, 0)]) y).isSome ↔
      ((lookupAL uf.rank y).isSome ∨ y = x) := by
    intro y
    by_cases hy : (lookupAL uf.rank y).isSome
    · rw [lookupAL_append_left _ hy]
      simp [hy]
    · have hyn : lookupAL uf.rank y = none := by
        cases hl : lookupAL uf.rank y with
        | none => rfl
        | some v => rw [hl] at hy; simp at hy
      rw [lookupAL_append_right _ hyn]
      by_cases hyx : x = y
      · subst hyx
        simp [lookupAL]
      · simp only [lookupAL, hyx, if_neg, not_false_iff]
        simp [hy, Ne.symm hyx]
  have hrkeq : ∀ z, rankOf ⟨uf.parent ++ [(x, x)], uf.rank ++ [(x, 0)]⟩ z = rankOf uf z := by
    intro z
    show (lookupAL (uf.rank ++ [(x, 0)]) z).getD 0 = rankOf uf z
    by_cases hz : (lookupAL uf.rank z).isSome
    · rw [lookupAL_append_left _ hz]
      rfl
    · have hzn : lookupAL uf.rank z = none := by
        cases hl : lookupAL uf.rank z with
        | none => rfl
        | some v => rw [hl] at hz; simp at hz
      rw [lookupAL_append_right _ hzn]
      rw [rankOf, hzn]
      by_cases hzx : x = z
      · subst hzx
        simp [lookupAL]
      · simp [lookupAL, hzx]
  have hwf2 : WF ⟨uf.parent ++ [(x, x)], uf.rank ++ [(x, 0)]⟩ := by
    refine ⟨?_, ?_, ?_⟩
    · intro y
      show (lookupAL (uf.parent ++ [(x, x)]) y).isSome ↔ _
      rw [hiff y, hiffr y, hwf.keys y]
    · intro y p hyp
      show (lookupAL (uf.parent ++ [(x, x)]) p).isSome
      rw [hiff]
      by_cases hy : (lookupAL uf.parent y).isSome
      · rw [show lookupAL (⟨uf.parent ++ [(x, x)], uf.rank ++ [(x, 0)]⟩ :
            UnionFind).parent y = lookupAL (uf.parent ++ [(x, x)]) y from rfl,
          lookupAL_append_left _ hy] at hyp
        exact Or.inl (hwf.preg y p hyp)
      · have hyn : lookupAL uf.parent y = none := by
          cases hl : lookupAL uf.parent y with
          | none => rfl
          | some v => rw [hl] at hy; simp at hy
        rw [show lookupAL (⟨uf.parent ++ [(x, x)], uf.rank ++ [(x, 0)]⟩ :
            UnionFind).parent y = lookupAL (uf.parent ++ [(x, x)]) y from rfl,
          lookupAL_append_right _ hyn] at hyp
        by_cases hyx : x = y
        · subst hyx
          simp only [lookupAL, if_pos rfl] at hyp
          cases Option.some.inj hyp
          exact Or.inr rfl
        · simp only [lookupAL, hyx, if_neg, not_false_iff] at hyp
          simp [lookupAL] at hyp
    · intro y p hyp hpy
      rw [hrkeq, hrkeq]
      by_cases hy : (lookupAL uf.parent y).isSome
      · rw [show lookupAL (⟨uf.parent ++ [(x, x)], uf.rank ++ [(x, 0)]⟩ :
            UnionFind).parent y = lookupAL (uf.parent ++ [(x, x)]) y from rfl,
          lookupAL_append_left _ hy] at hyp
        exact hwf.rup y p hyp hpy
      · have hyn : lookupAL uf.parent y = none := by
          cases hl : lookupAL uf.parent y with
          | none => rfl
          | some v => rw [hl] at hy; simp at hy
        rw [show lookupAL (⟨uf.parent ++ [(x, x)], uf.rank ++ [(x, 0)]⟩ :
            UnionFind).parent y = lookupAL (uf.parent ++ [(x, x)]) y from rfl,
          lookupAL_append_right _ hyn] at hyp
        by_cases hyx : x = y
        · subst hyx
          simp only [lookupAL, if_pos rfl] at hyp
          exact absurd (Option.some.inj hyp).symm hpy
        · simp only [lookupAL, hyx, if_neg, not_false_iff] at hyp
          simp [lookupAL] at hyp
  refine ⟨hwf2, hlookx, hiff, ?_, ?_, hrkeq⟩
  · rw [rootOf]
    simp [rootGo, hlookx]
  · intro y hy
    rw [rootOf]
    refine rootGo_append hwf [(x, x)] (uf.rank ++ [(x, 0)]) (above uf y) y hy (le_refl _) _ ?_
    show above uf y ≤ (uf.parent ++ [(x, x)]).length + 1
    rw [List.length_append]
    have := above_le uf y
    omega

/-- Full specification of the recursive body of `find` on a well-formed
state: on a registered element (with fuel at least the chain measure) it
returns the pure root together with a state in which every node of the
element's chain points directly at that root and nothing else changed — ranks,
registered keys, and the root of every element are all preserved, and the new
state is well-formed again. -/
theorem findGo_spec {uf : UnionFind} (hwf : WF uf) :
    ∀ k x, (lookupAL uf.parent x).isSome → above uf x ≤ k →
      ∀ fuel, k ≤ fuel →
        ∃ r uf2, findGo fuel uf x = some (r, uf2) ∧ rootOf uf x = some r ∧
          uf2.rank = uf.rank ∧ uf2.parent.length = uf.parent.length ∧
          (∀ z, lookupAL uf2.parent z =
            (if z ∈ pathOf uf x then some r else lookupAL uf.parent z)) ∧
          WF uf2 ∧ (∀ y, rootOf uf2 y = rootOf uf y) := by
  intro k
  induction k with
  | zero =>
    intro x hx habove
    exact absurd (above_pos hx) (by omega)
  | succ k2 ih =>
    intro x hx habove fuel hfuel
    obtain ⟨p, hp⟩ := Option.isSome_iff_exists.mp hx
    match fuel, hfuel with
    | f + 1, hf =>
      by_cases hpx : p = x
      · rw [hpx] at hp
        have hpath : pathOf uf x = [x] := by
          rw [pathOf]
          simp [pathGo, hp]
        have hrootx : rootOf uf x = some x := by
          rw [rootOf]
          simp [rootGo, hp]
        refine ⟨x, uf, ?_, hrootx, rfl, rfl, ?_, hwf, fun y => rfl⟩
        · simp [findGo, hp]
        · intro z
          rw [hpath]
          by_cases hz : z = x
          · subst hz
            rw [if_pos (List.mem_singleton_self z), hp]
          · rw [if_neg (by simp [hz])]
      · have hlt := above_parent_lt hwf hp hpx
        have hpreg := hwf.preg x p hp
        obtain ⟨r, uf2, hfind, hrootp, hrank2, hlen2, hchar2, hwf2, hroots2⟩ :=
          ih p hpreg (by omega) f (by omega)
        have hrootx : rootOf uf x = some r := by
          rw [rootOf_parent hwf hp hpx, hrootp]
        have hrk2 : ∀ z, rankOf uf2 z = rankOf uf z := by
          intro z
          rw [rankOf, rankOf, hrank2]
        have hxnotp : x ∉ pathOf uf p := not_mem_path_parent hwf hp hpx
        have hl2x : lookupAL uf2.parent x = some p := by
          rw [hchar2 x, if_neg hxnotp, hp]
        have hl2xs : (lookupAL uf2.parent x).isSome := by rw [hl2x]; rfl
        have hrmem : r ∈ pathOf uf p := (pathOf_spec hwf hpreg).2.1 r hrootp
        have hl2r : lookupAL uf2.parent r = some r := by
          rw [hchar2 r, if_pos hrmem]
        obtain ⟨r0, hr0, hroot0, hle0, hlt0, _⟩ := rootOf_spec hwf hpreg
        have hr0r : r0 = r := by
          rw [hrootp] at hr0
          exact (Option.some.inj hr0).symm
        rw [hr0r] at hle0
        have hxr : rankOf uf x < rankOf uf r := by
          have := hwf.rup x p hp hpx
          omega
        have hner : r ≠ x := by
          intro he
          rw [he] at hxr
          omega
        have hwf3 : WF ⟨setAL uf2.parent x r, uf2.rank⟩ := by
          refine WF_setParent_root hwf2 hl2xs hl2r ?_
          rw [hrk2, hrk2]
          exact hxr
        have hroots3 := rootOf_setParent hwf2 uf2.rank hl2xs hl2r hner
          (Or.inl (by rw [hroots2 x, hrootx]))
        have hpcons := pathOf_cons hwf hp hpx
        refine ⟨r, ⟨setAL uf2.parent x r, uf2.rank⟩, ?_, hrootx, ?_, ?_, ?_, hwf3, ?_⟩
        · simp [findGo, hp, hpx, hfind]
        · show uf2.rank = uf.rank
          exact hrank2
        · show (setAL uf2.parent x r).length = uf.parent.length
          rw [length_setAL_isSome _ _ _ hl2xs, hlen2]
        · intro z
          show lookupAL (setAL uf2.parent x r) z = _
          by_cases hz : z = x
          · subst hz
            rw [lookupAL_setAL_self, hpcons]
            rw [if_pos (List.mem_cons_self _ _)]
          · rw [lookupAL_setAL_ne uf2.parent x z r (fun he => hz he.symm), hchar2 z, hpcons]
            by_cases hzp : z ∈ pathOf uf p
            · rw [if_pos hzp, if_pos (List.mem_cons_of_mem _ hzp)]
            · rw [if_neg hzp, if_neg (by
                intro hmem
                rcases List.mem_cons.mp hmem with he | hm
                · exact hz he
                · exact hzp hm)]
        · intro y
          rw [hroots3 y, hroots2 y, hroots2 x, hrootx]
          by_cases hcase : rootOf uf y = some r
          · rw [if_pos hcase, hcase]
          · rw [if_neg hcase]

/-- `find` on an unregistered element reports the `KeyError`. -/
theorem find_none {uf : UnionFind} {x : Nat} (h : lookupAL uf.parent x = none) :
    uf.find x = none := by
  rw [UnionFind.find]
  simp [findGo, h]

/-- `find` on a registered element of a well-formed state: it succeeds,
returns the pure root, compresses exactly the chain of the element onto that
root, and preserves ranks, registered keys, parent count, roots, and
well-formedness. -/
theorem find_spec {uf : UnionFind} (hwf : WF uf) {x : Nat}
    (hx : (lookupAL uf.parent x).isSome) :
    ∃ r uf2, uf.find x = some (r, uf2) ∧ rootOf uf x = some r ∧
      uf2.rank = uf.rank ∧ uf2.parent.length = uf.parent.length ∧
      (∀ z, lookupAL uf2.parent z =
        (if z ∈ pathOf uf x then some r else lookupAL uf.parent z)) ∧
      WF uf2 ∧ (∀ y, rootOf uf2 y = rootOf uf y) := by
  refine findGo_spec hwf (above uf x) x hx (le_refl _) (uf.parent.length + 1) ?_
  have := above_le uf x
  omega

/-- The registered keys are unchanged by a `find`-compressed state (read off
the parent characterization). -/
theorem find_keys {uf : UnionFind} (hwf : WF uf) {x r : Nat} {uf2 : UnionFind}
    (hx : (lookupAL uf.parent x).isSome)
    (hchar : ∀ z, lookupAL uf2.parent z =
      (if z ∈ pathOf uf x then some r else lookupAL uf.parent z)) :
    ∀ z, (lookupAL uf2.parent z).isSome ↔ (lookupAL uf.parent z).isSome := by
  intro z
  rw [hchar z]
  by_cases hz : z ∈ pathOf uf x
  · rw [if_pos hz]
    simp [((pathOf_spec hwf hx).1 z hz).1]
  · rw [if_neg hz]

/-- Full specification of `union` on registered elements of a well-formed
state, covering the four branches of the source: equal roots are a no-op on
the partition and the ranks; unequal roots attach the lower-rank root below
the higher-rank one without touching ranks; a tie attaches `y`'s root below
`x`'s root and increments exactly the rank of `x`'s root by one.  In every
case the result is well-formed, keys are preserved and no rank decreases. -/
theorem union_spec {uf : UnionFind} (hwf : WF uf) {x y : Nat}
    (hx : (lookupAL uf.parent x).isSome) (hy : (lookupAL uf.parent y).isSome) :
    ∃ rx ry uf3, rootOf uf x = some rx ∧ rootOf uf y = some ry ∧
      uf.union x y = some uf3 ∧ WF uf3 ∧
      (∀ z, (lookupAL uf3.parent z).isSome ↔ (lookupAL uf.parent z).isSome) ∧
      (∀ z, rankOf uf z ≤ rankOf uf3 z) ∧
      (rx = ry → uf3.rank = uf.rank ∧ (∀ z, rootOf uf3 z = rootOf uf z)) ∧
      (rx ≠ ry → rankOf uf rx < rankOf uf ry →
        uf3.rank = uf.rank ∧ lookupAL uf3.parent rx = some ry ∧
        (∀ z, rootOf uf3 z = (if rootOf uf z = some rx then some ry else rootOf uf z))) ∧
      (rx ≠ ry → rankOf uf ry < rankOf uf rx →
        uf3.rank = uf.rank ∧ lookupAL uf3.parent ry = some rx ∧
        (∀ z, rootOf uf3 z = (if rootOf uf z = some ry then some rx else rootOf uf z))) ∧
      (rx ≠ ry → rankOf uf rx = rankOf uf ry →
        lookupAL uf3.parent ry = some rx ∧ rankOf uf3 rx = rankOf uf rx + 1 ∧
        (∀ z, z ≠ rx → rankOf uf3 z = rankOf uf z) ∧
        (∀ z, rootOf uf3 z = (if rootOf uf z = some ry then some rx else rootOf uf z))) := by
  obtain ⟨rx, uf1, hfx, hrx, hrank1, hlen1, hchar1, hwf1, hroots1⟩ := find_spec hwf hx
  have hkeys1 := find_keys hwf hx hchar1
  have hy1 : (lookupAL uf1.parent y).isSome := (hkeys1 y).mpr hy
  obtain ⟨ry, uf2, hfy, hry1, hrank2, hlen2, hchar2, hwf2, hroots2⟩ := find_spec hwf1 hy1
  have hkeys2 := find_keys hwf1 hy1 hchar2
  have hry : rootOf uf y = some ry := by rw [← hroots1 y, hry1]
  have hkeys12 : ∀ z, (lookupAL uf2.parent z).isSome ↔ (lookupAL uf.parent z).isSome := by
    intro z
    rw [hkeys2 z, hkeys1 z]
  have hroots12 : ∀ z, rootOf uf2 z = rootOf uf z := by
    intro z
    rw [hroots2 z, hroots1 z]
  have hrank12 : uf2.rank = uf.rank := by rw [hrank2, hrank1]
  have hrk12 : ∀ z, rankOf uf2 z = rankOf uf z := by
    intro z
    rw [rankOf, rankOf, hrank12]
  obtain ⟨rx0, hrx0, hrxroot, _, _, _⟩ := rootOf_spec hwf (rootOf_isSome_reg hrx)
  have hrx0e : rx0 = rx := by
    rw [hrx] at hrx0
    exact (Option.some.inj hrx0).symm
  rw [hrx0e] at hrxroot
  obtain ⟨ry0, hry0, hryroot, _, _, _⟩ := rootOf_spec hwf (rootOf_isSome_reg hry)
  have hry0e : ry0 = ry := by
    rw [hry] at hry0
    exact (Option.some.inj hry0).symm
  rw [hry0e] at hryroot
  have hrxreg : (lookupAL uf.parent rx).isSome := by rw [hrxroot]; rfl
  have hryreg : (lookupAL uf.parent ry).isSome := by rw [hryroot]; rfl
  have hrootrx : rootOf uf rx = some rx := by rw [rootOf]; simp [rootGo, hrxroot]
  have hrootry : rootOf uf ry = some ry := by rw [rootOf]; simp [rootGo, hryroot]
  have hrxroot2 : lookupAL uf2.parent rx = some rx :=
    isRoot_of_rootOf_self hwf2 (by rw [hroots12 rx, rootOf]; simp [rootGo, hrxroot])
  have hryroot2 : lookupAL uf2.parent ry = some ry :=
    isRoot_of_rootOf_self hwf2 (by rw [hroots12 ry, rootOf]; simp [rootGo, hryroot])
  have hrxreg2 : (lookupAL uf2.parent rx).isSome := by rw [hrxroot2]; rfl
  have hryreg2 : (lookupAL uf2.parent ry).isSome := by rw [hryroot2]; rfl
  by_cases heq : rx = ry
  · refine ⟨rx, ry, uf2, hrx, hry, ?_, hwf2, hkeys12, ?_, ?_, ?_, ?_, ?_⟩
    · simp [UnionFind.union, hfx, hfy, heq]
    · intro z
      rw [hrk12 z]
    · intro _
      exact ⟨hrank12, hroots12⟩
    · intro hne _
      exact absurd heq hne
    · intro hne _
      exact absurd heq hne
    · intro hne _
      exact absurd heq hne
  · have hkxs : (lookupAL uf2.rank rx).isSome := (hwf2.keys rx).mp hrxreg2
    have hkys : (lookupAL uf2.rank ry).isSome := (hwf2.keys ry).mp hryreg2
    obtain ⟨kx, hkx⟩ := Option.isSome_iff_exists.mp hkxs
    obtain ⟨ky, hky⟩ := Option.isSome_iff_exists.mp hkys
    have hkxval : rankOf uf rx = kx := by
      rw [← hrk12 rx, rankOf, hkx]
      rfl
    have hkyval : rankOf uf ry = ky := by
      rw [← hrk12 ry, rankOf, hky]
      rfl
    by_cases hlt : kx < ky
    · refine ⟨rx, ry, ⟨setAL uf2.parent rx ry, uf2.rank⟩, hrx, hry, ?_, ?_, ?_, ?_, ?_, ?_, ?_, ?_⟩
      · simp [UnionFind.union, hfx, hfy, heq, hkx, hky, hlt]
      · refine WF_setParent_root hwf2 hrxreg2 hryroot2 ?_
        rw [hrk12, hrk12]
        omega
      · intro z
        show (lookupAL (setAL uf2.parent rx ry) z).isSome ↔ _
        rw [(lookupAL_setAL_isSome uf2.parent rx ry hrxreg2 z), hkeys12 z]
      · intro z
        show rankOf uf z ≤ rankOf ⟨setAL uf2.parent rx ry, uf2.rank⟩ z
        rw [show rankOf ⟨setAL uf2.parent rx ry, uf2.rank⟩ z = rankOf uf2 z from rfl, hrk12 z]
      · intro he
        exact absurd he heq
      · intro _ _
        have hroots3 := rootOf_setParent hwf2 uf2.rank hrxreg2 hryroot2
          (fun he => heq he.symm)
          (Or.inr (by rw [hroots12 rx, rootOf]; simp [rootGo, hrxroot]))
        refine ⟨hrank12, by rw [lookupAL_setAL_self], ?_⟩
        intro z
        rw [hroots3 z, hroots12 z, hroots12 rx, hrootrx]
      · intro _ hbad
        rw [hkxval, hkyval] at hbad
        omega
      · intro _ hbad
        rw [hkxval, hkyval] at hbad
        omega
    · by_cases hlt2 : ky < kx
      · refine ⟨rx, ry, ⟨setAL uf2.parent ry rx, uf2.rank⟩, hrx, hry, ?_, ?_, ?_, ?_, ?_, ?_, ?_, ?_⟩
        · simp [UnionFind.union, hfx, hfy, heq, hkx, hky, hlt, hlt2]
        · refine WF_setParent_root hwf2 hryreg2 hrxroot2 ?_
          rw [hrk12, hrk12]
          omega
        · intro z
          show (lookupAL (setAL uf2.parent ry rx) z).isSome ↔ _
          rw [(lookupAL_setAL_isSome uf2.parent ry rx hryreg2 z), hkeys12 z]
        · intro z
          show rankOf uf z ≤ rankOf ⟨setAL uf2.parent ry rx, uf2.rank⟩ z
          rw [show rankOf ⟨setAL uf2.parent ry rx, uf2.rank⟩ z = rankOf uf2 z from rfl, hrk12 z]
        · intro he
          exact absurd he heq
        · intro _ hbad
          rw [hkxval, hkyval] at hbad
          omega
        · intro _ _
          have hroots3 := rootOf_setParent hwf2 uf2.rank hryreg2 hrxroot2 heq
            (Or.inr (by rw [hroots12 ry, rootOf]; simp [rootGo, hryroot]))
          refine ⟨hrank12, by rw [lookupAL_setAL_self], ?_⟩
          intro z
          rw [hroots3 z, hroots12 z, hroots12 ry, hrootry]
        · intro _ hbad
          rw [hkxval, hkyval] at hbad
          omega
      · have hkeq : kx = ky := by omega
        refine ⟨rx, ry, ⟨setAL uf2.parent ry rx, setAL uf2.rank rx (kx + 1)⟩, hrx, hry,
          ?_, ?_, ?_, ?_, ?_, ?_, ?_, ?_⟩
        · simp [UnionFind.union, hfx, hfy, heq, hkx, hky, hlt, hlt2]
        · refine WF_attach_tie hwf2 hrxroot2 hryroot2 heq hkx ?_
          rw [hrk12, hrk12, hkxval, hkyval, hkeq]
        · intro z
          show (lookupAL (setAL uf2.parent ry rx) z).isSome ↔ _
          rw [(lookupAL_setAL_isSome uf2.parent ry rx hryreg2 z), hkeys12 z]
        · intro z
          show rankOf uf z ≤ rankOf ⟨setAL uf2.parent ry rx, setAL uf2.rank rx (kx + 1)⟩ z
          rw [rankOf_setRank (setAL uf2.parent ry rx) uf2 rx (kx + 1) z]
          by_cases hz : z = rx
          · rw [if_pos hz, hz, hkxval]
            omega
          · rw [if_neg hz, hrk12 z]
        · intro he
          exact absurd he heq
        · intro _ hbad
          rw [hkxval, hkyval] at hbad
          omega
        · intro _ hbad
          rw [hkxval, hkyval] at hbad
          omega
        · intro _ _
          have hroots3 := rootOf_setParent hwf2 (setAL uf2.rank rx (kx + 1)) hryreg2 hrxroot2
            heq (Or.inr (by rw [hroots12 ry, rootOf]; simp [rootGo, hryroot]))
          refine ⟨by rw [lookupAL_setAL_self], ?_, ?_, ?_⟩
          · have := rankOf_setRank (setAL uf2.parent ry rx) uf2 rx (kx + 1) rx
            rw [this, if_pos rfl, hkxval]
          · intro z hz
            have := rankOf_setRank (setAL uf2.parent ry rx) uf2 rx (kx + 1) z
            rw [this, if_neg hz, hrk12 z]
          · intro z
            rw [hroots3 z, hroots12 z, hroots12 ry, hrootry]

/-- The empty union-find state is well-formed. -/
theorem WF_empty : WF emptyUF := by
  refine ⟨fun x => Iff.rfl, ?_, ?_⟩
  · intro x p h
    simp [lookupAL, emptyUF] at h
  · intro x p h
    simp [lookupAL, emptyUF] at h

/-- `make_set` always preserves well-formedness. -/
theorem WF_make_set {uf : UnionFind} (hwf : WF uf) (x : Nat) : WF (uf.make_set x) := by
  by_cases hx : (lookupAL uf.parent x).isSome
  · rw [make_set_reg hx]
    exact hwf
  · exact (make_set_fresh_spec hwf (Option.not_isSome_iff_eq_none.mp hx)).1

/-- Claim C6: `find(x)` fails with the distinguished `KeyError` (embedded as
`none`) exactly when `x` was never registered, and on a registered `x` of a
well-formed forest it succeeds with the root of `x`'s set, re-pointing every
node visited on the chain of `x` directly to that root and touching nothing
else. -/
theorem claim_C6 (uf : UnionFind) (x : Nat) :
    (lookupAL uf.parent x = none → uf.find x = none) ∧
    (WF uf → (lookupAL uf.parent x).isSome →
      ∃ r uf2, uf.find x = some (r, uf2) ∧ rootOf uf x = some r ∧
        lookupAL uf.parent r = some r ∧
        (∀ z ∈ pathOf uf x, lookupAL uf2.parent z = some r) ∧
        (∀ z, z ∉ pathOf uf x → lookupAL uf2.parent z = lookupAL uf.parent z)) := by
  refine ⟨fun h => find_none h, ?_⟩
  intro hwf hx
  obtain ⟨r, uf2, hfind, hroot, _, _, hchar, _, _⟩ := find_spec hwf hx
  obtain ⟨r0, hr0, hroot0, _, _, _⟩ := rootOf_spec hwf hx
  have hre : r0 = r := by
    rw [hroot] at hr0
    exact (Option.some.inj hr0).symm
  rw [hre] at hroot0
  refine ⟨r, uf2, hfind, hroot, hroot0, ?_, ?_⟩
  · intro z hz
    rw [hchar z, if_pos hz]
  · intro z hz
    rw [hchar z, if_neg hz]

/-- Claim C6, witnessed: on the forest with elements 0 and 1, `find` of the
never-registered 7 reports the failure, and `find 1` succeeds with the root of
1 re-pointing the chain of 1 onto it. -/
theorem claim_C6_witness :
    ((emptyUF.make_set 0).make_set 1).find 7 = none ∧
    (∃ r uf2, ((emptyUF.make_set 0).make_set 1).find 1 = some (r, uf2) ∧
      rootOf ((emptyUF.make_set 0).make_set 1) 1 = some r ∧
      lookupAL ((emptyUF.make_set 0).make_set 1).parent r = some r ∧
      (∀ z ∈ pathOf ((emptyUF.make_set 0).make_set 1) 1,
        lookupAL uf2.parent z = some r) ∧
      (∀ z, z ∉ pathOf ((emptyUF.make_set 0).make_set 1) 1 →
        lookupAL uf2.parent z = lookupAL ((emptyUF.make_set 0).make_set 1).parent z)) :=
  ⟨(claim_C6 ((emptyUF.make_set 0).make_set 1) 7).1 (by decide),
   (claim_C6 ((emptyUF.make_set 0).make_set 1) 1).2
     (WF_make_set (WF_make_set WF_empty 0) 1) (by decide)⟩

/-- Claim C9: on a well-formed forest, following parent links from any
registered element reaches a self-parented root, and each of the three
operations (`make_set`, `find`, `union`) preserves well-formedness and never
decreases the rank of any node. -/
theorem claim_C9 (uf : UnionFind) (hwf : WF uf) :
    (∀ z, (lookupAL uf.parent z).isSome →
      ∃ r, rootOf uf z = some r ∧ lookupAL uf.parent r = some r) ∧
    (∀ x, WF (uf.make_set x) ∧ (∀ z, rankOf uf z ≤ rankOf (uf.make_set x) z)) ∧
    (∀ x r uf2, uf.find x = some (r, uf2) →
      WF uf2 ∧ (∀ z, rankOf uf z ≤ rankOf uf2 z)) ∧
    (∀ x y uf3, uf.union x y = some uf3 →
      WF uf3 ∧ (∀ z, rankOf uf z ≤ rankOf uf3 z)) := by
  refine ⟨?_, ?_, ?_, ?_⟩
  · intro z hz
    obtain ⟨r, hr, hroot, _, _, _⟩ := rootOf_spec hwf hz
    exact ⟨r, hr, hroot⟩
  · intro x
    by_cases hx : (lookupAL uf.parent x).isSome
    · rw [make_set_reg hx]
      exact ⟨hwf, fun z => le_refl _⟩
    · obtain ⟨hwf2, _, _, _, _, hrk⟩ :=
        make_set_fresh_spec hwf (Option.not_isSome_iff_eq_none.mp hx)
      exact ⟨hwf2, fun z => by rw [hrk z]⟩
  · intro x r uf2 hfind
    by_cases hx : (lookupAL uf.parent x).isSome
    · obtain ⟨r2, uf2b, hfind2, _, hrank2, _, _, hwf2, _⟩ := find_spec hwf hx
      rw [hfind] at hfind2
      cases Option.some.inj hfind2
      exact ⟨hwf2, fun z => by rw [rankOf, rankOf, hrank2]⟩
    · rw [find_none (Option.not_isSome_iff_eq_none.mp hx)] at hfind
      exact absurd hfind (by simp)
  · intro x y uf3 hunion
    have hx : (lookupAL uf.parent x).isSome := by
      by_contra hx
      rw [UnionFind.union, find_none (Option.not_isSome_iff_eq_none.mp hx)] at hunion
      exact absurd hunion (by simp)
    obtain ⟨rx, uf1, hfx, _, _, _, hchar1, hwf1, _⟩ := find_spec hwf hx
    have hy : (lookupAL uf.parent y).isSome := by
      by_contra hy
      have hy1 : lookupAL uf1.parent y = none := by
        have := find_keys hwf hx hchar1 y
        rw [← this] at hy
        exact Option.not_isSome_iff_eq_none.mp hy
      rw [UnionFind.union, hfx] at hunion
      simp only [find_none hy1] at hunion
      exact absurd hunion (by simp)
    obtain ⟨rx2, ry2, uf3b, _, _, hunion2, hwf3, _, hrkmono, _, _, _, _⟩ :=
      union_spec hwf hx hy
    rw [hunion] at hunion2
    cases Option.some.inj hunion2
    exact ⟨hwf3, hrkmono⟩

/-- Claim C9, witnessed on the three-element forest: element 0 reaches a
self-parented root and `make_set 5` keeps the forest well-formed. -/
theorem claim_C9_witness :
    (∃ r, rootOf (((emptyUF.make_set 0).make_set 1).make_set 2) 0 = some r ∧
      lookupAL (((emptyUF.make_set 0).make_set 1).make_set 2).parent r = some r) ∧
    WF ((((emptyUF.make_set 0).make_set 1).make_set 2).make_set 5) :=
  ⟨(claim_C9 (((emptyUF.make_set 0).make_set 1).make_set 2)
      (WF_make_set (WF_make_set (WF_make_set WF_empty 0) 1) 2)).1 0 (by decide),
   ((claim_C9 (((emptyUF.make_set 0).make_set 1).make_set 2)
      (WF_make_set (WF_make_set (WF_make_set WF_empty 0) 1) 2)).2.1 5).1⟩

/-- Claim C5: `union(x, y)` on registered elements of a well-formed forest.
With equal roots it changes neither the ranks nor any element's root (the only
state effect is the path compression of the two `find` calls).  Otherwise the
lower-rank root is attached under the higher-rank root with no rank change;
on a rank tie, `y`'s root is attached under `x`'s root and exactly the rank of
`x`'s root grows, by exactly one. -/
theorem claim_C5 (uf : UnionFind) (x y rx ry : Nat) (hwf : WF uf)
    (hrx : rootOf uf x = some rx) (hry : rootOf uf y = some ry) :
    (rx = ry → ∃ uf3, uf.union x y = some uf3 ∧ uf3.rank = uf.rank ∧
      (∀ z, rootOf uf3 z = rootOf uf z)) ∧
    (rx ≠ ry → rankOf uf rx < rankOf uf ry → ∃ uf3, uf.union x y = some uf3 ∧
      uf3.rank = uf.rank ∧ lookupAL uf3.parent rx = some ry) ∧
    (rx ≠ ry → rankOf uf ry < rankOf uf rx → ∃ uf3, uf.union x y = some uf3 ∧
      uf3.rank = uf.rank ∧ lookupAL uf3.parent ry = some rx) ∧
    (rx ≠ ry → rankOf uf rx = rankOf uf ry → ∃ uf3, uf.union x y = some uf3 ∧
      lookupAL uf3.parent ry = some rx ∧ rankOf uf3 rx = rankOf uf rx + 1 ∧
      (∀ z, z ≠ rx → rankOf uf3 z = rankOf uf z)) := by
  obtain ⟨rx2, ry2, uf3, hrx2, hry2, hunion, hwf3, hkeys, hrkmono, hsame, hlt1, hlt2, htie⟩ :=
    union_spec hwf (rootOf_isSome_reg hrx) (rootOf_isSome_reg hry)
  have hrxe : rx2 = rx := by
    rw [hrx] at hrx2
    exact (Option.some.inj hrx2).symm
  have hrye : ry2 = ry := by
    rw [hry] at hry2
    exact (Option.some.inj hry2).symm
  rw [hrxe] at hsame hlt1 hlt2 htie
  rw [hrye] at hsame hlt1 hlt2 htie
  refine ⟨?_, ?_, ?_, ?_⟩
  · intro he
    obtain ⟨h1, h2⟩ := hsame he
    exact ⟨uf3, hunion, h1, h2⟩
  · intro hne hr
    obtain ⟨h1, h2, _⟩ := hlt1 hne hr
    exact ⟨uf3, hunion, h1, h2⟩
  · intro hne hr
    obtain ⟨h1, h2, _⟩ := hlt2 hne hr
    exact ⟨uf3, hunion, h1, h2⟩
  · intro hne hr
    obtain ⟨h1, h2, h3, _⟩ := htie hne hr
    exact ⟨uf3, hunion, h1, h2, h3⟩

/-- Claim C5, witnessed at the rank-tie case: uniting the fresh roots 0 and 1
attaches 1 (the root of `y`) under 0 (the root of `x`) and bumps the rank of 0
by exactly one. -/
theorem claim_C5_witness :
    ∃ uf3, (((emptyUF.make_set 0).make_set 1).make_set 2).union 0 1 = some uf3 ∧
      lookupAL uf3.parent 1 = some 0 ∧
      rankOf uf3 0 = rankOf (((emptyUF.make_set 0).make_set 1).make_set 2) 0 + 1 ∧
      (∀ z, z ≠ 0 → rankOf uf3 z = rankOf (((emptyUF.make_set 0).make_set 1).make_set 2) z) :=
  (claim_C5 (((emptyUF.make_set 0).make_set 1).make_set 2) 0 1 0 1
    (WF_make_set (WF_make_set (WF_make_set WF_empty 0) 1) 2)
    (by decide) (by decide)).2.2.2 (by decide) (by decide)

/-- Equivalence closures of pointwise equivalent relations coincide. -/
theorem eqvGen_congr {α : Type} {R S : α → α → Prop} (h : ∀ s t, R s t ↔ S s t) {x y : α}
    (hxy : Relation.EqvGen R x y) : Relation.EqvGen S x y :=
  Relation.EqvGen.mono (fun s t hst => (h s t).mp hst) hxy

/-- Adding one generator pair `(a, b)` to a relation merges exactly the
classes of `a` and `b` in the equivalence closure. -/
theorem eqvGen_add_pair {α : Type} {R : α → α → Prop} {a b x y : α} :
    Relation.EqvGen (fun s t => R s t ∨ (s = a ∧ t = b)) x y ↔
      (Relation.EqvGen R x y ∨
       (Relation.EqvGen R x a ∧ Relation.EqvGen R b y) ∨
       (Relation.EqvGen R x b ∧ Relation.EqvGen R a y)) := by
  constructor
  · intro h
    induction h with
    | rel s t hst =>
      rcases hst with hst | ⟨hsa, htb⟩
      · exact Or.inl (Relation.EqvGen.rel s t hst)
      · subst hsa
        subst htb
        exact Or.inr (Or.inl ⟨Relation.EqvGen.refl s, Relation.EqvGen.refl t⟩)
    | refl s => exact Or.inl (Relation.EqvGen.refl s)
    | symm s t _ ih =>
      rcases ih with h1 | ⟨h1, h2⟩ | ⟨h1, h2⟩
      · exact Or.inl (Relation.EqvGen.symm s t h1)
      · exact Or.inr (Or.inr ⟨Relation.EqvGen.symm _ _ h2, Relation.EqvGen.symm _ _ h1⟩)
      · exact Or.inr (Or.inl ⟨Relation.EqvGen.symm _ _ h2, Relation.EqvGen.symm _ _ h1⟩)
    | trans s t u _ _ ih1 ih2 =>
      rcases ih1 with p1 | ⟨p1, p2⟩ | ⟨p1, p2⟩ <;> rcases ih2 with q1 | ⟨q1, q2⟩ | ⟨q1, q2⟩
      · exact Or.inl (Relation.EqvGen.trans _ _ _ p1 q1)
      · exact Or.inr (Or.inl ⟨Relation.EqvGen.trans _ _ _ p1 q1, q2⟩)
      · exact Or.inr (Or.inr ⟨Relation.EqvGen.trans _ _ _ p1 q1, q2⟩)
      · exact Or.inr (Or.inl ⟨p1, Relation.EqvGen.trans _ _ _ p2 q1⟩)
      · exact Or.inl (Relation.EqvGen.trans _ _ _
          (Relation.EqvGen.trans _ _ _ p1
            (Relation.EqvGen.symm _ _ (Relation.EqvGen.trans _ _ _ p2 q1))) q2)
      · exact Or.inl (Relation.EqvGen.trans _ _ _ p1 q2)
      · exact Or.inr (Or.inr ⟨p1, Relation.EqvGen.trans _ _ _ p2 q1⟩)
      · exact Or.inl (Relation.EqvGen.trans _ _ _ p1 q2)
      · exact Or.inl (Relation.EqvGen.trans _ _ _
          (Relation.EqvGen.trans _ _ _ p1
            (Relation.EqvGen.symm _ _ (Relation.EqvGen.trans _ _ _ p2 q1))) q2)
  · intro h
    have hmono : ∀ {u2 v2 : α}, Relation.EqvGen R u2 v2 →
        Relation.EqvGen (fun s t => R s t ∨ (s = a ∧ t = b)) u2 v2 :=
      fun h2 => Relation.EqvGen.mono (fun s t hst => Or.inl hst) h2
    have hab : Relation.EqvGen (fun s t => R s t ∨ (s = a ∧ t = b)) a b :=
      Relation.EqvGen.rel a b (Or.inr ⟨rfl, rfl⟩)
    rcases h with h1 | ⟨h1, h2⟩ | ⟨h1, h2⟩
    · exact hmono h1
    · exact Relation.EqvGen.trans _ _ _
        (Relation.EqvGen.trans _ _ _ (hmono h1) hab) (hmono h2)
    · exact Relation.EqvGen.trans _ _ _
        (Relation.EqvGen.trans _ _ _ (hmono h1) (Relation.EqvGen.symm _ _ hab)) (hmono h2)

/-- Two elements are related by an equivalence closure only when they are
equal or both touch some generator pair. -/
theorem eqvGen_support {α : Type} {R : α → α → Prop} {x y : α}
    (h : Relation.EqvGen R x y) :
    x = y ∨ ((∃ u v, R u v ∧ (u = x ∨ v = x)) ∧ (∃ u v, R u v ∧ (u = y ∨ v = y))) := by
  induction h with
  | rel s t hst => exact Or.inr ⟨⟨s, t, hst, Or.inl rfl⟩, ⟨s, t, hst, Or.inr rfl⟩⟩
  | refl s => exact Or.inl rfl
  | symm s t _ ih =>
    rcases ih with he | ⟨h1, h2⟩
    · exact Or.inl he.symm
    · exact Or.inr ⟨h2, h1⟩
  | trans s t u _ _ ih1 ih2 =>
    rcases ih1 with he1 | ⟨h1, h2⟩
    · rcases ih2 with he2 | ⟨h3, h4⟩
      · exact Or.inl (he1.trans he2)
      · exact Or.inr ⟨by rw [he1]; exact h3, h4⟩
    · rcases ih2 with he2 | ⟨h3, h4⟩
      · exact Or.inr ⟨h1, by rw [← he2]; exact h2⟩
      · exact Or.inr ⟨h1, h4⟩

/-- The united pairs of a concatenated history. -/
theorem opPairs_append (a b : List UFOp) : opPairs (a ++ b) = opPairs a ++ opPairs b := by
  induction a with
  | nil => rfl
  | cons op rest ih =>
    cases op with
    | mkset x => simpa [opPairs] using ih
    | unite x y => simp [opPairs, ih]

/-- Appending a `makeSet` does not change history connectivity. -/
theorem histConn_snoc_mkset (acc : List UFOp) (x u v : Nat) :
    histConn (acc ++ [UFOp.mkset x]) u v ↔ histConn acc u v := by
  have hpt : ∀ s t : Nat, ((s, t) ∈ opPairs (acc ++ [UFOp.mkset x])) ↔
      ((s, t) ∈ opPairs acc) := by
    intro s t
    rw [opPairs_append]
    simp [opPairs]
  exact ⟨fun h => eqvGen_congr hpt h, fun h => eqvGen_congr (fun s t => (hpt s t).symm) h⟩

/-- Appending a `union(a, b)` adds exactly the generator pair `(a, b)`. -/
theorem histConn_snoc_unite (acc : List UFOp) (a b u v : Nat) :
    histConn (acc ++ [UFOp.unite a b]) u v ↔
      Relation.EqvGen (fun s t => (s, t) ∈ opPairs acc ∨ (s = a ∧ t = b)) u v := by
  have hpt : ∀ s t : Nat, ((s, t) ∈ opPairs (acc ++ [UFOp.unite a b])) ↔
      ((s, t) ∈ opPairs acc ∨ (s = a ∧ t = b)) := by
    intro s t
    rw [opPairs_append]
    simp [opPairs, Prod.ext_iff]
  exact ⟨fun h => eqvGen_congr hpt h, fun h => eqvGen_congr (fun s t => (hpt s t).symm) h⟩

/-- A successful raw `find` starts from a registered element. -/
theorem find_some_reg {uf : UnionFind} {x r : Nat} {uf2 : UnionFind}
    (h : uf.find x = some (r, uf2)) : (lookupAL uf.parent x).isSome := by
  cases hp : lookupAL uf.parent x with
  | some p => rfl
  | none =>
    rw [UnionFind.find] at h
    simp [findGo, hp] at h

/-- The root reported by a root lookup is itself self-parented. -/
theorem rootOf_root_reg {uf : UnionFind} (hwf : WF uf) {a r : Nat}
    (h : rootOf uf a = some r) : lookupAL uf.parent r = some r := by
  obtain ⟨r2, hr2, hroot2, _, _, _⟩ := rootOf_spec hwf (rootOf_isSome_reg h)
  rw [h] at hr2
  cases hr2
  exact hroot2

/-- A successful `union` starts from two registered elements. -/
theorem union_some_reg {uf : UnionFind} (hwf : WF uf) {x y : Nat} {uf3 : UnionFind}
    (h : uf.union x y = some uf3) :
    (lookupAL uf.parent x).isSome ∧ (lookupAL uf.parent y).isSome := by
  cases hfx : uf.find x with
  | none =>
    rw [UnionFind.union, hfx] at h
    simp at h
  | some p =>
    obtain ⟨rx, uf1⟩ := p
    have hx : (lookupAL uf.parent x).isSome := find_some_reg hfx
    cases hfy : uf1.find y with
    | none =>
      rw [UnionFind.union, hfx] at h
      simp [hfy] at h
    | some q =>
      obtain ⟨ry, uf2b⟩ := q
      have hy1 : (lookupAL uf1.parent y).isSome := find_some_reg hfy
      obtain ⟨r2, u2, hfx2, hroot2, hrank2, hlen2, hchar2, hwf2, hroots2⟩ := find_spec hwf hx
      have heq : (rx, uf1) = (r2, u2) := Option.some.inj (hfx.symm.trans hfx2)
      cases heq
      exact ⟨hx, (find_keys hwf hx hchar2 y).mp hy1⟩

/-- Effect on shared roots of substituting the root `r1` by `r2`. -/
theorem rootSub_iff {uf uf3 : UnionFind} {r1 r2 a b ra rb : Nat}
    (hne : r1 ≠ r2)
    (hsub : ∀ z, rootOf uf3 z = (if rootOf uf z = some r1 then some r2 else rootOf uf z))
    (hra : rootOf uf a = some ra) (hrb : rootOf uf b = some rb) :
    (rootOf uf3 a = rootOf uf3 b ↔
      (rootOf uf a = rootOf uf b ∨
       (rootOf uf a = some r1 ∧ rootOf uf b = some r2) ∨
       (rootOf uf a = some r2 ∧ rootOf uf b = some r1))) := by
  rw [hsub a, hsub b, hra, hrb]
  by_cases h1 : ra = r1 <;> by_cases h2 : rb = r1 <;>
    simp [h1, h2, hne, Ne.symm hne, Option.some.injEq] <;> omega

/-- Transport of the partition-matches-history invariant across one root
attachment: after redirecting class `r1` onto class `r2` (`r1`, `r2` being the
roots of the united elements, in either orientation), registered elements
share a root exactly when the history extended by the union connects them. -/
theorem conn_step {uf uf3 : UnionFind} (hwf : WF uf) {acc : List UFOp} {x y r1 r2 : Nat}
    (hconn : ∀ a b, (lookupAL uf.parent a).isSome → (lookupAL uf.parent b).isSome →
      (rootOf uf a = rootOf uf b ↔ histConn acc a b))
    (hor : (rootOf uf x = some r1 ∧ rootOf uf y = some r2) ∨
           (rootOf uf x = some r2 ∧ rootOf uf y = some r1))
    (hne : r1 ≠ r2)
    (hsub : ∀ z, rootOf uf3 z = (if rootOf uf z = some r1 then some r2 else rootOf uf z))
    (hkeys3 : ∀ z, (lookupAL uf3.parent z).isSome ↔ (lookupAL uf.parent z).isSome) :
    ∀ a b, (lookupAL uf3.parent a).isSome → (lookupAL uf3.parent b).isSome →
      (rootOf uf3 a = rootOf uf3 b ↔ histConn (acc ++ [UFOp.unite x y]) a b) := by
  intro a b ha hb
  have ha2 := (hkeys3 a).mp ha
  have hb2 := (hkeys3 b).mp hb
  have hx2 : (lookupAL uf.parent x).isSome := by
    rcases hor with ⟨h1, _⟩ | ⟨h1, _⟩ <;> exact rootOf_isSome_reg h1
  have hy2 : (lookupAL uf.parent y).isSome := by
    rcases hor with ⟨_, h1⟩ | ⟨_, h1⟩ <;> exact rootOf_isSome_reg h1
  obtain ⟨ra, hra, _, _, _, _⟩ := rootOf_spec hwf ha2
  obtain ⟨rb, hrb, _, _, _, _⟩ := rootOf_spec hwf hb2
  rw [histConn_snoc_unite, eqvGen_add_pair]
  rw [rootSub_iff hne hsub hra hrb]
  have e1 := hconn a b ha2 hb2
  have eax := hconn a x ha2 hx2
  have eay := hconn a y ha2 hy2
  have eyb := hconn y b hy2 hb2
  have exb := hconn x b hx2 hb2
  rcases hor with ⟨hx1, hy1⟩ | ⟨hx1, hy1⟩
  · constructor
    · rintro (h | ⟨h1, h2⟩ | ⟨h1, h2⟩)
      · exact Or.inl (e1.mp h)
      · exact Or.inr (Or.inl ⟨eax.mp (h1.trans hx1.symm), eyb.mp (hy1.trans h2.symm)⟩)
      · exact Or.inr (Or.inr ⟨eay.mp (h1.trans hy1.symm), exb.mp (hx1.trans h2.symm)⟩)
    · rintro (h | ⟨h1, h2⟩ | ⟨h1, h2⟩)
      · exact Or.inl (e1.mpr h)
      · exact Or.inr (Or.inl ⟨(eax.mpr h1).trans hx1, (eyb.mpr h2).symm.trans hy1⟩)
      · exact Or.inr (Or.inr ⟨(eay.mpr h1).trans hy1, (exb.mpr h2).symm.trans hx1⟩)
  · constructor
    · rintro (h | ⟨h1, h2⟩ | ⟨h1, h2⟩)
      · exact Or.inl (e1.mp h)
      · exact Or.inr (Or.inr ⟨eay.mp (h1.trans hy1.symm), exb.mp (hx1.trans h2.symm)⟩)
      · exact Or.inr (Or.inl ⟨eax.mp (h1.trans hx1.symm), eyb.mp (hy1.trans h2.symm)⟩)
    · rintro (h | ⟨h1, h2⟩ | ⟨h1, h2⟩)
      · exact Or.inl (e1.mpr h)
      · exact Or.inr (Or.inr ⟨(eax.mpr h1).trans hx1, (eyb.mpr h2).symm.trans hy1⟩)
      · exact Or.inr (Or.inl ⟨(eay.mpr h1).trans hy1, (exb.mpr h2).symm.trans hx1⟩)

/-- Running a history of operations preserves well-formedness and the
partition-matches-history invariant: two registered elements share a root
exactly when the accumulated history connects them, and history connectivity
never relates distinct elements through an unregistered one. -/
theorem runOps_inv (ops : List UFOp) :
    ∀ (acc : List UFOp) (uf uf2 : UnionFind),
      WF uf →
      (∀ a b, (lookupAL uf.parent a).isSome → (lookupAL uf.parent b).isSome →
        (rootOf uf a = rootOf uf b ↔ histConn acc a b)) →
      (∀ a b, histConn acc a b → a ≠ b → (lookupAL uf.parent a).isSome) →
      runOps ops uf = some uf2 →
      WF uf2 ∧
      (∀ a b, (lookupAL uf2.parent a).isSome → (lookupAL uf2.parent b).isSome →
        (rootOf uf2 a = rootOf uf2 b ↔ histConn (acc ++ ops) a b)) ∧
      (∀ a b, histConn (acc ++ ops) a b → a ≠ b → (lookupAL uf2.parent a).isSome) := by
  induction ops with
  | nil =>
    intro acc uf uf2 hwf hconn hiso hrun
    rw [runOps] at hrun
    obtain rfl : uf = uf2 := Option.some.inj hrun
    rw [List.append_nil]
    exact ⟨hwf, hconn, hiso⟩
  | cons op rest ih =>
    intro acc uf uf2 hwf hconn hiso hrun
    cases op with
    | mkset x =>
      simp only [runOps] at hrun
      by_cases hx : (lookupAL uf.parent x).isSome
      · rw [make_set_reg hx] at hrun
        have hconn2 : ∀ a b, (lookupAL uf.parent a).isSome →
            (lookupAL uf.parent b).isSome →
            (rootOf uf a = rootOf uf b ↔ histConn (acc ++ [UFOp.mkset x]) a b) := by
          intro a b ha hb
          rw [histConn_snoc_mkset]
          exact hconn a b ha hb
        have hiso2 : ∀ a b, histConn (acc ++ [UFOp.mkset x]) a b → a ≠ b →
            (lookupAL uf.parent a).isSome := by
          intro a b hc hne
          rw [histConn_snoc_mkset] at hc
          exact hiso a b hc hne
        have hres := ih (acc ++ [UFOp.mkset x]) uf uf2 hwf hconn2 hiso2 hrun
        simp only [List.append_assoc, List.cons_append, List.nil_append] at hres
        exact hres
      · have hxn : lookupAL uf.parent x = none := Option.not_isSome_iff_eq_none.mp hx
        obtain ⟨hwf2, hselfp, hkeys, hrootx, hroots, hranks⟩ := make_set_fresh_spec hwf hxn
        have hconn2 : ∀ a b, (lookupAL (uf.make_set x).parent a).isSome →
            (lookupAL (uf.make_set x).parent b).isSome →
            (rootOf (uf.make_set x) a = rootOf (uf.make_set x) b ↔
              histConn (acc ++ [UFOp.mkset x]) a b) := by
          intro a b ha hb
          rw [histConn_snoc_mkset]
          rcases (hkeys a).mp ha with hao | hax
          · rcases (hkeys b).mp hb with hbo | hbx
            · rw [hroots a hao, hroots b hbo]
              exact hconn a b hao hbo
            · rw [hbx]
              rw [hroots a hao, hrootx]
              constructor
              · intro he
                exfalso
                have hreg := rootOf_root_reg hwf he
                rw [hxn] at hreg
                exact Option.noConfusion hreg
              · intro hc
                exfalso
                have hne2 : a ≠ x := by
                  rintro rfl
                  rw [hxn] at hao
                  simp at hao
                have hreg := hiso x a (Relation.EqvGen.symm _ _ hc) (Ne.symm hne2)
                rw [hxn] at hreg
                simp at hreg
          · rw [hax]
            rcases (hkeys b).mp hb with hbo | hbx
            · rw [hrootx, hroots b hbo]
              constructor
              · intro he
                exfalso
                have hreg := rootOf_root_reg hwf he.symm
                rw [hxn] at hreg
                exact Option.noConfusion hreg
              · intro hc
                exfalso
                have hne2 : x ≠ b := by
                  rintro rfl
                  rw [hxn] at hbo
                  simp at hbo
                have hreg := hiso x b hc hne2
                rw [hxn] at hreg
                simp at hreg
            · rw [hbx]
              exact ⟨fun _ => Relation.EqvGen.refl x, fun _ => rfl⟩
        have hiso2 : ∀ a b, histConn (acc ++ [UFOp.mkset x]) a b → a ≠ b →
            (lookupAL (uf.make_set x).parent a).isSome := by
          intro a b hc hne
          rw [histConn_snoc_mkset] at hc
          exact (hkeys a).mpr (Or.inl (hiso a b hc hne))
        have hres := ih (acc ++ [UFOp.mkset x]) (uf.make_set x) uf2 hwf2 hconn2 hiso2 hrun
        simp only [List.append_assoc, List.cons_append, List.nil_append] at hres
        exact hres
    | unite x y =>
      cases hu : uf.union x y with
      | none =>
        simp only [runOps, hu] at hrun
        exact Option.noConfusion hrun
      | some uf3 =>
        simp only [runOps, hu] at hrun
        obtain ⟨hx, hy⟩ := union_some_reg hwf hu
        obtain ⟨rx, ry, uf3b, hrx, hry, hu2, hwf3, hkeys3, _, hEq, hLt, hGt, hTie⟩ :=
          union_spec hwf hx hy
        obtain rfl : uf3 = uf3b := Option.some.inj (hu.symm.trans hu2)
        have hiso3 : ∀ a b, histConn (acc ++ [UFOp.unite x y]) a b → a ≠ b →
            (lookupAL uf3.parent a).isSome := by
          intro a b hc hne
          rw [hkeys3 a]
          rw [histConn_snoc_unite, eqvGen_add_pair] at hc
          rcases hc with h | ⟨h1, h2⟩ | ⟨h1, h2⟩
          · exact hiso a b h hne
          · by_cases hax : a = x
            · subst hax
              exact hx
            · exact hiso a x h1 hax
          · by_cases hay : a = y
            · subst hay
              exact hy
            · exact hiso a y h1 hay
        by_cases hrr : rx = ry
        · obtain ⟨_, hroots3⟩ := hEq hrr
          have hxyconn : histConn acc x y := by
            refine (hconn x y hx hy).mp ?_
            rw [hrx, hry, hrr]
          have hconn3 : ∀ a b, (lookupAL uf3.parent a).isSome →
              (lookupAL uf3.parent b).isSome →
              (rootOf uf3 a = rootOf uf3 b ↔ histConn (acc ++ [UFOp.unite x y]) a b) := by
            intro a b ha hb
            rw [histConn_snoc_unite, eqvGen_add_pair]
            rw [hroots3 a, hroots3 b]
            rw [hconn a b ((hkeys3 a).mp ha) ((hkeys3 b).mp hb)]
            constructor
            · exact fun h => Or.inl h
            · rintro (h | ⟨h1, h2⟩ | ⟨h1, h2⟩)
              · exact h
              · exact Relation.EqvGen.trans _ _ _
                  (Relation.EqvGen.trans _ _ _ h1 hxyconn) h2
              · exact Relation.EqvGen.trans _ _ _
                  (Relation.EqvGen.trans _ _ _ h1 (Relation.EqvGen.symm _ _ hxyconn)) h2
          have hres := ih (acc ++ [UFOp.unite x y]) uf3 uf2 hwf3 hconn3 hiso3 hrun
          simp only [List.append_assoc, List.cons_append, List.nil_append] at hres
          exact hres
        · rcases Nat.lt_trichotomy (rankOf uf rx) (rankOf uf ry) with hrk | hrk | hrk
          · obtain ⟨_, _, hsub⟩ := hLt hrr hrk
            have hconn3 := conn_step hwf hconn (Or.inl ⟨hrx, hry⟩) hrr hsub hkeys3
            have hres := ih (acc ++ [UFOp.unite x y]) uf3 uf2 hwf3 hconn3 hiso3 hrun
            simp only [List.append_assoc, List.cons_append, List.nil_append] at hres
            exact hres
          · obtain ⟨_, _, _, hsub⟩ := hTie hrr hrk
            have hconn3 := conn_step hwf hconn (Or.inr ⟨hrx, hry⟩) (Ne.symm hrr) hsub hkeys3
            have hres := ih (acc ++ [UFOp.unite x y]) uf3 uf2 hwf3 hconn3 hiso3 hrun
            simp only [List.append_assoc, List.cons_append, List.nil_append] at hres
            exact hres
          · obtain ⟨_, _, hsub⟩ := hGt hrr hrk
            have hconn3 := conn_step hwf hconn (Or.inr ⟨hrx, hry⟩) (Ne.symm hrr) hsub hkeys3
            have hres := ih (acc ++ [UFOp.unite x y]) uf3 uf2 hwf3 hconn3 hiso3 hrun
            simp only [List.append_assoc, List.cons_append, List.nil_append] at hres
            exact hres

/-- C3: for every interleaved history of `make_set`/`union` operations that
runs without a `KeyError` (starting from the empty structure), two registered
elements report equal `find` results — threading the path-compressed state of
the first call into the second — exactly when the transitive (equivalence)
closure of the union history connects them; and in the concrete scenario
`makeSet(0..4); union(0,1); union(2,3)` the program reports
`find(0)==find(1)`, `find(2)==find(3)` and `find(0)!=find(2)`. -/
theorem claim_C3 (ops : List UFOp) (uf2 : UnionFind)
    (hrun : runOps ops emptyUF = some uf2) :
    (∀ x y, (lookupAL uf2.parent x).isSome → (lookupAL uf2.parent y).isSome →
      (findRoot uf2 x = findRoot (findState uf2 x) y ↔ histConn ops x y)) ∧
    (∃ uf5 : UnionFind, runOps opsC3 emptyUF = some uf5 ∧
      findRoot uf5 0 = findRoot (findState uf5 0) 1 ∧
      findRoot (findState (findState uf5 0) 1) 2 =
        findRoot (findState (findState (findState uf5 0) 1) 2) 3 ∧
      findRoot uf5 0 ≠ findRoot uf5 2) := by
  constructor
  · have hbase_conn : ∀ a b, (lookupAL emptyUF.parent a).isSome →
        (lookupAL emptyUF.parent b).isSome →
        (rootOf emptyUF a = rootOf emptyUF b ↔ histConn [] a b) := by
      intro a b ha _
      exfalso
      simp [emptyUF, lookupAL] at ha
    have hbase_iso : ∀ a b, histConn [] a b → a ≠ b →
        (lookupAL emptyUF.parent a).isSome := by
      intro a b hc hne
      exfalso
      rcases eqvGen_support hc with he | ⟨⟨u, v, huv, _⟩, _⟩
      · exact hne he
      · simp [opPairs] at huv
    obtain ⟨hwf2, hconn2, _⟩ :=
      runOps_inv ops [] emptyUF uf2 WF_empty hbase_conn hbase_iso hrun
    simp only [List.nil_append] at hconn2
    intro x y hx hy
    obtain ⟨r, ufa, hfind, hrx, _, _, hchar, hwfa, hroots⟩ := find_spec hwf2 hx
    have hkeysa := find_keys hwf2 hx hchar
    obtain ⟨ry, ufb, hfindy, hryA, _, _, _, _, _⟩ := find_spec hwfa ((hkeysa y).mpr hy)
    have hry : rootOf uf2 y = some ry := (hroots y).symm.trans hryA
    have hfr1 : findRoot uf2 x = some r := by
      rw [findRoot, hfind]
      rfl
    have hstate : findState uf2 x = ufa := by
      rw [findState, hfind]
      rfl
    have hfr2 : findRoot (findState uf2 x) y = some ry := by
      rw [hstate, findRoot, hfindy]
      rfl
    rw [hfr1, hfr2, ← hrx, ← hry]
    exact hconn2 x y hx hy
  · exact ⟨(runOps opsC3 emptyUF).getD emptyUF, by decide, by decide, by decide, by decide⟩

/-- Witness for C3: the concrete history of the claim runs successfully, and
the theorem's equivalence is obtained at the pair `(0, 1)` on the resulting
state. -/
theorem claim_C3_witness :
    runOps opsC3 emptyUF = some ((runOps opsC3 emptyUF).getD emptyUF) ∧
    (findRoot ((runOps opsC3 emptyUF).getD emptyUF) 0 =
        findRoot (findState ((runOps opsC3 emptyUF).getD emptyUF) 0) 1 ↔
      histConn opsC3 0 1) :=
  ⟨by decide, (claim_C3 opsC3 ((runOps opsC3 emptyUF).getD emptyUF) (by decide)).1 0 1
    (by decide) (by decide)⟩

/-- Membership in an adjacency list names a graph entry. -/
theorem adjOf_mem_graph {g : List (String × List String)} {u c : String}
    (h : c ∈ adjOf g u) : (u, adjOf g u) ∈ g := by
  cases hl : lookupAL g u with
  | none =>
    rw [adjOf, hl] at h
    simp at h
  | some l =>
    have he : adjOf g u = l := by rw [adjOf, hl]; rfl
    rw [he]
    exact lookupAL_mem hl

/-- With duplicate-free keys, every entry is what its key looks up. -/
theorem lookupAL_of_mem_nodup {α β : Type} [DecidableEq α] {g : List (α × β)}
    (hg : (g.map Prod.fst).Nodup) {p : α × β} (hp : p ∈ g) :
    lookupAL g p.1 = some p.2 := by
  induction g with
  | nil => simp at hp
  | cons q rest ih =>
    rw [List.map_cons, List.nodup_cons] at hg
    rcases List.mem_cons.mp hp with he | hm
    · subst he
      simp [lookupAL]
    · have hq : ¬ q.1 = p.1 := fun he2 => hg.1 (he2 ▸ List.mem_map_of_mem Prod.fst hm)
      simp only [lookupAL, hq, if_neg, not_false_iff]
      exact ih hg.2 hm

/-- `decr` over an empty processed list. -/
theorem decr_nil (g : List (String × List String)) (m : String) : decr g [] m = 0 := rfl

/-- `decr` unfolds on the head of the processed list. -/
theorem decr_cons (g : List (String × List String)) (u : String) (R : List String)
    (m : String) : decr g (u :: R) m = ((adjOf g u).count m : Int) + decr g R m := by
  simp [decr]

/-- `decr` gains the newly processed node's contribution. -/
theorem decr_append (g : List (String × List String)) (R : List String) (u m : String) :
    decr g (R ++ [u]) m = decr g R m + ((adjOf g u).count m : Int) := by
  simp [decr]

/-- `decr` over the empty graph. -/
theorem decr_graph_nil (R : List String) (m : String) : decr [] R m = 0 := by
  induction R with
  | nil => rfl
  | cons u R ih => simp [decr_cons, ih, adjOf, lookupAL]

/-- `decr` unfolds on a graph entry whose key does not recur. -/
theorem decr_graph_cons (g : List (String × List String)) (p : String × List String)
    (hp : lookupAL g p.1 = none) (m : String) :
    ∀ R : List String, R.Nodup →
      decr (p :: g) R m =
        (if p.1 ∈ R then (p.2.count m : Int) else 0) + decr g R m := by
  intro R
  induction R with
  | nil =>
    intro _
    simp [decr_nil]
  | cons u R ih =>
    intro hR
    rw [List.nodup_cons] at hR
    rw [decr_cons, decr_cons, ih hR.2]
    by_cases hpu : p.1 = u
    · subst hpu
      have h1 : adjOf (p :: g) p.1 = p.2 := by simp [adjOf, lookupAL]
      have h2 : adjOf g p.1 = [] := by simp [adjOf, hp]
      rw [h1, h2, if_neg hR.1, if_pos (List.mem_cons_self _ _)]
      simp
    · have h1 : adjOf (p :: g) u = adjOf g u := by simp [adjOf, lookupAL, hpu]
      rw [h1]
      by_cases hm : p.1 ∈ R
      · rw [if_pos hm, if_pos (List.mem_cons_of_mem u hm)]
        ring
      · rw [if_neg hm, if_neg (by simp [List.mem_cons, hpu, hm])]
        ring

/-- `inDegree` unfolds on the head entry. -/
theorem inDegree_cons (p : String × List String) (g : List (String × List String))
    (m : String) : inDegree (p :: g) m = (p.2.count m : Int) + inDegree g m := by
  simp [inDegree]

/-- Processed nodes never account for more than the static in-degree. -/
theorem decr_le_inDegree (g : List (String × List String)) :
    (g.map Prod.fst).Nodup → ∀ R : List String, R.Nodup → ∀ m,
      decr g R m ≤ inDegree g m := by
  induction g with
  | nil =>
    intro _ R _ m
    rw [decr_graph_nil]
    simp [inDegree]
  | cons p g ih =>
    intro hg R hR m
    rw [List.map_cons, List.nodup_cons] at hg
    have hp : lookupAL g p.1 = none := by
      cases hl : lookupAL g p.1 with
      | none => rfl
      | some l => exact absurd ((lookupAL_isSome_iff g p.1).mp (by rw [hl]; rfl)) hg.1
    rw [decr_graph_cons g p hp m R hR, inDegree_cons]
    have h2 := ih hg.2 R hR m
    have h3 : (0:Int) ≤ (p.2.count m : Int) := Int.ofNat_nonneg _
    by_cases hm : p.1 ∈ R
    · rw [if_pos hm]
      omega
    · rw [if_neg hm]
      omega

/-- The static in-degree splits into the processed contribution and the
contributions of unprocessed entries. -/
theorem inDegree_split (g : List (String × List String)) :
    (g.map Prod.fst).Nodup → ∀ R : List String, R.Nodup → ∀ m,
      inDegree g m = decr g R m +
        ((g.filter (fun p => ¬ p.1 ∈ R)).map (fun p => (p.2.count m : Int))).sum := by
  induction g with
  | nil =>
    intro _ R _ m
    simp [decr_graph_nil, inDegree]
  | cons p g ih =>
    intro hg R hR m
    rw [List.map_cons, List.nodup_cons] at hg
    have hp : lookupAL g p.1 = none := by
      cases hl : lookupAL g p.1 with
      | none => rfl
      | some l => exact absurd ((lookupAL_isSome_iff g p.1).mp (by rw [hl]; rfl)) hg.1
    rw [inDegree_cons, decr_graph_cons g p hp m R hR, ih hg.2 R hR m]
    by_cases hm : p.1 ∈ R
    · rw [if_pos hm, List.filter_cons_of_neg (by simp [hm])]
      ring
    · rw [if_neg hm, List.filter_cons_of_pos (by simp [hm])]
      simp only [List.map_cons, List.sum_cons]
      ring

/-- A node whose processed in-degree falls short of its static in-degree has
an unprocessed in-neighbor. -/
theorem residual_edge {g : List (String × List String)} (hg : (g.map Prod.fst).Nodup)
    {R : List String} (hR : R.Nodup) {m : String}
    (h : decr g R m < inDegree g m) : ∃ u, u ∉ R ∧ m ∈ adjOf g u := by
  rw [inDegree_split g hg R hR m] at h
  by_contra hno
  push_neg at hno
  have hz : ∀ x ∈ (g.filter (fun p => ¬ p.1 ∈ R)).map (fun p => (p.2.count m : Int)),
      x = 0 := by
    intro x hx
    obtain ⟨p, hpf, hpx⟩ := List.mem_map.mp hx
    obtain ⟨hpg, hpR⟩ := List.mem_filter.mp hpf
    have hpR2 : p.1 ∉ R := by simpa using hpR
    have hc : m ∉ p.2 := by
      intro hm
      have hadj : m ∈ adjOf g p.1 := by
        rw [adjOf, lookupAL_of_mem_nodup hg hpg]
        exact hm
      exact hno p.1 hpR2 hadj
    rw [← hpx]
    simp [List.count_eq_zero.mpr hc]
  rw [List.sum_eq_zero hz] at h
  omega

/-- An unprocessed in-neighbor keeps the processed in-degree strictly short. -/
theorem edge_residual {g : List (String × List String)} (hg : (g.map Prod.fst).Nodup)
    {R : List String} (hR : R.Nodup) {u m : String}
    (hu : u ∉ R) (hm : m ∈ adjOf g u) : decr g R m < inDegree g m := by
  rw [inDegree_split g hg R hR m]
  have hmem := adjOf_mem_graph hm
  have hpos : (0:Int) < ((adjOf g u).count m : Int) := by
    exact_mod_cast List.count_pos_iff.mpr hm
  have hin : (u, adjOf g u) ∈ g.filter (fun p => ¬ p.1 ∈ R) :=
    List.mem_filter.mpr ⟨hmem, by simp [hu]⟩
  have hx : ((adjOf g u).count m : Int) ∈
      (g.filter (fun p => ¬ p.1 ∈ R)).map (fun p => (p.2.count m : Int)) :=
    List.mem_map_of_mem _ hin
  have hnn : ∀ x ∈ (g.filter (fun p => ¬ p.1 ∈ R)).map (fun p => (p.2.count m : Int)),
      (0:Int) ≤ x := by
    intro x hx2
    obtain ⟨p, _, hpx⟩ := List.mem_map.mp hx2
    rw [← hpx]
    exact Int.ofNat_nonneg _
  have hle := List.single_le_sum hnn _ hx
  omega

/-- Full characterization of the neighbor loop of `topological_sort`: each
occurrence of a neighbor decrements its in-degree entry, and a node is
enqueued — exactly once, behind the existing queue — exactly when its entry
steps from positive to zero during the loop, i.e. when its incoming entry is
positive and at most its occurrence count among the neighbors. -/
theorem processNeighbors_spec :
    ∀ (l : List String) (indeg : String → Int) (queue : List String),
      (processNeighbors l indeg queue).1 = (fun m => indeg m - (l.count m : Int)) ∧
      ∃ new, (processNeighbors l indeg queue).2 = queue ++ new ∧ new.Nodup ∧
        (∀ m, m ∈ new ↔ (0 < indeg m ∧ indeg m ≤ (l.count m : Int))) := by
  intro l
  induction l with
  | nil =>
    intro indeg queue
    refine ⟨by funext m; simp [processNeighbors], [], by simp [processNeighbors], by simp, ?_⟩
    intro m
    simp only [List.not_mem_nil, false_iff, List.count_nil, Nat.cast_zero]
    omega
  | cons n rest ih =>
    intro indeg queue
    have hstep : processNeighbors (n :: rest) indeg queue =
        processNeighbors rest (fun x => if x = n then indeg n - 1 else indeg x)
          (if indeg n - 1 = 0 then queue ++ [n] else queue) := rfl
    obtain ⟨h1, new1, h2, h3, h4⟩ :=
      ih (fun x => if x = n then indeg n - 1 else indeg x)
        (if indeg n - 1 = 0 then queue ++ [n] else queue)
    rw [hstep]
    constructor
    · rw [h1]
      funext m
      by_cases hm : m = n
      · subst hm
        simp only [if_pos rfl, List.count_cons_self]
        push_cast
        ring
      · simp only [if_neg hm, List.count_cons_of_ne hm]
    · by_cases hd0 : indeg n - 1 = 0
      · refine ⟨n :: new1, ?_, ?_, ?_⟩
        · rw [h2, if_pos hd0]
          simp
        · rw [List.nodup_cons]
          refine ⟨fun hn => ?_, h3⟩
          have hc := (h4 n).mp hn
          rw [if_pos rfl] at hc
          omega
        · intro m
          by_cases hm : m = n
          · subst hm
            simp only [List.mem_cons, true_or, true_iff, List.count_cons_self]
            push_cast
            omega
          · rw [List.mem_cons]
            simp only [hm, false_or]
            rw [h4 m, if_neg hm, List.count_cons_of_ne hm]
      · refine ⟨new1, ?_, h3, ?_⟩
        · rw [h2, if_neg hd0]
        · intro m
          by_cases hm : m = n
          · subst hm
            rw [h4 m, if_pos rfl, List.count_cons_self]
            push_cast
            omega
          · rw [h4 m, if_neg hm, List.count_cons_of_ne hm]

/-- An entry of a written dict is the written binding or an old entry. -/
theorem mem_setAL {α β : Type} [DecidableEq α] {m : List (α × β)} {k : α} {v : β}
    {q : α × β} (h : q ∈ setAL m k v) : (q.1 = k ∧ q.2 = v) ∨ q ∈ m := by
  induction m with
  | nil =>
    simp only [setAL, List.mem_singleton] at h
    exact Or.inl (by rw [h]; exact ⟨rfl, rfl⟩)
  | cons p rest ih =>
    obtain ⟨a, b⟩ := p
    by_cases hak : a = k
    · simp only [setAL, if_pos hak] at h
      rcases List.mem_cons.mp h with he | hm
      · exact Or.inl (by rw [he, hak]; exact ⟨rfl, rfl⟩)
      · exact Or.inr (List.mem_cons_of_mem _ hm)
    · simp only [setAL, if_neg hak] at h
      rcases List.mem_cons.mp h with he | hm
      · exact Or.inr (by rw [he]; exact List.mem_cons_self _ _)
      · rcases ih hm with h1 | h2
        · exact Or.inl h1
        · exact Or.inr (List.mem_cons_of_mem _ h2)

/-- Old functions survive `addFn`. -/
theorem mem_addFn {fs : List String} {f x : String} (h : x ∈ fs) : x ∈ addFn fs f := by
  rw [addFn]
  by_cases hf : f ∈ fs
  · rw [if_pos hf]
    exact h
  · rw [if_neg hf]
    exact List.mem_append_left _ h

/-- The added function is known after `addFn`. -/
theorem self_mem_addFn (fs : List String) (f : String) : f ∈ addFn fs f := by
  rw [addFn]
  by_cases hf : f ∈ fs
  · rw [if_pos hf]
    exact hf
  · rw [if_neg hf]
    exact List.mem_append_right _ (by simp)

/-- `addFn` keeps the function list duplicate-free. -/
theorem addFn_nodup {fs : List String} (h : fs.Nodup) (f : String) : (addFn fs f).Nodup := by
  rw [addFn]
  by_cases hf : f ∈ fs
  · rw [if_pos hf]
    exact h
  · rw [if_neg hf]
    refine List.nodup_append.mpr ⟨h, by simp, ?_⟩
    intro a ha hb
    rw [List.mem_singleton] at hb
    exact hf (hb ▸ ha)

/-- The function set of a built state is duplicate-free: the Python `set`
holds each name once. -/
theorem built_fns_nodup {b : CallGraphBuilder} (hb : Built b) : b.functions.Nodup := by
  induction hb with
  | empty => simp [emptyBuilder]
  | step caller callee _ ih =>
    exact addFn_nodup (addFn_nodup ih caller) callee

/-- The adjacency dict of a built state has duplicate-free keys. -/
theorem built_keys_nodup {b : CallGraphBuilder} (hb : Built b) :
    (b.graph.map Prod.fst).Nodup := by
  induction hb with
  | empty => simp [emptyBuilder]
  | step caller callee _ ih =>
    show ((appendEdge _ caller callee).map Prod.fst).Nodup
    rw [appendEdge]
    cases hl : lookupAL _ caller with
    | some l =>
      rw [map_fst_setAL _ _ _ (by rw [hl]; rfl)]
      exact ih
    | none =>
      rw [List.map_append]
      refine List.nodup_append.mpr ⟨ih, by simp, ?_⟩
      intro a ha hb2
      simp only [List.map_cons, List.map_nil, List.mem_singleton] at hb2
      subst hb2
      have := (lookupAL_isSome_iff _ a).mpr ha
      rw [hl] at this
      simp at this

/-- Every edge of a built state runs between known functions: `add_call`
registers both endpoints. -/
theorem built_closed {b : CallGraphBuilder} (hb : Built b) :
    ∀ p ∈ b.graph, p.1 ∈ b.functions ∧ ∀ c ∈ p.2, c ∈ b.functions := by
  induction hb with
  | empty => simp [emptyBuilder]
  | @step b caller callee _ ih =>
    intro p hp
    simp only [CallGraphBuilder.add_call] at hp ⊢
    have hup : ∀ x ∈ b.functions, x ∈ addFn (addFn b.functions caller) callee :=
      fun x hx => mem_addFn (mem_addFn hx)
    have hcaller : caller ∈ addFn (addFn b.functions caller) callee :=
      mem_addFn (self_mem_addFn _ _)
    have hcallee : callee ∈ addFn (addFn b.functions caller) callee :=
      self_mem_addFn _ _
    cases hl : lookupAL b.graph caller with
    | some l =>
      simp only [appendEdge, hl] at hp
      rcases mem_setAL hp with ⟨h1, h2⟩ | hold
      · refine ⟨by rw [h1]; exact hcaller, ?_⟩
        intro c hc
        rw [h2] at hc
        rcases List.mem_append.mp hc with hcl | hce
        · exact hup c ((ih _ (lookupAL_mem hl)).2 c hcl)
        · rw [List.mem_singleton] at hce
          rw [hce]
          exact hcallee
      · obtain ⟨h1, h2⟩ := ih p hold
        exact ⟨hup _ h1, fun c hc => hup c (h2 c hc)⟩
    | none =>
      simp only [appendEdge, hl] at hp
      rcases List.mem_append.mp hp with hold | hnew
      · obtain ⟨h1, h2⟩ := ih p hold
        exact ⟨hup _ h1, fun c hc => hup c (h2 c hc)⟩
      · rw [List.mem_singleton] at hnew
        subst hnew
        refine ⟨hcaller, ?_⟩
        intro c hc
        rw [List.mem_singleton] at hc
        rw [hc]
        exact hcallee

/-- Both endpoints of any adjacency of a built state are known functions. -/
theorem built_adj_mem {b : CallGraphBuilder} (hb : Built b) {u c : String}
    (h : c ∈ adjOf b.graph u) : u ∈ b.functions ∧ c ∈ b.functions := by
  have hmem := adjOf_mem_graph h
  obtain ⟨h1, h2⟩ := built_closed hb _ hmem
  exact ⟨h1, h2 c h⟩

/-- A duplicate-free list of functions is no longer than the function list. -/
theorem nodup_subset_length {l fs : List String} (hl : l.Nodup) (hfs : fs.Nodup)
    (hsub : ∀ x ∈ l, x ∈ fs) : l.length ≤ fs.length := by
  rw [← List.toFinset_card_of_nodup hl, ← List.toFinset_card_of_nodup hfs]
  exact Finset.card_le_card (fun x hx => List.mem_toFinset.mpr (hsub x (List.mem_toFinset.mp hx)))

/-- One iteration of Kahn's `while queue` loop preserves the invariant: the
dequeued node joins the processed prefix, and the neighbor loop leaves exactly
the nodes whose in-degree reaches zero appended to the queue. -/
theorem kahn_step {g : List (String × List String)} {fs : List String}
    (hgk : (g.map Prod.fst).Nodup)
    (hcl : ∀ u c, c ∈ adjOf g u → u ∈ fs ∧ c ∈ fs)
    {node : String} {rest : List String} {indeg : String → Int} {result : List String}
    (hinv : KInv g fs (node :: rest) indeg result) :
    KInv g fs (processNeighbors (adjOf g node) indeg rest).2
      (processNeighbors (adjOf g node) indeg rest).1 (result ++ [node]) := by
  obtain ⟨hpn1, new, hpn2, hnnodup, hniff⟩ := processNeighbors_spec (adjOf g node) indeg rest
  have hnodefs : node ∈ fs := hinv.qsub node (List.mem_cons_self _ _)
  have hnq := (hinv.qiff node hnodefs).mp (List.mem_cons_self _ _)
  have hnoderes : node ∉ result := hnq.1
  have hnodez : indeg node = 0 := hnq.2
  have hrestnodup : rest.Nodup := (List.nodup_cons.mp hinv.qnodup).2
  have hnoderest : node ∉ rest := (List.nodup_cons.mp hinv.qnodup).1
  have hr2nodup : (result ++ [node]).Nodup := by
    refine List.nodup_append.mpr ⟨hinv.rnodup, by simp, ?_⟩
    intro a ha hb
    rw [List.mem_singleton] at hb
    exact hnoderes (hb ▸ ha)
  have hideg2 : ∀ n, (processNeighbors (adjOf g node) indeg rest).1 n =
      inDegree g n - decr g (result ++ [node]) n := by
    intro n
    simp only [hpn1]
    rw [decr_append]
    have := hinv.ideg n
    omega
  have hge : ∀ n, 0 ≤ (processNeighbors (adjOf g node) indeg rest).1 n := by
    intro n
    rw [hideg2 n]
    have := decr_le_inDegree g hgk (result ++ [node]) hr2nodup n
    omega
  have hcount : ∀ n, (0:Int) ≤ ((adjOf g node).count n : Int) := fun n => Int.ofNat_nonneg _
  have hnew_pos : ∀ m ∈ new, 0 < indeg m := fun m hm => ((hniff m).mp hm).1
  have hnew_le : ∀ m ∈ new, indeg m ≤ ((adjOf g node).count m : Int) :=
    fun m hm => ((hniff m).mp hm).2
  have hnew_adj : ∀ m ∈ new, m ∈ adjOf g node := by
    intro m hm
    have h1 := hnew_pos m hm
    have h2 := hnew_le m hm
    have : 0 < (adjOf g node).count m := by omega
    exact List.count_pos_iff.mp this
  have hval : ∀ n, (processNeighbors (adjOf g node) indeg rest).1 n =
      indeg n - ((adjOf g node).count n : Int) := by
    intro n
    rw [hpn1]
  constructor
  · exact hideg2
  · exact hr2nodup
  · rw [hpn2]
    refine List.nodup_append.mpr ⟨hrestnodup, hnnodup, ?_⟩
    intro a ha hb
    have h0 : indeg a = 0 :=
      ((hinv.qiff a (hinv.qsub a (List.mem_cons_of_mem _ ha))).mp
        (List.mem_cons_of_mem _ ha)).2
    have := hnew_pos a hb
    omega
  · intro n hr hq
    rw [hpn2] at hq
    rcases List.mem_append.mp hr with hro | hrn
    · rcases List.mem_append.mp hq with hqr | hqn
      · exact hinv.disj n hro (List.mem_cons_of_mem _ hqr)
      · have := hnew_pos n hqn
        have := hinv.rneg n hro
        omega
    · rw [List.mem_singleton] at hrn
      subst hrn
      rcases List.mem_append.mp hq with hqr | hqn
      · exact hnoderest hqr
      · have := hnew_pos n hqn
        omega
  · intro n hn
    rcases List.mem_append.mp hn with hro | hrn
    · exact hinv.rsub n hro
    · rw [List.mem_singleton] at hrn
      rw [hrn]
      exact hnodefs
  · intro n hn
    rw [hpn2] at hn
    rcases List.mem_append.mp hn with hqr | hqn
    · exact hinv.qsub n (List.mem_cons_of_mem _ hqr)
    · exact (hcl node n (hnew_adj n hqn)).2
  · intro n hnfs
    rw [hpn2]
    constructor
    · intro hn
      rcases List.mem_append.mp hn with hqr | hqn
      · have hold := (hinv.qiff n hnfs).mp (List.mem_cons_of_mem _ hqr)
        have hne : n ≠ node := fun he => hnoderest (he ▸ hqr)
        refine ⟨?_, ?_⟩
        · intro hr
          rcases List.mem_append.mp hr with hro | hrn
          · exact hold.1 hro
          · rw [List.mem_singleton] at hrn
            exact hne hrn
        · have h1 := hval n
          have h2 := hge n
          have h3 := hold.2
          omega
      · have h1 := hnew_pos n hqn
        have h2 := hnew_le n hqn
        refine ⟨?_, ?_⟩
        · intro hr
          rcases List.mem_append.mp hr with hro | hrn
          · have := hinv.rneg n hro
            omega
          · rw [List.mem_singleton] at hrn
            subst hrn
            omega
        · have h3 := hval n
          have h4 := hge n
          omega
    · rintro ⟨hnr, hz⟩
      have hnres : n ∉ result := fun hr => hnr (List.mem_append_left _ hr)
      have hnne : n ≠ node := fun he => hnr (by rw [he]; exact List.mem_append_right _ (by simp))
      have h3 := hval n
      by_cases hc : (adjOf g node).count n = 0
      · have hz0 : indeg n = 0 := by
          rw [h3, hc] at hz
          omega
        have := (hinv.qiff n hnfs).mpr ⟨hnres, hz0⟩
        rcases List.mem_cons.mp this with he | hm
        · exact absurd he hnne
        · exact List.mem_append_left _ hm
      · refine List.mem_append_right _ ((hniff n).mpr ⟨?_, ?_⟩)
        · rw [h3] at hz
          omega
        · rw [h3] at hz
          omega
  · intro n hn
    rcases List.mem_append.mp hn with hro | hrn
    · have h1 := hinv.rneg n hro
      have h2 := hval n
      have h3 := hcount n
      omega
    · rw [List.mem_singleton] at hrn
      subst hrn
      have h2 := hval n
      have h3 := hcount n
      omega
  · intro k hk u hu
    rw [List.length_append, List.length_singleton] at hk
    by_cases hkl : k < result.length
    · have hget : (result ++ [node]).get ⟨k, by rw [List.length_append]; omega⟩ =
          result.get ⟨k, hkl⟩ := by simp [List.getElem_append, hkl]
      rw [hget] at hu
      have := hinv.rord k hkl u hu
      rw [List.take_append_of_le_length (by omega)]
      exact this
    · have hke : k = result.length := by omega
      subst hke
      have hget : (result ++ [node]).get ⟨result.length, by simp⟩ = node := by
        simp
      rw [hget] at hu
      rw [List.take_append_of_le_length (le_refl _)]
      rw [List.take_length]
      by_contra hur
      have := edge_residual hgk hinv.rnodup hur hu
      have := hinv.ideg node
      omega

/-- Kahn's loop, run with enough fuel, drains the queue while preserving the
invariant and only appending to the result. -/
theorem kahnLoop_inv {g : List (String × List String)} {fs : List String}
    (hgk : (g.map Prod.fst).Nodup) (hfs : fs.Nodup)
    (hcl : ∀ u c, c ∈ adjOf g u → u ∈ fs ∧ c ∈ fs) :
    ∀ (fuel : Nat) (queue : List String) (indeg : String → Int) (result : List String),
      KInv g fs queue indeg result → fs.length + 1 ≤ fuel + result.length →
      ∃ indeg2, KInv g fs [] indeg2 (kahnLoop g fuel queue indeg result) ∧
        ∃ suff, kahnLoop g fuel queue indeg result = result ++ suff := by
  intro fuel
  induction fuel with
  | zero =>
    intro queue indeg result hinv hb
    exfalso
    have hle := nodup_subset_length hinv.rnodup hfs hinv.rsub
    omega
  | succ fuel2 ih =>
    intro queue indeg result hinv hb
    cases queue with
    | nil =>
      refine ⟨indeg, ?_, [], by simp [kahnLoop]⟩
      have he : kahnLoop g (fuel2 + 1) [] indeg result = result := rfl
      rw [he]
      exact hinv
    | cons node rest =>
      have hstep := kahn_step hgk hcl hinv
      have hkl : kahnLoop g (fuel2 + 1) (node :: rest) indeg result =
          kahnLoop g fuel2 (processNeighbors (adjOf g node) indeg rest).2
            (processNeighbors (adjOf g node) indeg rest).1 (result ++ [node]) := rfl
      rw [hkl]
      have hb2 : fs.length + 1 ≤ fuel2 + (result ++ [node]).length := by
        rw [List.length_append, List.length_singleton]
        omega
      obtain ⟨indeg2, hi2, suff, hs⟩ := ih _ _ _ hstep hb2
      exact ⟨indeg2, hi2, [node] ++ suff, by rw [hs, List.append_assoc]⟩

/-- `topological_sort` ends in a drained-queue invariant state. -/
theorem topological_sort_spec {b : CallGraphBuilder} (hb : Built b) :
    ∃ indeg2, KInv b.graph b.functions [] indeg2 b.topological_sort := by
  have hgk := built_keys_nodup hb
  have hfs := built_fns_nodup hb
  have hcl : ∀ u c, c ∈ adjOf b.graph u → u ∈ b.functions ∧ c ∈ b.functions :=
    fun u c h => built_adj_mem hb h
  have hinit : KInv b.graph b.functions
      (b.functions.filter (fun n => inDegree b.graph n = 0)) (inDegree b.graph) [] := by
    constructor
    · intro n
      rw [decr_nil]
      ring
    · exact List.nodup_nil
    · exact hfs.filter _
    · intro n hr _
      simp at hr
    · intro n hr
      simp at hr
    · exact fun n hn => (List.mem_filter.mp hn).1
    · intro n hnfs
      simp [List.mem_filter, hnfs]
    · intro n hr
      simp at hr
    · intro k hk
      simp at hk
  obtain ⟨indeg2, hi, _⟩ :=
    kahnLoop_inv hgk hfs hcl (b.functions.length + 1) _ _ [] hinit (by simp)
  exact ⟨indeg2, hi⟩

/-- Walks compose. -/
theorem PathN.comp {α : Type} {adj : α → List α} {x y z : α} {n m : Nat}
    (h1 : PathN adj x y n) (h2 : PathN adj y z m) : PathN adj x z (n + m) := by
  induction h1 with
  | refl w =>
    rw [Nat.zero_add]
    exact h2
  | step hc _ ih =>
    rw [Nat.add_right_comm]
    exact PathN.step hc (ih h2)

/-- With an acyclic graph Kahn's algorithm outputs every function: each
unfinished node keeps an unfinished in-neighbor, which would give an
arbitrarily long walk inside the finite function set and hence a cycle. -/
theorem kahn_complete {b : CallGraphBuilder} (hb : Built b)
    (hnc : ¬ ∃ u n, PathN (adjOf b.graph) u u (n + 1)) :
    b.topological_sort.length = b.functions.length := by
  obtain ⟨indeg2, hinv⟩ := topological_sort_spec hb
  by_contra hne
  have hle := nodup_subset_length hinv.rnodup (built_fns_nodup hb) hinv.rsub
  have hmiss : ∃ n0, n0 ∈ b.functions ∧ n0 ∉ b.topological_sort := by
    by_contra hall
    push_neg at hall
    have hge := nodup_subset_length (built_fns_nodup hb) hinv.rnodup hall
    omega
  obtain ⟨n0, hn0fs, hn0r⟩ := hmiss
  have hstepU : ∀ m, m ∈ b.functions → m ∉ b.topological_sort →
      ∃ u, u ∈ b.functions ∧ u ∉ b.topological_sort ∧ m ∈ adjOf b.graph u := by
    intro m hmfs hmr
    have hnin : m ∉ ([] : List String) := by simp
    have hnz : indeg2 m ≠ 0 := by
      intro hz
      exact hnin ((hinv.qiff m hmfs).mpr ⟨hmr, hz⟩)
    have h1 := hinv.ideg m
    have h2 := decr_le_inDegree b.graph (built_keys_nodup hb) _ hinv.rnodup m
    have hlt : decr b.graph b.topological_sort m < inDegree b.graph m := by omega
    obtain ⟨u, hur, hadj⟩ := residual_edge (built_keys_nodup hb) hinv.rnodup hlt
    exact ⟨u, (built_adj_mem hb hadj).1, hur, hadj⟩
  have hstepU2 : ∀ m, ∃ u, (m ∈ b.functions ∧ m ∉ b.topological_sort) →
      (u ∈ b.functions ∧ u ∉ b.topological_sort ∧ m ∈ adjOf b.graph u) := by
    intro m
    by_cases hm : m ∈ b.functions ∧ m ∉ b.topological_sort
    · obtain ⟨u, h⟩ := hstepU m hm.1 hm.2
      exact ⟨u, fun _ => h⟩
    · exact ⟨m, fun hc => absurd hc hm⟩
  choose F hF using hstepU2
  let seq : Nat → String := fun k => Nat.rec n0 (fun _ prev => F prev) k
  have hseq0 : seq 0 = n0 := rfl
  have hseqS : ∀ k, seq (k + 1) = F (seq k) := fun k => rfl
  have hok : ∀ k, seq k ∈ b.functions ∧ seq k ∉ b.topological_sort := by
    intro k
    induction k with
    | zero => exact ⟨hn0fs, hn0r⟩
    | succ k2 ih =>
      have h := hF (seq k2) ih
      rw [hseqS k2]
      exact ⟨h.1, h.2.1⟩
  have hedge : ∀ k, seq k ∈ adjOf b.graph (seq (k + 1)) := by
    intro k
    have h := hF (seq k) (hok k)
    rw [hseqS k]
    exact h.2.2
  have hpath : ∀ d i, PathN (adjOf b.graph) (seq (i + d)) (seq i) d := by
    intro d
    induction d with
    | zero => exact fun i => PathN.refl _
    | succ d2 ih =>
      intro i
      have he := hedge (i + d2)
      exact PathN.step he (ih i)
  have hmap : ∀ a ∈ Finset.range (b.functions.length + 1),
      seq a ∈ b.functions.toFinset :=
    fun a _ => List.mem_toFinset.mpr (hok a).1
  have hcard : b.functions.toFinset.card < (Finset.range (b.functions.length + 1)).card := by
    rw [Finset.card_range, List.toFinset_card_of_nodup (built_fns_nodup hb)]
    omega
  obtain ⟨i, _, j, _, hij, hseqeq⟩ :=
    Finset.exists_ne_map_eq_of_card_lt_of_maps_to hcard hmap
  rcases Nat.lt_or_ge i j with hlt | hge
  · have hp := hpath (j - i) i
    rw [show i + (j - i) = j by omega] at hp
    rw [hseqeq] at hp
    have hd : j - i = (j - i - 1) + 1 := by omega
    rw [hd] at hp
    exact hnc ⟨seq j, j - i - 1, hp⟩
  · have hlt2 : j < i := by omega
    have hp := hpath (i - j) j
    rw [show j + (i - j) = i by omega] at hp
    rw [hseqeq] at hp
    have hd : i - j = (i - j - 1) + 1 := by omega
    rw [hd] at hp
    exact hnc ⟨seq j, i - j - 1, hp⟩

/-- With a cycle present, Kahn's algorithm misses at least the cycle nodes:
output order respects edges, so no cycle node can ever appear. -/
theorem kahn_sound {b : CallGraphBuilder} (hb : Built b) {u : String} {m : Nat}
    (hcyc : PathN (adjOf b.graph) u u (m + 1)) :
    b.topological_sort.length < b.functions.length := by
  obtain ⟨indeg2, hinv⟩ := topological_sort_spec hb
  have hnores : ∀ k, ∀ (hk : k < b.topological_sort.length),
      ¬ ∃ mm, PathN (adjOf b.graph) (b.topological_sort.get ⟨k, hk⟩)
        (b.topological_sort.get ⟨k, hk⟩) (mm + 1) := by
    intro k
    induction k using Nat.strong_induction_on with
    | _ k ih =>
      rintro hk ⟨mm, hp⟩
      obtain ⟨v, hpv, hedge⟩ := PathN.back hp
      have hvc : PathN (adjOf b.graph) v v (1 + mm) :=
        PathN.comp (PathN.step hedge (PathN.refl _)) hpv
      have hvtake := hinv.rord k hk v hedge
      rw [List.mem_iff_get] at hvtake
      obtain ⟨⟨j, hjl⟩, hjget⟩ := hvtake
      have hjk : j < k := by
        have := hjl
        rw [List.length_take] at this
        omega
      have hjlen : j < b.topological_sort.length := by
        have := hjl
        rw [List.length_take] at this
        omega
      have hget2 : b.topological_sort.get ⟨j, hjlen⟩ = v := by
        rw [← hjget]
        simp [List.getElem_take]
      exact ih j hjk hjlen ⟨mm, by rw [hget2]; rwa [Nat.add_comm] at hvc⟩
  have hufs : u ∈ b.functions := by
    cases hcyc with
    | step hc hp => exact (built_adj_mem hb hc).1
  have hur : u ∉ b.topological_sort := by
    intro hu
    rw [List.mem_iff_get] at hu
    obtain ⟨⟨k, hk⟩, hget⟩ := hu
    exact hnores k hk ⟨m, by rw [hget]; exact hcyc⟩
  have hlen : b.topological_sort.length ≤ (b.functions.toFinset.erase u).card := by
    rw [← List.toFinset_card_of_nodup hinv.rnodup]
    refine Finset.card_le_card ?_
    intro x hx
    refine Finset.mem_erase.mpr
      ⟨?_, List.mem_toFinset.mpr (hinv.rsub x (List.mem_toFinset.mp hx))⟩
    intro he
    exact hur (he ▸ List.mem_toFinset.mp hx)
  have hcard : (b.functions.toFinset.erase u).card < b.functions.toFinset.card :=
    Finset.card_erase_lt_of_mem (List.mem_toFinset.mpr hufs)
  rw [List.toFinset_card_of_nodup (built_fns_nodup hb)] at hcard
  omega

/-- Reachability is reflexive. -/
theorem Reach.refl (g : List (String × List String)) (a : String) : Reach g a a :=
  ⟨0, PathN.refl a⟩

/-- Reachability is transitive. -/
theorem Reach.trans {g : List (String × List String)} {a b c : String}
    (h1 : Reach g a b) (h2 : Reach g b c) : Reach g a c := by
  obtain ⟨n, hn⟩ := h1
  obtain ⟨m, hm⟩ := h2
  exact ⟨n + m, PathN.comp hn hm⟩

/-- An edge is a reachability step. -/
theorem reach_of_edge {g : List (String × List String)} {a b : String}
    (h : b ∈ adjOf g a) : Reach g a b :=
  ⟨1, PathN.step h (PathN.refl b)⟩

/-- Lowlink updates do not touch indices. -/
theorem idxOf_setLow (st : TarjanState) (L : List (String × Nat)) (w : String) :
    idxOf { st with lowlinkM := L } w = idxOf st w := rfl

/-- Reading the lowlink just written. -/
theorem lowOf_setLow_self (st : TarjanState) (n : String) (v : Nat) :
    lowOf { st with lowlinkM := setAL st.lowlinkM n v } n = v := by
  simp [lowOf, lookupAL_setAL_self]

/-- Lowlinks of other nodes are unaffected by a write. -/
theorem lowOf_setLow_ne (st : TarjanState) (n : String) (v : Nat) {w : String}
    (h : w ≠ n) : lowOf { st with lowlinkM := setAL st.lowlinkM n v } w = lowOf st w := by
  simp [lowOf, lookupAL_setAL_ne _ _ _ _ (Ne.symm h)]

/-- `popUntil` splits the stack at the first occurrence of the target. -/
theorem popUntil_eq {X old : List String} {n : String} (hn : n ∉ X) :
    popUntil (X ++ n :: old) n = (X ++ [n], old) := by
  induction X with
  | nil => simp [popUntil]
  | cons a X ih =>
    rw [List.mem_cons] at hn
    push_neg at hn
    have ha : ¬ a = n := fun he => hn.1 he.symm
    have hstep : popUntil ((a :: X) ++ n :: old) n =
        (a :: (popUntil (X ++ n :: old) n).1, (popUntil (X ++ n :: old) n).2) := by
      simp [popUntil, ha]
    rw [hstep, ih hn.2]
    rfl

/-- Pushing an unindexed node preserves the fold invariant relative to the
entry state: this is the state of `strongconnect(n)` right before its
successor loop. -/
theorem tarjan_push {g : List (String × List String)} {st : TarjanState} {n : String}
    (htinv : TInv g st) (hidx : idxOf st n = none) :
    FoldInv g st n
      { counter := st.counter + 1
        stack := n :: st.stack
        indexM := setAL st.indexM n st.counter
        lowlinkM := setAL st.lowlinkM n st.counter
        onStack := n :: st.onStack
        sccs := st.sccs
        popped := st.popped } := by
  set st1 : TarjanState :=
    { counter := st.counter + 1
      stack := n :: st.stack
      indexM := setAL st.indexM n st.counter
      lowlinkM := setAL st.lowlinkM n st.counter
      onStack := n :: st.onStack
      sccs := st.sccs
      popped := st.popped } with hst1
  have hns : n ∉ st.stack := fun hmem => by
    have := htinv.sidx n hmem
    rw [hidx] at this
    simp at this
  have hnp : n ∉ st.popped := fun hmem => by
    have := htinv.pidx n hmem
    rw [hidx] at this
    simp at this
  have hidxA : ∀ w, w ≠ n → idxOf st1 w = idxOf st w := by
    intro w hw
    show lookupAL (setAL st.indexM n st.counter) w = lookupAL st.indexM w
    rw [lookupAL_setAL_ne _ _ _ _ (Ne.symm hw)]
  have hidxn : idxOf st1 n = some st.counter := by
    show lookupAL (setAL st.indexM n st.counter) n = some st.counter
    rw [lookupAL_setAL_self]
  have hlowA : ∀ w, w ≠ n → lowOf st1 w = lowOf st w := by
    intro w hw
    show (lookupAL (setAL st.lowlinkM n st.counter) w).getD 0 =
      (lookupAL st.lowlinkM w).getD 0
    rw [lookupAL_setAL_ne _ _ _ _ (Ne.symm hw)]
  have hlown : lowOf st1 n = st.counter := by
    show (lookupAL (setAL st.lowlinkM n st.counter) n).getD 0 = st.counter
    rw [lookupAL_setAL_self]
    rfl
  have hstack : st1.stack = n :: st.stack := rfl
  have honst : st1.onStack = n :: st.onStack := rfl
  have hcnt : st1.counter = st.counter + 1 := rfl
  have hpops : st1.popped = st.popped := rfl
  have hsccs : st1.sccs = st.sccs := rfl
  refine ⟨⟨?_, ?_, ?_, ?_, ?_, ?_, ?_, ?_, ?_, ?_, ?_, ?_, ?_⟩,
    hidxn, by omega, ?_, ?_, ?_, ⟨[], by rw [hpops, List.append_nil]⟩,
    ⟨[], by rw [hsccs, List.append_nil]⟩, ⟨[], by rw [hstack]; rfl, by simp, by simp⟩⟩
  · rw [hstack]
    exact List.nodup_cons.mpr ⟨hns, htinv.snodup⟩
  · intro w
    rw [hstack, honst]
    simp only [List.mem_cons]
    rw [htinv.ones w]
  · intro w hw
    rw [hstack] at hw
    rcases List.mem_cons.mp hw with he | hm
    · subst he
      rw [hidxn]
      rfl
    · have hwn : w ≠ n := fun he => hns (he ▸ hm)
      rw [hidxA w hwn]
      exact htinv.sidx w hm
  · intro w hw
    rw [hpops] at hw
    have hwn : w ≠ n := fun he => hnp (he ▸ hw)
    rw [hidxA w hwn]
    exact htinv.pidx w hw
  · intro w i hi
    rw [hcnt]
    by_cases hwn : w = n
    · subst hwn
      rw [hidxn] at hi
      have := Option.some.inj hi
      omega
    · rw [hidxA w hwn] at hi
      have := htinv.ibound w i hi
      omega
  · intro w hw
    rw [hstack, hpops]
    by_cases hwn : w = n
    · subst hwn
      exact Or.inl (List.mem_cons_self _ _)
    · rw [hidxA w hwn] at hw
      rcases htinv.ipart w hw with h1 | h2
      · exact Or.inl (List.mem_cons_of_mem _ h1)
      · exact Or.inr h2
  · intro w hw hp
    rw [hstack] at hw
    rw [hpops] at hp
    rcases List.mem_cons.mp hw with he | hm
    · exact hnp (he ▸ hp)
    · exact htinv.sdisj w hm hp
  · rw [hpops]
    exact htinv.pnodup
  · rw [hstack, List.pairwise_cons]
    constructor
    · intro b hb
      have hbn : b ≠ n := fun he => hns (he ▸ hb)
      obtain ⟨i, hi⟩ := Option.isSome_iff_exists.mp (htinv.sidx b hb)
      have hlt := htinv.ibound b i hi
      rw [hidxA b hbn, hidxn, hi]
      simpa using hlt
    · refine List.Pairwise.imp_of_mem ?_ htinv.sorted
      intro a b ha hb hab
      have han : a ≠ n := fun he => hns (he ▸ ha)
      have hbn : b ≠ n := fun he => hns (he ▸ hb)
      rw [hidxA a han, hidxA b hbn]
      exact hab
  · intro w hw
    rw [hstack] at hw
    rcases List.mem_cons.mp hw with he | hm
    · subst he
      rw [hlown, hidxn]
      rfl
    · have hwn : w ≠ n := fun he => hns (he ▸ hm)
      rw [hlowA w hwn, hidxA w hwn]
      exact htinv.lowle w hm
  · intro w hw
    rw [hstack] at hw
    rcases List.mem_cons.mp hw with he | hm
    · subst he
      refine ⟨w, by rw [hstack]; exact List.mem_cons_self _ _, ?_, Reach.refl g w⟩
      rw [hlown, hidxn]
      rfl
    · have hwn : w ≠ n := fun he => hns (he ▸ hm)
      obtain ⟨z, hz, hzi, hzr⟩ := htinv.lw w hm
      have hzn : z ≠ n := fun he => hns (he ▸ hz)
      refine ⟨z, by rw [hstack]; exact List.mem_cons_of_mem _ hz, ?_, hzr⟩
      rw [hidxA z hzn, hlowA w hwn]
      exact hzi
  · rw [hsccs]
    exact htinv.good
  · intro k hk b hb hbne
    rw [hpops] at hk ⊢
    rw [hsccs]
    exact htinv.ep k hk b hb hbne
  · intro w hw
    have hwn : w ≠ n := fun he => by
      rw [he, hidx] at hw
      simp at hw
    exact hidxA w hwn
  · intro w hw
    have hwn : w ≠ n := fun he => by
      rw [he, hidx] at hw
      simp at hw
    exact hlowA w hwn
  · intro w hw
    by_cases hwn : w = n
    · exact Or.inr (Or.inl hwn)
    · rw [hidxA w hwn] at hw
      exact Or.inl hw

/-- Lowering `n`'s lowlink to a value witnessed on the stack by a node `n`
reaches restores the fold invariant, given its other components. -/
theorem tarjan_relow {g : List (String × List String)} {st0 : TarjanState} {n : String}
    {st4 : TarjanState} {L : Nat}
    (hn0 : idxOf st0 n = none)
    (htinv4 : TInv g st4)
    (hidxn4 : idxOf st4 n = some st0.counter)
    (hcmon4 : st0.counter < st4.counter)
    (hifr4 : ∀ w, (idxOf st0 w).isSome → idxOf st4 w = idxOf st0 w)
    (hlfr4 : ∀ w, (idxOf st0 w).isSome → lowOf st4 w = lowOf st0 w)
    (hinew4 : ∀ w, (idxOf st4 w).isSome → (idxOf st0 w).isSome ∨ w = n ∨
      (Reach g n w ∧ st0.counter < (idxOf st4 w).getD 0))
    (hpops4 : ∃ P, st4.popped = st0.popped ++ P)
    (hsccse4 : ∃ S, st4.sccs = st0.sccs ++ S)
    (hX : ∃ X, st4.stack = X ++ n :: st0.stack ∧
      (∀ w ∈ X, lowOf st4 w < (idxOf st4 w).getD 0) ∧ (∀ w ∈ X, L ≤ lowOf st4 w))
    (hle : L ≤ lowOf st4 n)
    (hwit : ∃ z ∈ st4.stack, (idxOf st4 z).getD 0 = L ∧ Reach g n z) :
    FoldInv g st0 n { st4 with lowlinkM := setAL st4.lowlinkM n L } := by
  set st5 : TarjanState := { st4 with lowlinkM := setAL st4.lowlinkM n L } with hst5
  obtain ⟨X, hshape, hX1, hX2⟩ := hX
  have hnstk : n ∈ st4.stack := by
    rw [hshape]
    exact List.mem_append_right _ (List.mem_cons_self _ _)
  have hnX : n ∉ X := by
    intro hmem
    have hnodup := htinv4.snodup
    rw [hshape] at hnodup
    obtain ⟨_, _, hdisj⟩ := List.nodup_append.mp hnodup
    exact hdisj hmem (List.mem_cons_self _ _)
  have hidxA : ∀ w, idxOf st5 w = idxOf st4 w := fun w => rfl
  have hlowN : lowOf st5 n = L := lowOf_setLow_self st4 n L
  have hlowW : ∀ w, w ≠ n → lowOf st5 w = lowOf st4 w :=
    fun w hw => lowOf_setLow_ne st4 n L hw
  have hstq : st5.stack = st4.stack := rfl
  have honq : st5.onStack = st4.onStack := rfl
  have hpq : st5.popped = st4.popped := rfl
  have hsq : st5.sccs = st4.sccs := rfl
  have hcq : st5.counter = st4.counter := rfl
  refine ⟨⟨?_, ?_, ?_, ?_, ?_, ?_, ?_, ?_, ?_, ?_, ?_, ?_, ?_⟩,
    hidxn4, hcmon4, hifr4, ?_, hinew4, hpops4, hsccse4, ?_⟩
  · rw [hstq]
    exact htinv4.snodup
  · intro w
    rw [honq, hstq]
    exact htinv4.ones w
  · intro w hw
    rw [hstq] at hw
    exact htinv4.sidx w hw
  · intro w hw
    rw [hpq] at hw
    exact htinv4.pidx w hw
  · intro w i hi
    rw [hcq]
    exact htinv4.ibound w i hi
  · intro w hw
    rw [hstq, hpq]
    exact htinv4.ipart w hw
  · intro w hw hp
    rw [hstq] at hw
    rw [hpq] at hp
    exact htinv4.sdisj w hw hp
  · rw [hpq]
    exact htinv4.pnodup
  · rw [hstq]
    exact htinv4.sorted
  · intro w hw
    rw [hstq] at hw
    by_cases hwn : w = n
    · subst hwn
      rw [hlowN, hidxA w]
      have h1 := htinv4.lowle w hw
      omega
    · rw [hlowW w hwn]
      exact htinv4.lowle w hw
  · intro w hw
    rw [hstq] at hw
    by_cases hwn : w = n
    · subst hwn
      obtain ⟨z, hz, hzi, hzr⟩ := hwit
      refine ⟨z, by rw [hstq]; exact hz, ?_, hzr⟩
      rw [hlowN]
      exact hzi
    · obtain ⟨z, hz, hzi, hzr⟩ := htinv4.lw w hw
      refine ⟨z, by rw [hstq]; exact hz, ?_, hzr⟩
      rw [hlowW w hwn]
      exact hzi
  · rw [hsq]
    exact htinv4.good
  · intro k hk b hb hbne
    rw [hpq] at hk ⊢
    rw [hsq]
    exact htinv4.ep k hk b hb hbne
  · intro w hw
    have hwn : w ≠ n := fun he => by
      rw [he, hn0] at hw
      simp at hw
    rw [hlowW w hwn]
    exact hlfr4 w hw
  · refine ⟨X, by rw [hstq]; exact hshape, ?_, ?_⟩
    · intro w hw
      have hwn : w ≠ n := fun he => hnX (he ▸ hw)
      rw [hlowW w hwn]
      exact hX1 w hw
    · intro w hw
      have hwn : w ≠ n := fun he => hnX (he ▸ hw)
      rw [hlowW w hwn, hlowN]
      exact hX2 w hw

/-- A recursive `strongconnect` call on an unindexed successor, followed by
folding its lowlink into `n`'s, preserves the fold invariant; the call
freezes existing indices, indexes the successor and can only lower `n`'s
lowlink. -/
theorem tarjan_child {g : List (String × List String)} {st0 : TarjanState} {n : String}
    {st3 : TarjanState} (hfi : FoldInv g st0 n st3) (hn0 : idxOf st0 n = none)
    {s : String} (hsadj : s ∈ adjOf g n) (hsidx : idxOf st3 s = none)
    {st4 : TarjanState} (hpost : SCPost g st3 s st4) :
    FoldInv g st0 n
      { st4 with lowlinkM := setAL st4.lowlinkM n (min (lowOf st4 n) (lowOf st4 s)) } ∧
    lowOf st4 n = lowOf st3 n ∧
    (∀ w, (idxOf st3 w).isSome → idxOf st4 w = idxOf st3 w) ∧
    (idxOf st4 s).isSome := by
  have hn3some : (idxOf st3 n).isSome := by
    rw [hfi.idxn]
    rfl
  have hidxn4 : idxOf st4 n = some st0.counter := by
    rw [hpost.ifr n hn3some, hfi.idxn]
  have hlow4n : lowOf st4 n = lowOf st3 n := hpost.lfr n hn3some
  obtain ⟨X3, hsh3, h31, h32⟩ := hfi.stck
  have hn3stk : n ∈ st3.stack := by
    rw [hsh3]
    exact List.mem_append_right _ (List.mem_cons_self _ _)
  have hlowle3n : lowOf st3 n ≤ st0.counter := by
    have h := hfi.tinv.lowle n hn3stk
    rw [hfi.idxn] at h
    exact h
  have hsome4 : (idxOf st4 s).isSome := by
    rw [hpost.idxn]
    rfl
  have hLn : min (lowOf st4 n) (lowOf st4 s) ≤ lowOf st4 n := min_le_left _ _
  have hLs : min (lowOf st4 n) (lowOf st4 s) ≤ lowOf st4 s := min_le_right _ _
  refine ⟨tarjan_relow hn0 hpost.tinv hidxn4 (lt_trans hfi.cmon hpost.cmon)
    ?_ ?_ ?_ ?_ ?_ ?_ hLn ?_, hlow4n, hpost.ifr, hsome4⟩
  · intro w hw
    rw [hpost.ifr w (by rw [hfi.ifr w hw]; exact hw)]
    exact hfi.ifr w hw
  · intro w hw
    rw [hpost.lfr w (by rw [hfi.ifr w hw]; exact hw)]
    exact hfi.lfr w hw
  · intro w hw
    rcases hpost.inew w hw with h3i | he | ⟨hr, hb⟩
    · rcases hfi.inew w h3i with h0i | he | ⟨hr, hb⟩
      · exact Or.inl h0i
      · exact Or.inr (Or.inl he)
      · refine Or.inr (Or.inr ⟨hr, ?_⟩)
        rw [hpost.ifr w h3i]
        exact hb
    · subst he
      refine Or.inr (Or.inr ⟨reach_of_edge hsadj, ?_⟩)
      rw [hpost.idxn]
      exact hfi.cmon
    · refine Or.inr (Or.inr ⟨Reach.trans (reach_of_edge hsadj) hr, ?_⟩)
      have := hfi.cmon
      omega
  · obtain ⟨P3, hP3⟩ := hfi.pops
    obtain ⟨P4, hP4⟩ := hpost.pops
    exact ⟨P3 ++ P4, by rw [hP4, hP3, List.append_assoc]⟩
  · obtain ⟨S3, hS3⟩ := hfi.sccse
    obtain ⟨S4, hS4⟩ := hpost.sccse
    exact ⟨S3 ++ S4, by rw [hS4, hS3, List.append_assoc]⟩
  · rcases hpost.stck with hcl | ⟨X4, hsh4, h41, h42, h43⟩
    · refine ⟨X3, by rw [hcl]; exact hsh3, ?_, ?_⟩
      · intro w hw
        have hw3 : w ∈ st3.stack := by
          rw [hsh3]
          exact List.mem_append_left _ hw
        have hw3some := hfi.tinv.sidx w hw3
        rw [hpost.lfr w hw3some, hpost.ifr w hw3some]
        exact h31 w hw
      · intro w hw
        have hw3 : w ∈ st3.stack := by
          rw [hsh3]
          exact List.mem_append_left _ hw
        have hw3some := hfi.tinv.sidx w hw3
        rw [hpost.lfr w hw3some]
        have := h32 w hw
        omega
    · refine ⟨X4 ++ s :: X3, ?_, ?_, ?_⟩
      · rw [hsh4, hsh3]
        simp [List.append_assoc]
      · intro w hw
        rcases List.mem_append.mp hw with hw4 | hwsx
        · exact h41 w hw4
        · rcases List.mem_cons.mp hwsx with he | hw3
          · subst he
            rw [hpost.idxn]
            exact h43
          · have hw3m : w ∈ st3.stack := by
              rw [hsh3]
              exact List.mem_append_left _ hw3
            have hw3some := hfi.tinv.sidx w hw3m
            rw [hpost.lfr w hw3some, hpost.ifr w hw3some]
            exact h31 w hw3
      · intro w hw
        rcases List.mem_append.mp hw with hw4 | hwsx
        · have := h42 w hw4
          omega
        · rcases List.mem_cons.mp hwsx with he | hw3
          · subst he
            exact hLs
          · have hw3m : w ∈ st3.stack := by
              rw [hsh3]
              exact List.mem_append_left _ hw3
            have hw3some := hfi.tinv.sidx w hw3m
            rw [hpost.lfr w hw3some]
            have h1 := h32 w hw3
            omega
  · rcases le_or_lt (lowOf st4 n) (lowOf st4 s) with hc | hc
    · obtain ⟨z, hz3, hzi3, hzr⟩ := hfi.tinv.lw n hn3stk
      have hz3some := hfi.tinv.sidx z hz3
      have hz4 : z ∈ st4.stack := by
        rcases hpost.stck with hcl | ⟨X4, hsh4, _, _, _⟩
        · rw [hcl]
          exact hz3
        · rw [hsh4]
          exact List.mem_append_right _ (List.mem_cons_of_mem _ hz3)
      refine ⟨z, hz4, ?_, hzr⟩
      rw [hpost.ifr z hz3some, min_eq_left hc, hlow4n]
      exact hzi3
    · rcases hpost.stck with hcl | ⟨X4, hsh4, h41, h42, h43⟩
      · exfalso
        have h1 := (hpost.ncase hcl).2
        have h2 := hfi.cmon
        omega
      · have hs4 : s ∈ st4.stack := by
          rw [hsh4]
          exact List.mem_append_right _ (List.mem_cons_self _ _)
        obtain ⟨z, hz, hzi, hzr⟩ := hpost.tinv.lw s hs4
        refine ⟨z, hz, ?_, Reach.trans (reach_of_edge hsadj) hzr⟩
        rw [min_eq_right (le_of_lt hc)]
        exact hzi

/-- The successor loop of `strongconnect(n)`: given the specification of
recursive calls at the inner fuel, the fold preserves the fold invariant,
only lowers `n`'s lowlink, freezes existing indices, and leaves every
processed successor indexed, with `n`'s lowlink bounded by the index of any
processed successor that was already on the entry stack. -/
theorem tarjan_fold (g : List (String × List String)) (fs : List String) (fuel2 : Nat)
    (ihsc : ∀ (st2 : TarjanState) (n2 : String), TInv g st2 → idxOf st2 n2 = none →
      n2 ∈ fs → (fs.filter (fun u => (idxOf st2 u).isNone)).length ≤ fuel2 →
      SCPost g st2 n2 (strongconnect g fuel2 st2 n2))
    (hcl : ∀ u c, c ∈ adjOf g u → u ∈ fs ∧ c ∈ fs)
    (st0 : TarjanState) (n : String) (hn0 : idxOf st0 n = none) (hnfs : n ∈ fs)
    (hm0 : (fs.filter (fun u => (idxOf st0 u).isNone)).length ≤ fuel2 + 1) :
    ∀ (succs : List String) (st3 : TarjanState), FoldInv g st0 n st3 →
      (∀ x ∈ succs, x ∈ adjOf g n) →
      FoldInv g st0 n (visitSuccs g fuel2 st3 n succs) ∧
      lowOf (visitSuccs g fuel2 st3 n succs) n ≤ lowOf st3 n ∧
      (∀ w, (idxOf st3 w).isSome →
        idxOf (visitSuccs g fuel2 st3 n succs) w = idxOf st3 w) ∧
      (∀ x ∈ succs, (idxOf (visitSuccs g fuel2 st3 n succs) x).isSome ∧
        (x ∈ st0.stack → lowOf (visitSuccs g fuel2 st3 n succs) n ≤
          (idxOf (visitSuccs g fuel2 st3 n succs) x).getD 0)) := by
  intro succs
  induction succs with
  | nil =>
    intro st3 hfi _
    rw [visitSuccs_nil]
    exact ⟨hfi, le_refl _, fun w _ => rfl, by simp⟩
  | cons s rest ihs =>
    intro st3 hfi hsub
    have hsadj : s ∈ adjOf g n := hsub s (List.mem_cons_self _ _)
    have hrsub : ∀ x ∈ rest, x ∈ adjOf g n := fun x hx => hsub x (List.mem_cons_of_mem _ hx)
    have hmemup : ∀ x, x ∈ st0.stack → x ∈ st3.stack := by
      intro x hx
      obtain ⟨X3, hsh3, _, _⟩ := hfi.stck
      rw [hsh3]
      exact List.mem_append_right _ (List.mem_cons_of_mem _ hx)
    cases hidx3 : idxOf st3 s with
    | none =>
      rw [visitSuccs_cons_none g fuel2 st3 n s rest hidx3]
      have hm3 : (fs.filter (fun u => (idxOf st3 u).isNone)).length ≤ fuel2 := by
        have hmono : ∀ a, ((fun u => (idxOf st3 u).isNone) a = true) →
            ((fun u => (idxOf st0 u).isNone) a = true) := by
          intro a ha
          simp only [Option.isNone_iff_eq_none] at ha ⊢
          cases h0 : idxOf st0 a with
          | none => rfl
          | some v =>
            exfalso
            have := hfi.ifr a (by rw [h0]; rfl)
            rw [ha, h0] at this
            simp at this
        have hq : ¬ ((fun u => (idxOf st3 u).isNone) n = true) := by
          simp only [Option.isNone_iff_eq_none]
          rw [hfi.idxn]
          simp
        have hr : (fun u => (idxOf st0 u).isNone) n = true := by
          simp only [Option.isNone_iff_eq_none]
          exact hn0
        have := length_filter_lt fs _ _ n hmono hnfs hr hq
        omega
      have hsfs : s ∈ fs := (hcl n s hsadj).2
      have hpost := ihsc st3 s hfi.tinv hidx3 hsfs hm3
      obtain ⟨hfi5, hlow4n, hifr34, hs4⟩ := tarjan_child hfi hn0 hsadj hidx3 hpost
      obtain ⟨hfiR, hlowR, hifrR, hsuccR⟩ := ihs _ hfi5 hrsub
      refine ⟨hfiR, le_trans hlowR ?_, ?_, ?_⟩
      · show lowOf { strongconnect g fuel2 st3 s with
          lowlinkM := setAL (strongconnect g fuel2 st3 s).lowlinkM n
            (min (lowOf (strongconnect g fuel2 st3 s) n)
              (lowOf (strongconnect g fuel2 st3 s) s)) } n ≤ lowOf st3 n
        rw [lowOf_setLow_self]
        have h1 := min_le_left (lowOf (strongconnect g fuel2 st3 s) n)
          (lowOf (strongconnect g fuel2 st3 s) s)
        omega
      · intro w hw
        have hw4 : idxOf (strongconnect g fuel2 st3 s) w = idxOf st3 w := hifr34 w hw
        have hw5some : (idxOf { strongconnect g fuel2 st3 s with
            lowlinkM := setAL (strongconnect g fuel2 st3 s).lowlinkM n
              (min (lowOf (strongconnect g fuel2 st3 s) n)
                (lowOf (strongconnect g fuel2 st3 s) s)) } w).isSome := by
          show (idxOf (strongconnect g fuel2 st3 s) w).isSome
          rw [hw4]
          exact hw
        rw [hifrR w hw5some]
        exact hw4
      · intro x hx
        rcases List.mem_cons.mp hx with he | hxr
        · rw [he]
          have hx5some : (idxOf { strongconnect g fuel2 st3 s with
              lowlinkM := setAL (strongconnect g fuel2 st3 s).lowlinkM n
                (min (lowOf (strongconnect g fuel2 st3 s) n)
                  (lowOf (strongconnect g fuel2 st3 s) s)) } s).isSome := hs4
          constructor
          · rw [hifrR s hx5some]
            exact hx5some
          · intro hmem
            exfalso
            have := hfi.tinv.sidx s (hmemup s hmem)
            rw [hidx3] at this
            simp at this
        · exact hsuccR x hxr
    | some i =>
      by_cases hs : s ∈ st3.onStack
      · rw [visitSuccs_cons_on g fuel2 st3 n s rest i hidx3 hs]
        have hn3stk : n ∈ st3.stack := by
          obtain ⟨X3, hsh3, _, _⟩ := hfi.stck
          rw [hsh3]
          exact List.mem_append_right _ (List.mem_cons_self _ _)
        have hfi3 : FoldInv g st0 n
            { st3 with lowlinkM := setAL st3.lowlinkM n (min (lowOf st3 n) i) } := by
          obtain ⟨X3, hsh3, h31, h32⟩ := hfi.stck
          refine tarjan_relow hn0 hfi.tinv hfi.idxn hfi.cmon hfi.ifr hfi.lfr hfi.inew
            hfi.pops hfi.sccse
            ⟨X3, hsh3, h31, fun w hw => le_trans (min_le_left _ _) (h32 w hw)⟩
            (min_le_left _ _) ?_
          rcases le_or_lt (lowOf st3 n) i with hc | hc
          · obtain ⟨z, hz, hzi, hzr⟩ := hfi.tinv.lw n hn3stk
            exact ⟨z, hz, by rw [min_eq_left hc]; exact hzi, hzr⟩
          · refine ⟨s, (hfi.tinv.ones s).mp hs, ?_, reach_of_edge hsadj⟩
            show (idxOf st3 s).getD 0 = _
            rw [min_eq_right (le_of_lt hc), hidx3]
            rfl
        obtain ⟨hfiR, hlowR, hifrR, hsuccR⟩ := ihs _ hfi3 hrsub
        refine ⟨hfiR, le_trans hlowR ?_, ?_, ?_⟩
        · show lowOf { st3 with
            lowlinkM := setAL st3.lowlinkM n (min (lowOf st3 n) i) } n ≤ lowOf st3 n
          rw [lowOf_setLow_self]
          exact min_le_left _ _
        · intro w hw
          have hw3 : (idxOf { st3 with
              lowlinkM := setAL st3.lowlinkM n (min (lowOf st3 n) i) } w).isSome := hw
          rw [hifrR w hw3]
          rfl
        · intro x hx
          rcases List.mem_cons.mp hx with he | hxr
          · rw [he]
            have hx3some : (idxOf { st3 with
                lowlinkM := setAL st3.lowlinkM n (min (lowOf st3 n) i) } s).isSome := by
              show (idxOf st3 s).isSome
              rw [hidx3]
              rfl
            have hxval := hifrR s hx3some
            constructor
            · rw [hxval]
              exact hx3some
            · intro _
              rw [hxval]
              refine le_trans hlowR ?_
              show lowOf { st3 with
                lowlinkM := setAL st3.lowlinkM n (min (lowOf st3 n) i) } n ≤ _
              rw [lowOf_setLow_self]
              show min (lowOf st3 n) i ≤ (idxOf st3 s).getD 0
              rw [hidx3]
              exact min_le_right _ _
          · exact hsuccR x hxr
      · rw [visitSuccs_cons_off g fuel2 st3 n s rest i hidx3 hs]
        obtain ⟨hfiR, hlowR, hifrR, hsuccR⟩ := ihs st3 hfi hrsub
        refine ⟨hfiR, hlowR, hifrR, ?_⟩
        intro x hx
        rcases List.mem_cons.mp hx with he | hxr
        · rw [he]
          constructor
          · rw [hifrR s (by rw [hidx3]; rfl), hidx3]
            rfl
          · intro hmem
            exact absurd ((hfi.tinv.ones s).mpr (hmemup s hmem)) hs
        · exact hsuccR x hxr

/-- Closing a component: when `strongconnect(n)` finds `n`'s lowlink at its
own index after the successor loop, popping the block above and including `n`
restores the entry stack and yields the call's postcondition.  The popped
block is mutually reachable with `n`, so a block of more than one member
witnesses a cycle; a singleton pop has all its non-self successors already
popped. -/
theorem tarjan_pop {g : List (String × List String)} {st0 : TarjanState} {n : String}
    {st2 : TarjanState} {X : List String}
    (hfi : FoldInv g st0 n st2) (hn0 : idxOf st0 n = none) (hT0 : TInv g st0)
    (hshape : st2.stack = X ++ n :: st0.stack)
    (hX1 : ∀ w ∈ X, lowOf st2 w < (idxOf st2 w).getD 0)
    (hX2 : ∀ w ∈ X, lowOf st2 n ≤ lowOf st2 w)
    (hcond : lowOf st2 n = (idxOf st2 n).getD 0)
    (hsucc : ∀ x ∈ adjOf g n, (idxOf st2 x).isSome ∧
      (x ∈ st0.stack → lowOf st2 n ≤ (idxOf st2 x).getD 0)) :
    SCPost g st0 n
      { st2 with
        stack := st0.stack
        onStack := st2.onStack.filter (fun x => ¬ x ∈ (X ++ [n]))
        sccs := if 1 < (X ++ [n]).length then st2.sccs ++ [X ++ [n]] else st2.sccs
        popped := st2.popped ++ (X ++ [n]) } := by
  have hnodup2 := hfi.tinv.snodup
  rw [hshape] at hnodup2
  obtain ⟨hXnd, hcons_nd, hdisj⟩ := List.nodup_append.mp hnodup2
  have hnX : n ∉ X := fun hmem => hdisj hmem (List.mem_cons_self _ _)
  have h0nd : st0.stack.Nodup := (List.nodup_cons.mp hcons_nd).2
  have hn0stk : n ∉ st0.stack := (List.nodup_cons.mp hcons_nd).1
  have hlow2n : lowOf st2 n = st0.counter := by
    rw [hcond, hfi.idxn]
    rfl
  have hold_lt : ∀ w ∈ st0.stack, (idxOf st2 w).getD 0 < st0.counter := by
    intro w hw
    have h0 := hT0.sidx w hw
    obtain ⟨v, hv⟩ := Option.isSome_iff_exists.mp h0
    have hb := hT0.ibound w v hv
    rw [hfi.ifr w h0, hv]
    simpa using hb
  have hXfresh : ∀ w ∈ X, Reach g n w ∧ st0.counter < (idxOf st2 w).getD 0 := by
    intro w hw
    have hwstk : w ∈ st2.stack := by
      rw [hshape]
      exact List.mem_append_left _ hw
    have hidxw := hfi.tinv.sidx w hwstk
    rcases hfi.inew w hidxw with hold | he | hnew
    · exfalso
      rcases hT0.ipart w hold with hws | hwp
      · exact hdisj hw (List.mem_cons_of_mem _ hws)
      · obtain ⟨P, hP⟩ := hfi.pops
        exact hfi.tinv.sdisj w hwstk (by rw [hP]; exact List.mem_append_left _ hwp)
    · exact absurd (he ▸ hw) hnX
    · exact hnew
  have hfwd : ∀ w ∈ X, Reach g w n := by
    have key : ∀ iv : Nat, ∀ w ∈ X, (idxOf st2 w).getD 0 = iv → Reach g w n := by
      intro iv
      induction iv using Nat.strong_induction_on with
      | _ iv ihiv =>
        intro w hw hwiv
        have hwstk : w ∈ st2.stack := by
          rw [hshape]
          exact List.mem_append_left _ hw
        obtain ⟨z, hz, hzi, hzr⟩ := hfi.tinv.lw w hwstk
        have h1 := hX2 w hw
        have h2 := hX1 w hw
        rw [hshape] at hz
        rcases List.mem_append.mp hz with hzX | hzr2
        · have h3 := ihiv ((idxOf st2 z).getD 0)
            (by rw [hzi, ← hwiv]; exact h2) z hzX rfl
          exact Reach.trans hzr h3
        · rcases List.mem_cons.mp hzr2 with he | hzold
          · rw [he] at hzr
            exact hzr
          · exfalso
            have h4 := hold_lt z hzold
            rw [hzi] at h4
            omega
    exact fun w hw => key _ w hw rfl
  have hpart1 : ∀ w, w ∈ X ++ [n] → w ∈ st2.stack := by
    intro w hw
    rw [hshape]
    rcases List.mem_append.mp hw with h1 | h2
    · exact List.mem_append_left _ h1
    · rw [List.mem_singleton] at h2
      exact List.mem_append_right _ (by rw [h2]; exact List.mem_cons_self _ _)
  have hp1nd : (X ++ [n]).Nodup := by
    refine List.nodup_append.mpr ⟨hXnd, by simp, ?_⟩
    intro a ha hb
    rw [List.mem_singleton] at hb
    exact hnX (hb ▸ ha)
  refine ⟨⟨?_, ?_, ?_, ?_, ?_, ?_, ?_, ?_, ?_, ?_, ?_, ?_, ?_⟩,
    hfi.idxn, hfi.cmon, hfi.ifr, hfi.lfr, hfi.inew, ?_, ?_, Or.inl rfl, ?_⟩
  · exact h0nd
  · intro w
    show w ∈ st2.onStack.filter (fun x => ¬ x ∈ (X ++ [n])) ↔ w ∈ st0.stack
    rw [List.mem_filter]
    constructor
    · rintro ⟨h1, h2⟩
      simp only [decide_eq_true_eq] at h2
      have h3 := (hfi.tinv.ones w).mp h1
      rw [hshape] at h3
      rcases List.mem_append.mp h3 with h4 | h5
      · exact absurd (List.mem_append_left _ h4) h2
      · rcases List.mem_cons.mp h5 with h6 | h7
        · exact absurd (List.mem_append_right _ (by rw [h6]; simp)) h2
        · exact h7
    · intro h1
      have hmem2 : w ∈ st2.stack := by
        rw [hshape]
        exact List.mem_append_right _ (List.mem_cons_of_mem _ h1)
      refine ⟨(hfi.tinv.ones w).mpr hmem2, ?_⟩
      simp only [decide_eq_true_eq]
      intro h2
      rcases List.mem_append.mp h2 with h3 | h4
      · exact hdisj h3 (List.mem_cons_of_mem _ h1)
      · rw [List.mem_singleton] at h4
        exact hn0stk (h4 ▸ h1)
  · intro w hw
    have hmem2 : w ∈ st2.stack := by
      rw [hshape]
      exact List.mem_append_right _ (List.mem_cons_of_mem _ hw)
    exact hfi.tinv.sidx w hmem2
  · intro w hw
    rcases List.mem_append.mp hw with h1 | h2
    · exact hfi.tinv.pidx w h1
    · exact hfi.tinv.sidx w (hpart1 w h2)
  · exact hfi.tinv.ibound
  · intro w hw
    rcases hfi.tinv.ipart w hw with h1 | h2
    · rw [hshape] at h1
      rcases List.mem_append.mp h1 with h3 | h4
      · exact Or.inr (List.mem_append_right _ (List.mem_append_left _ h3))
      · rcases List.mem_cons.mp h4 with h5 | h6
        · exact Or.inr (List.mem_append_right _ (List.mem_append_right _ (by rw [h5]; simp)))
        · exact Or.inl h6
    · exact Or.inr (List.mem_append_left _ h2)
  · intro w hw hp
    rcases List.mem_append.mp hp with h1 | h2
    · have hmem2 : w ∈ st2.stack := by
        rw [hshape]
        exact List.mem_append_right _ (List.mem_cons_of_mem _ hw)
      exact hfi.tinv.sdisj w hmem2 h1
    · rcases List.mem_append.mp h2 with h3 | h4
      · exact hdisj h3 (List.mem_cons_of_mem _ hw)
      · rw [List.mem_singleton] at h4
        exact hn0stk (h4 ▸ hw)
  · refine List.nodup_append.mpr ⟨hfi.tinv.pnodup, hp1nd, ?_⟩
    intro a ha hb
    exact hfi.tinv.sdisj a (hpart1 a hb) ha
  · have hsub : st0.stack.Sublist st2.stack := by
      rw [hshape]
      exact List.Sublist.trans (List.sublist_cons_self n st0.stack)
        (List.sublist_append_right X (n :: st0.stack))
    exact (hfi.tinv.sorted).sublist hsub
  · intro w hw
    have hmem2 : w ∈ st2.stack := by
      rw [hshape]
      exact List.mem_append_right _ (List.mem_cons_of_mem _ hw)
    exact hfi.tinv.lowle w hmem2
  · intro w hw
    have hwstk : w ∈ st2.stack := by
      rw [hshape]
      exact List.mem_append_right _ (List.mem_cons_of_mem _ hw)
    obtain ⟨z, hz, hzi, hzr⟩ := hfi.tinv.lw w hwstk
    have hwlt := hold_lt w hw
    have hlow_lt : lowOf st2 w < st0.counter := by
      have := hfi.tinv.lowle w hwstk
      omega
    rw [hshape] at hz
    rcases List.mem_append.mp hz with hzX | hzr2
    · exfalso
      have := (hXfresh z hzX).2
      omega
    · rcases List.mem_cons.mp hzr2 with he | hzold
      · exfalso
        have : (idxOf st2 z).getD 0 = st0.counter := by
          rw [he, hfi.idxn]
          rfl
        omega
      · exact ⟨z, hzold, hzi, hzr⟩
  · by_cases hlen : 1 < (X ++ [n]).length
    · rw [if_pos hlen]
      intro c hc
      rcases List.mem_append.mp hc with h1 | h2
      · exact hfi.tinv.good c h1
      · rw [List.mem_singleton] at h2
        subst h2
        cases X with
        | nil => simp at hlen
        | cons a X2 =>
          refine ⟨a, n, by simp, by simp, ?_, hfwd a (by simp), (hXfresh a (by simp)).1⟩
          intro he
          exact hnX (by rw [← he]; simp)
    · rw [if_neg hlen]
      exact hfi.tinv.good
  · by_cases hlen : 1 < (X ++ [n]).length
    · rw [if_pos hlen]
      intro k hk b hb hbne
      exact Or.inl (by simp)
    · rw [if_neg hlen]
      have hXnil : X = [] := by
        cases X with
        | nil => rfl
        | cons a X2 => simp at hlen
      subst hXnil
      intro k hk b hb hbne
      simp only [List.nil_append] at hk hb hbne ⊢
      rw [List.length_append, List.length_singleton] at hk
      by_cases hkl : k < st2.popped.length
      · have hget : (st2.popped ++ [n]).get ⟨k, by rw [List.length_append]; omega⟩ =
            st2.popped.get ⟨k, hkl⟩ := by
          simp [List.getElem_append, hkl]
        rw [hget] at hb hbne
        rcases hfi.tinv.ep k hkl b hb hbne with h1 | h2
        · exact Or.inl h1
        · refine Or.inr ?_
          rw [List.take_append_of_le_length (by omega)]
          exact h2
      · have hke : k = st2.popped.length := by omega
        subst hke
        have hget : (st2.popped ++ [n]).get ⟨st2.popped.length, by simp⟩ = n := by
          simp
        rw [hget] at hb hbne
        refine Or.inr ?_
        rw [List.take_append_of_le_length (le_refl _), List.take_length]
        obtain ⟨hbsome, hbstk⟩ := hsucc b hb
        rcases hfi.tinv.ipart b hbsome with h1 | h2
        · rw [hshape] at h1
          simp only [List.nil_append] at h1
          rcases List.mem_cons.mp h1 with h3 | h4
          · exact absurd h3 hbne
          · exfalso
            have h5 := hbstk h4
            have h6 := hold_lt b h4
            omega
        · exact h2
  · obtain ⟨P, hP⟩ := hfi.pops
    exact ⟨P ++ (X ++ [n]), by rw [hP, List.append_assoc]⟩
  · obtain ⟨S, hS⟩ := hfi.sccse
    by_cases hlen : 1 < (X ++ [n]).length
    · rw [if_pos hlen]
      exact ⟨S ++ [X ++ [n]], by rw [hS, List.append_assoc]⟩
    · rw [if_neg hlen]
      exact ⟨S, hS⟩
  · intro _
    refine ⟨List.mem_append_right _ (List.mem_append_right _ (by simp)), ?_⟩
    exact hlow2n

/-- Full specification of `strongconnect` by induction on fuel: with enough
fuel for the unindexed nodes, every call from an invariant state on an
unindexed known function satisfies its postcondition. -/
theorem strongconnect_spec (g : List (String × List String)) (fs : List String)
    (hcl : ∀ u c, c ∈ adjOf g u → u ∈ fs ∧ c ∈ fs) :
    ∀ fuel : Nat, ∀ (st : TarjanState) (n : String), TInv g st → idxOf st n = none →
      n ∈ fs → (fs.filter (fun u => (idxOf st u).isNone)).length ≤ fuel →
      SCPost g st n (strongconnect g fuel st n) := by
  intro fuel
  induction fuel with
  | zero =>
    intro st n htinv hidx hnfs hm
    exfalso
    have hmem : n ∈ fs.filter (fun u => (idxOf st u).isNone) :=
      List.mem_filter.mpr ⟨hnfs, by simp [hidx]⟩
    have := List.length_pos_of_mem hmem
    omega
  | succ fuel2 ih =>
    intro st n htinv hidx hnfs hm
    have hpush := tarjan_push htinv hidx
    obtain ⟨hfi2, hlow2, hifr2, hsucc2⟩ :=
      tarjan_fold g fs fuel2 ih hcl st n hidx hnfs hm (adjOf g n) _ hpush (fun x hx => hx)
    set st2 := visitSuccs g fuel2
      { counter := st.counter + 1
        stack := n :: st.stack
        indexM := setAL st.indexM n st.counter
        lowlinkM := setAL st.lowlinkM n st.counter
        onStack := n :: st.onStack
        sccs := st.sccs
        popped := st.popped } n (adjOf g n) with hst2
    by_cases hcond : lowOf st2 n = (idxOf st2 n).getD 0
    · obtain ⟨X, hshape, hX1, hX2⟩ := hfi2.stck
      have hnX : n ∉ X := by
        intro hmem
        have hnd := hfi2.tinv.snodup
        rw [hshape] at hnd
        obtain ⟨_, _, hd2⟩ := List.nodup_append.mp hnd
        exact hd2 hmem (List.mem_cons_self _ _)
      have hpopeq : popUntil st2.stack n = (X ++ [n], st.stack) := by
        rw [hshape]
        exact popUntil_eq hnX
      have hpop := tarjan_pop hfi2 hidx htinv hshape hX1 hX2 hcond hsucc2
      have heq : strongconnect g (fuel2 + 1) st n =
          { st2 with
            stack := (popUntil st2.stack n).2
            onStack := st2.onStack.filter (fun x => ¬ x ∈ (popUntil st2.stack n).1)
            sccs := if 1 < (popUntil st2.stack n).1.length then
              st2.sccs ++ [(popUntil st2.stack n).1] else st2.sccs
            popped := st2.popped ++ (popUntil st2.stack n).1 } := by
        rw [strongconnect_succ]
        exact if_pos hcond
      rw [heq, hpopeq]
      exact hpop
    · have heq : strongconnect g (fuel2 + 1) st n = st2 := by
        rw [strongconnect_succ]
        exact if_neg hcond
      rw [heq]
      obtain ⟨X, hshape, hX1, hX2⟩ := hfi2.stck
      have hnstk2 : n ∈ st2.stack := by
        rw [hshape]
        exact List.mem_append_right _ (List.mem_cons_self _ _)
      have hgetd : (idxOf st2 n).getD 0 = st.counter := by
        rw [hfi2.idxn]
        rfl
      have hlowlt : lowOf st2 n < st.counter := by
        have h1 := hfi2.tinv.lowle n hnstk2
        rw [hgetd] at h1
        rw [hgetd] at hcond
        omega
      refine ⟨hfi2.tinv, hfi2.idxn, hfi2.cmon, hfi2.ifr, hfi2.lfr, hfi2.inew, hfi2.pops,
        hfi2.sccse, Or.inr ⟨X, hshape, hX1, hX2, hlowlt⟩, ?_⟩
      intro habs
      exfalso
      rw [hshape] at habs
      have hlen := congrArg List.length habs
      rw [List.length_append, List.length_cons] at hlen
      omega

/-- The starting state of `detect_cycles` satisfies the Tarjan invariant. -/
theorem tinv_init (g : List (String × List String)) : TInv g initTarjan := by
  constructor <;> simp [initTarjan, idxOf, lookupAL]

/-- A top-level `strongconnect` call (empty entry stack) always closes its
component: the open-stack outcome would leave a lowlink witness below the
entry counter on a stack of entirely fresh nodes. -/
theorem scpost_closed {g : List (String × List String)} {st : TarjanState} {n : String}
    {st2 : TarjanState} (hT : TInv g st) (hp : SCPost g st n st2) (he : st.stack = []) :
    st2.stack = [] := by
  rcases hp.stck with h | ⟨X, hsh, hX1, hX2, hlt⟩
  · rw [h, he]
  · exfalso
    have hge : ∀ w ∈ st2.stack, st.counter ≤ (idxOf st2 w).getD 0 := by
      intro w hw
      have hsome := hp.tinv.sidx w hw
      rcases hp.inew w hsome with hold | hwn | ⟨_, hlt2⟩
      · exfalso
        rcases hT.ipart w hold with hs | hpo
        · rw [he] at hs
          exact absurd hs (List.not_mem_nil w)
        · obtain ⟨P, hP⟩ := hp.pops
          exact hp.tinv.sdisj w hw (by rw [hP]; exact List.mem_append_left _ hpo)
      · rw [hwn, hp.idxn]
        exact Nat.le_refl _
      · omega
    have hn2 : n ∈ st2.stack := by
      rw [hsh]
      exact List.mem_append_right _ (List.mem_cons_self _ _)
    obtain ⟨z, hz, hzi, _⟩ := hp.tinv.lw n hn2
    have hzge := hge z hz
    rw [hzi] at hzge
    omega

/-- Specification of the outer loop of `detect_cycles`: from an invariant
state with empty stack it preserves the invariant and the empty stack, indexes
every visited node, keeps existing indices, and only appends components. -/
theorem detectLoop_spec (g : List (String × List String)) (fs : List String)
    (hcl : ∀ u c, c ∈ adjOf g u → u ∈ fs ∧ c ∈ fs) (fuel : Nat) (hfuel : fs.length < fuel) :
    ∀ (nodes : List String) (st : TarjanState), (∀ x ∈ nodes, x ∈ fs) → TInv g st →
      st.stack = [] →
      TInv g (detectLoop g fuel nodes st) ∧ (detectLoop g fuel nodes st).stack = [] ∧
      (∀ f ∈ nodes, (idxOf (detectLoop g fuel nodes st) f).isSome) ∧
      (∀ w, (idxOf st w).isSome → idxOf (detectLoop g fuel nodes st) w = idxOf st w) ∧
      (∃ S, (detectLoop g fuel nodes st).sccs = st.sccs ++ S) := by
  intro nodes
  induction nodes with
  | nil =>
    intro st hsub hT he
    refine ⟨hT, he, ?_, fun w _ => rfl, [], ?_⟩
    · intro f hf
      exact absurd hf (List.not_mem_nil f)
    · show st.sccs = st.sccs ++ []
      rw [List.append_nil]
  | cons n rest ih =>
    intro st hsub hT he
    by_cases hn : (idxOf st n).isSome = true
    · simp only [detectLoop, if_pos hn]
      obtain ⟨h1, h2, h3, h4, S, h5⟩ :=
        ih st (fun x hx => hsub x (List.mem_cons_of_mem _ hx)) hT he
      refine ⟨h1, h2, ?_, h4, S, h5⟩
      intro f hf
      rcases List.mem_cons.mp hf with hfn | hf2
      · rw [hfn, h4 n hn]
        exact hn
      · exact h3 f hf2
    · simp only [detectLoop, if_neg hn]
      have hidx : idxOf st n = none := Option.not_isSome_iff_eq_none.mp hn
      have hmeas : (fs.filter (fun u => (idxOf st u).isNone)).length ≤ fuel :=
        le_of_lt (lt_of_le_of_lt (List.length_filter_le _ _) hfuel)
      have hsc := strongconnect_spec g fs hcl fuel st n hT hidx
        (hsub n (List.mem_cons_self _ _)) hmeas
      have hclosed : (strongconnect g fuel st n).stack = [] := scpost_closed hT hsc he
      obtain ⟨h1, h2, h3, h4, S, h5⟩ := ih (strongconnect g fuel st n)
        (fun x hx => hsub x (List.mem_cons_of_mem _ hx)) hsc.tinv hclosed
      have hnidx : (idxOf (strongconnect g fuel st n) n).isSome = true := by
        rw [hsc.idxn]
        rfl
      refine ⟨h1, h2, ?_, ?_, ?_⟩
      · intro f hf
        rcases List.mem_cons.mp hf with hfn | hf2
        · rw [hfn, h4 n hnidx]
          exact hnidx
        · exact h3 f hf2
      · intro w hw
        rw [h4 w (by rw [hsc.ifr w hw]; exact hw), hsc.ifr w hw]
      · obtain ⟨S2, hS2⟩ := hsc.sccse
        exact ⟨S2 ++ S, by rw [h5, hS2, List.append_assoc]⟩

/-- An entry of a prefix of a list is the entry of the list itself. -/
theorem get_take_eq {α : Type} : ∀ (l : List α) (k j : Nat) (hj : j < (l.take k).length)
    (hj2 : j < l.length), (l.take k).get ⟨j, hj⟩ = l.get ⟨j, hj2⟩ := by
  intro l
  induction l with
  | nil =>
    intro k j hj hj2
    exact absurd hj2 (by simp)
  | cons a rest ih =>
    intro k j hj hj2
    cases k with
    | zero =>
      rw [List.take_zero] at hj
      exact absurd hj (by simp)
    | succ k2 =>
      cases j with
      | zero => rfl
      | succ j2 =>
        have hj3 : j2 < (rest.take k2).length := by
          rw [List.take_succ_cons, List.length_cons] at hj
          omega
        have hj4 : j2 < rest.length := by
          rw [List.length_cons] at hj2
          omega
        exact ih k2 j2 hj3 hj4

/-- Two distinct mutually reachable nodes give a closed walk of positive
length. -/
theorem reach_cycle (g : List (String × List String)) (x y : String) (hxy : x ≠ y)
    (h1 : Reach g x y) (h2 : Reach g y x) :
    ∃ u m, PathN (adjOf g) u u (m + 1) := by
  obtain ⟨n1, hp1⟩ := h1
  obtain ⟨n2, hp2⟩ := h2
  have hcomp := PathN.comp hp1 hp2
  have hpos : 1 ≤ n1 + n2 := by
    by_contra hc
    push_neg at hc
    have hn1 : n1 = 0 := by omega
    subst hn1
    cases hp1
    exact hxy rfl
  refine ⟨x, n1 + n2 - 1, ?_⟩
  have he : n1 + n2 - 1 + 1 = n1 + n2 := by omega
  rw [he]
  exact hcomp

/-- Every component returned by `detect_cycles` holds two distinct mutually
reachable functions. -/
theorem detect_sound {b : CallGraphBuilder} (hb : Built b) :
    ∀ c ∈ b.detect_cycles, ∃ x y, x ∈ c ∧ y ∈ c ∧ x ≠ y ∧
      Reach b.graph x y ∧ Reach b.graph y x := by
  have hcl : ∀ u c, c ∈ adjOf b.graph u → u ∈ b.functions ∧ c ∈ b.functions :=
    fun u c h => built_adj_mem hb h
  obtain ⟨hT, _, _, _, _⟩ := detectLoop_spec b.graph b.functions hcl
    (b.functions.length + 1) (Nat.lt_succ_self _) b.functions initTarjan
    (fun x hx => hx) (tinv_init _) rfl
  exact fun c hc => hT.good c hc

/-- When `detect_cycles` returns nothing and no function calls itself, the
call graph has no closed walk: the pop order is a reverse topological order,
along which every edge strictly descends. -/
theorem detect_acyclic {b : CallGraphBuilder} (hb : Built b)
    (hself : ∀ f, f ∉ adjOf b.graph f) (hd : b.detect_cycles = []) :
    ¬ ∃ u m, PathN (adjOf b.graph) u u (m + 1) := by
  rintro ⟨u, m, hp⟩
  have hcl : ∀ u2 c, c ∈ adjOf b.graph u2 → u2 ∈ b.functions ∧ c ∈ b.functions :=
    fun u2 c h => built_adj_mem hb h
  obtain ⟨hT, hstk, hall, _, _⟩ := detectLoop_spec b.graph b.functions hcl
    (b.functions.length + 1) (Nat.lt_succ_self _) b.functions initTarjan
    (fun x hx => hx) (tinv_init _) rfl
  set st := detectLoop b.graph (b.functions.length + 1) b.functions initTarjan with hst
  have hsccs : st.sccs = [] := hd
  have hufs : u ∈ b.functions := by
    cases hp with
    | step hc _ => exact (hcl _ _ hc).1
  have hupop : u ∈ st.popped := by
    rcases hT.ipart u (hall u hufs) with hs | hp2
    · rw [hstk] at hs
      exact absurd hs (List.not_mem_nil u)
    · exact hp2
  obtain ⟨⟨k, hk⟩, hget⟩ := List.mem_iff_get.mp hupop
  have hdesc : ∀ (mm : Nat) (a bb : String), PathN (adjOf b.graph) a bb mm →
      ∀ (k : Nat) (hk : k < st.popped.length), st.popped.get ⟨k, hk⟩ = a →
      ∃ k2, ∃ hk2 : k2 < st.popped.length, st.popped.get ⟨k2, hk2⟩ = bb ∧ k2 ≤ k ∧
        (1 ≤ mm → k2 < k) := by
    intro mm a bb hpath
    induction hpath with
    | refl x =>
      intro k hk hget2
      exact ⟨k, hk, hget2, Nat.le_refl k, fun h1 => absurd h1 (by omega)⟩
    | @step x c y nn hedge htail ih =>
      intro k hk hget2
      have hne : c ≠ x := by
        intro hcx
        rw [hcx] at hedge
        exact hself x hedge
      have hep := hT.ep k hk c (by rw [hget2]; exact hedge) (by rw [hget2]; exact hne)
      rcases hep with hbad | hintake
      · exact absurd hsccs hbad
      · obtain ⟨⟨j, hj⟩, hgetj⟩ := List.mem_iff_get.mp hintake
        have hjk : j < k := lt_of_lt_of_le hj (by rw [List.length_take]; exact min_le_left _ _)
        have hjlen : j < st.popped.length :=
          lt_of_lt_of_le hj (by rw [List.length_take]; exact min_le_right _ _)
        have hgetj2 : st.popped.get ⟨j, hjlen⟩ = c := by
          rw [← hgetj]
          exact (get_take_eq st.popped k j hj hjlen).symm
        obtain ⟨k2, hk2, hgk2, hle2, _⟩ := ih j hjlen hgetj2
        exact ⟨k2, hk2, hgk2, Nat.le_trans hle2 (Nat.le_of_lt hjk),
          fun _ => lt_of_le_of_lt hle2 hjk⟩
  obtain ⟨k2, hk2, hgk2, _, hlt⟩ := hdesc (m + 1) u u hp k hk hget
  have hklt := hlt (by omega)
  have hfin : (⟨k2, hk2⟩ : Fin st.popped.length) = ⟨k, hk⟩ := by
    apply (List.Nodup.get_inj_iff hT.pnodup).mp
    rw [hgk2, hget]
  rw [Fin.mk.injEq] at hfin
  omega

/-- Claim C1 (amended): for every built graph in which no function calls
itself, `topological_sort` outputs as many entries as there are known
functions if and only if `detect_cycles` returns an empty list; and whenever
the graph holds a closed walk, `topological_sort` returns strictly fewer
entries than the function count (and, being a total function, raises no
error).  The no-self-call hypothesis is necessary: `claim_C1_cex` refutes the
unconditional equivalence. -/
theorem claim_C1 (b : CallGraphBuilder) (hb : Built b)
    (hself : ∀ f, f ∉ adjOf b.graph f) :
    (b.topological_sort.length = b.functions.length ↔ b.detect_cycles = []) ∧
    ((∃ u m, PathN (adjOf b.graph) u u (m + 1)) →
      b.topological_sort.length < b.functions.length) := by
  constructor
  · constructor
    · intro hlen
      by_contra hne
      obtain ⟨c, hc⟩ := List.exists_mem_of_ne_nil _ hne
      obtain ⟨x, y, _, _, hxy, hr1, hr2⟩ := detect_sound hb c hc
      obtain ⟨u, m, hcyc⟩ := reach_cycle b.graph x y hxy hr1 hr2
      have := kahn_sound hb hcyc
      omega
    · intro hd
      exact kahn_complete hb (detect_acyclic hb hself hd)
  · rintro ⟨u, m, hcyc⟩
    exact kahn_sound hb hcyc

/-- Claim C1 amended, witnessed on the graph A→B, B→C, C→A, D→A: no function
calls itself, the equivalence holds there, and the A→B→C→A cycle makes the
sort output strictly shorter than the function count. -/
theorem claim_C1_witness :
    (builderC4.topological_sort.length = builderC4.functions.length ↔
      builderC4.detect_cycles = []) ∧
    builderC4.topological_sort.length < builderC4.functions.length := by
  have hb : Built builderC4 :=
    Built.step "D" "A" (Built.step "C" "A" (Built.step "B" "C"
      (Built.step "A" "B" Built.empty)))
  have hself : ∀ f, f ∉ adjOf builderC4.graph f := by
    intro f hmem
    rcases hl : lookupAL builderC4.graph f with _ | l
    · rw [adjOf, hl] at hmem
      exact absurd hmem (List.not_mem_nil f)
    · have hpm := lookupAL_mem hl
      have hmf : f ∈ builderC4.graph.map Prod.fst := List.mem_map.mpr ⟨(f, l), hpm, rfl⟩
      have hall : ∀ x ∈ builderC4.graph.map Prod.fst,
          x = "A" ∨ x = "B" ∨ x = "C" ∨ x = "D" := by decide
      rcases hall f hmf with rfl | rfl | rfl | rfl <;> revert hmem <;> decide
  have h := claim_C1 builderC4 hb hself
  have hcyc : PathN (adjOf builderC4.graph) "A" "A" 3 :=
    PathN.step (show "B" ∈ adjOf builderC4.graph "A" by decide)
      (PathN.step (show "C" ∈ adjOf builderC4.graph "B" by decide)
        (PathN.step (show "A" ∈ adjOf builderC4.graph "C" by decide) (PathN.refl "A")))
  exact ⟨h.1, h.2 ⟨"A", 2, hcyc⟩⟩
